import Mathlib

set_option maxRecDepth 8000

/-
Verification of the Calculator repository (src/Python/main_interface_flet.py and
src/Python/main_interface_tkinter.py).

Both GUIs evaluate the accumulated expression string with Python's builtin
`eval` and display `str(result)`.  The development therefore contains:

* a shallow embedding of Python's `eval`/`str` semantics restricted to the
  calculator's expression language (tokenizer with `**`/`//` merging and the
  leading-zero integer-literal rule, recursive-descent parser with Python's
  precedence, int/float value model, `repr`-style float formatting).  Python
  floats are modelled as exact rationals: IEEE-754 rounding, overflow to
  infinity and the shortest-round-trip digit selection are machine float
  behaviour outside this embedding; where the model must pick digits for a
  non-terminating decimal it truncates at 17 significant digits.
* the spec's own tokenizer and grammar (spec §4.1/§4.2), used as the
  specification side of refinement claims (definitions named `spec...`).
* the two GUI state machines (`fletStep`, `tkStep`) transcribed from the
  Python sources.
-/

/-! ## Characters and digit strings -/

/-- Decimal digit test, `'0' ≤ c ≤ '9'`. -/
def isDig (c : Char) : Bool := '0' ≤ c && c ≤ '9'

/-- Numeric value of a digit character. -/
def digVal (c : Char) : ℕ := c.toNat - 48

/-- Numeric value of a big-endian string of digit characters. -/
def natOfChars (ds : List Char) : ℕ := ds.foldl (fun a c => 10 * a + digVal c) 0

/-- Powers of ten on naturals, written out recursively so that they evaluate
by kernel reduction (Mathlib's `Monoid.npow` does not). -/
def pow10 : Nat → Nat
  | 0 => 1
  | n + 1 => 10 * pow10 n

theorem pow10_eq (n : ℕ) : pow10 n = 10 ^ n := by
  induction n with
  | zero => rfl
  | succ n ih => rw [pow10, ih, pow_succ, Nat.mul_comm]

/-- Generic natural power, kernel-evaluable. -/
def npowN (b : Nat) : Nat → Nat
  | 0 => 1
  | n + 1 => b * npowN b n

theorem npowN_eq (b n : ℕ) : npowN b n = b ^ n := by
  induction n with
  | zero => rfl
  | succ n ih => rw [npowN, ih, pow_succ, Nat.mul_comm]

/-- Integer power with natural exponent, kernel-evaluable. -/
def ipow (x : Int) : Nat → Int
  | 0 => 1
  | n + 1 => x * ipow x n

theorem ipow_eq (x : ℤ) (n : ℕ) : ipow x n = x ^ n := by
  induction n with
  | zero => rfl
  | succ n ih => rw [ipow, ih, pow_succ, Int.mul_comm]

theorem pow10_pos (n : ℕ) : 0 < pow10 n := by
  rw [pow10_eq]; exact Nat.pos_pow_of_pos n (by omega)

theorem npowN_pos {b : ℕ} (hb : 0 < b) (k : ℕ) : 0 < npowN b k := by
  rw [npowN_eq]; exact Nat.pos_pow_of_pos k hb

theorem ipow_ne_zero {x : ℤ} (hx : x ≠ 0) (k : ℕ) : ipow x k ≠ 0 := by
  rw [ipow_eq]; exact pow_ne_zero k hx

/-- A Python float of the model: an exact rational stored as a raw
numerator/denominator pair (not necessarily reduced, denominator positive by
construction).  All evaluator arithmetic happens on these pairs in plain
`ℤ`/`ℕ` operations, which the kernel evaluates; the rational value is
recovered by `PyFloat.toRat` in specifications only. -/
structure PyFloat where
  num : Int
  den : Nat
  den_pos : 0 < den

instance : DecidableEq PyFloat := fun a b =>
  decidable_of_iff (a.num = b.num ∧ a.den = b.den) (by
    cases a
    cases b
    constructor
    · rintro ⟨h1, h2⟩
      cases h1
      cases h2
      rfl
    · intro h
      rw [h]
      exact ⟨rfl, rfl⟩)

/-- Rational value of a model float. -/
def PyFloat.toRat (x : PyFloat) : ℚ := Rat.divInt x.num (x.den : Int)

/-- Float value of a decimal lexeme with integer part `ip` and fractional
part `fp`: the digits over `10 ^ (number of fractional digits)`. -/
def floatOfParts (ip fp : List Char) : PyFloat :=
  ⟨natOfChars (ip ++ fp), pow10 fp.length, pow10_pos fp.length⟩

/-- Scale a float by `10 ^ z` (the `e`-exponent of a literal). -/
def scaleFloat (v : PyFloat) (z : Int) : PyFloat :=
  match z with
  | .ofNat k => ⟨v.num * (pow10 k : ℕ), v.den, v.den_pos⟩
  | .negSucc k => ⟨v.num, v.den * pow10 (k + 1),
      Nat.mul_pos v.den_pos (pow10_pos (k + 1))⟩

/-! ## Tokens and errors -/

deriving instance DecidableEq for Except

/-- Lexical tokens of the expression language.  `dstar`/`dslash` are Python's
`**` and `//`; the spec tokenizer (spec §4.1) never produces them. -/
inductive Tok where
  | int (n : ℕ)
  | float (v : PyFloat)
  | plus
  | minus
  | star
  | slash
  | dstar
  | dslash
  | lpar
  | rpar
deriving DecidableEq

/-- Error kinds raised by Python `eval` on calculator inputs.  `unsupported`
marks the one model boundary: a float power with non-integral exponent, whose
real value is irrational (or complex) and outside the rational model. -/
inductive PyErr where
  | syntaxError
  | zeroDivision
  | typeError
  | unsupported
deriving DecidableEq, Repr

/-- Error taxonomy of the spec (spec §7). -/
inductive SpecErr where
  | lexError
  | parseError
  | divByZero
deriving DecidableEq, Repr

/-! ## Shared number lexing

Both tokenizers recognise the same core decimal lexeme: a maximal run of
digits with at most one `'.'` (spec §4.1; Python's int/pointfloat literals). -/

/-- Split off a leading number lexeme: integer-part digits, whether a decimal
point was present, fractional digits, and the remaining characters. -/
def lexNum (cs : List Char) : List Char × Bool × List Char × List Char :=
  let p := cs.span isDig
  match p.2 with
  | '.' :: r2 =>
    let q := r2.span isDig
    (p.1, true, q.1, q.2)
  | _ => (p.1, false, [], p.2)

/-- Single-character operator and parenthesis tokens. -/
def charTok (c : Char) : Option Tok :=
  if c == '+' then some .plus
  else if c == '-' then some .minus
  else if c == '*' then some .star
  else if c == '/' then some .slash
  else if c == '(' then some .lpar
  else if c == ')' then some .rpar
  else none

/-! ## Spec tokenizer (spec §4.1) -/

/-- Tokenizer of spec §4.1: numbers (digits with at most one dot), the six
single-character tokens, tolerated ASCII spaces; any other character is a
`LexError`.  Fuel-indexed; each step consumes at least one character. -/
def specTokAux : Nat → List Char → Except SpecErr (List Tok)
  | 0, _ => .error .lexError
  | _ + 1, [] => .ok []
  | f + 1, c :: cs =>
    if c == ' ' then specTokAux f cs
    else if isDig c || c == '.' then
      match lexNum (c :: cs) with
      | (ip, hasDot, fp, rest) =>
        if ip.isEmpty && fp.isEmpty then .error .lexError
        else
          match specTokAux f rest with
          | .error e => .error e
          | .ok ts =>
            if hasDot then .ok (.float (floatOfParts ip fp) :: ts)
            else .ok (.int (natOfChars ip) :: ts)
    else
      match charTok c with
      | some t =>
        match specTokAux f cs with
        | .error e => .error e
        | .ok ts => .ok (t :: ts)
      | none => .error .lexError

/-- Spec tokenizer entry point. -/
def specTokenize (s : String) : Except SpecErr (List Tok) :=
  specTokAux (s.toList.length + 1) s.toList

/-! ## Python tokenizer (models CPython's tokenizer on these characters) -/

/-- Validity of a plain decimal integer literal in Python 3: a literal that
starts with `'0'` may contain only zeros. -/
def validIntLit (ds : List Char) : Bool :=
  match ds with
  | c :: rest => if c = '0' then rest.all (· == '0') else true
  | _ => true

/-- Tokenizer for Python `eval` restricted to calculator inputs: the shared
number lexeme with an optional `e`-exponent suffix (results fed back by the
GUIs can contain scientific notation), the leading-zero restriction on plain
integer literals, `**` and `//` merged into single tokens, spaces skipped,
and a `SyntaxError` for any other character. -/
def pyTokAux : Nat → List Char → Except PyErr (List Tok)
  | 0, _ => .error .syntaxError
  | _ + 1, [] => .ok []
  | f + 1, c :: cs =>
    if c == ' ' then pyTokAux f cs
    else if isDig c || c == '.' then
      match lexNum (c :: cs) with
      | (ip, hasDot, fp, rest) =>
        if ip.isEmpty && fp.isEmpty then .error .syntaxError
        else
          match rest with
          | 'e' :: r2 =>
            let sp : Int × List Char :=
              match r2 with
              | '+' :: r3 => (1, r3)
              | '-' :: r3 => (-1, r3)
              | _ => (1, r2)
            let ep := sp.2.span isDig
            if ep.1.isEmpty then .error .syntaxError
            else
              match pyTokAux f ep.2 with
              | .error e => .error e
              | .ok ts =>
                .ok (.float (scaleFloat (floatOfParts ip fp)
                      (sp.1 * (natOfChars ep.1 : Int))) :: ts)
          | _ =>
            match pyTokAux f rest with
            | .error e => .error e
            | .ok ts =>
              if hasDot then .ok (.float (floatOfParts ip fp) :: ts)
              else if validIntLit ip then .ok (.int (natOfChars ip) :: ts)
              else .error .syntaxError
    else if c == '*' then
      match cs with
      | '*' :: cs2 =>
        match pyTokAux f cs2 with
        | .error e => .error e
        | .ok ts => .ok (.dstar :: ts)
      | _ =>
        match pyTokAux f cs with
        | .error e => .error e
        | .ok ts => .ok (.star :: ts)
    else if c == '/' then
      match cs with
      | '/' :: cs2 =>
        match pyTokAux f cs2 with
        | .error e => .error e
        | .ok ts => .ok (.dslash :: ts)
      | _ =>
        match pyTokAux f cs with
        | .error e => .error e
        | .ok ts => .ok (.slash :: ts)
    else
      match charTok c with
      | some t =>
        match pyTokAux f cs with
        | .error e => .error e
        | .ok ts => .ok (t :: ts)
      | none => .error .syntaxError

/-- Python tokenizer entry point. -/
def pyTokenize (s : String) : Except PyErr (List Tok) :=
  pyTokAux (s.toList.length + 1) s.toList

example : pyTokenize "2**3" = .ok [.int 2, .dstar, .int 3] := rfl
example : specTokenize "2**3" = .ok [.int 2, .star, .star, .int 3] := rfl
example : pyTokenize "007" = .error .syntaxError := rfl
example : specTokenize "007" = .ok [.int 7] := rfl
example : pyTokenize "1e+16" = .ok [.float ⟨10000000000000000, 1, Nat.one_pos⟩] := by decide
example : pyTokenize "3.5" = .ok [.float ⟨35, 10, by omega⟩] := by decide

/-! ## Spec grammar (spec §4.2)

```
expr   := term (('+' | '-') term)*
term   := unary (('*' | '/') unary)*
unary  := '-' unary | primary
primary:= NUMBER | '(' expr ')'
```
-/

/-- Abstract syntax of the spec grammar (spec §4.2). -/
inductive SExpr where
  | num (q : ℚ)
  | add (a b : SExpr)
  | sub (a b : SExpr)
  | mul (a b : SExpr)
  | div (a b : SExpr)
  | neg (a : SExpr)
deriving DecidableEq, Repr

mutual

/-- Spec parser, `expr` production.  Fuel-indexed recursive descent. -/
def sExpr : Nat → List Tok → Option (SExpr × List Tok)
  | 0, _ => none
  | f + 1, ts =>
    match sTerm f ts with
    | none => none
    | some (t, r) => sExprChain f t r

/-- Spec parser, the `(('+' | '-') term)*` loop, left-associative. -/
def sExprChain : Nat → SExpr → List Tok → Option (SExpr × List Tok)
  | f, acc, .plus :: r =>
    (match f with
     | 0 => none
     | f + 1 =>
       match sTerm f r with
       | none => none
       | some (t, r1) => sExprChain f (.add acc t) r1)
  | f, acc, .minus :: r =>
    (match f with
     | 0 => none
     | f + 1 =>
       match sTerm f r with
       | none => none
       | some (t, r1) => sExprChain f (.sub acc t) r1)
  | _, acc, ts => some (acc, ts)

/-- Spec parser, `term` production. -/
def sTerm : Nat → List Tok → Option (SExpr × List Tok)
  | 0, _ => none
  | f + 1, ts =>
    match sUnary f ts with
    | none => none
    | some (t, r) => sTermChain f t r

/-- Spec parser, the `(('*' | '/') unary)*` loop, left-associative. -/
def sTermChain : Nat → SExpr → List Tok → Option (SExpr × List Tok)
  | f, acc, .star :: r =>
    (match f with
     | 0 => none
     | f + 1 =>
       match sUnary f r with
       | none => none
       | some (t, r1) => sTermChain f (.mul acc t) r1)
  | f, acc, .slash :: r =>
    (match f with
     | 0 => none
     | f + 1 =>
       match sUnary f r with
       | none => none
       | some (t, r1) => sTermChain f (.div acc t) r1)
  | _, acc, ts => some (acc, ts)

/-- Spec parser, `unary := '-' unary | primary`. -/
def sUnary : Nat → List Tok → Option (SExpr × List Tok)
  | 0, _ => none
  | f + 1, .minus :: r =>
    match sUnary f r with
    | none => none
    | some (e, r1) => some (.neg e, r1)
  | f + 1, ts => sPrimary f ts

/-- Spec parser, `primary := NUMBER | '(' expr ')'`. -/
def sPrimary : Nat → List Tok → Option (SExpr × List Tok)
  | _ + 1, .int n :: r => some (.num n, r)
  | _ + 1, .float v :: r => some (.num v.toRat, r)
  | f + 1, .lpar :: r =>
    (match sExpr f r with
     | none => none
     | some (e, r1) =>
       match r1 with
       | .rpar :: r2 => some (e, r2)
       | _ => none)
  | _, _ => none

end

/-- Fuel that is always sufficient for either parser: each fuel unit is spent
only after consuming a token or descending one precedence level. -/
def parseFuel (ts : List Tok) : Nat := 4 * ts.length + 8

/-- Spec parser entry point: a parse succeeds only if it consumes the whole
token list (trailing tokens are a parse error, spec §4.2). -/
def specParseAll (ts : List Tok) : Option SExpr :=
  match sExpr (parseFuel ts) ts with
  | some (e, []) => some e
  | _ => none

/-- Evaluation of the spec grammar over exact rationals, with the
divide-by-zero check of spec §4.2. -/
def specEvalExpr : SExpr → Except SpecErr ℚ
  | .num q => .ok q
  | .add a b =>
    match specEvalExpr a with
    | .error e => .error e
    | .ok x =>
      match specEvalExpr b with
      | .error e => .error e
      | .ok y => .ok (x + y)
  | .sub a b =>
    match specEvalExpr a with
    | .error e => .error e
    | .ok x =>
      match specEvalExpr b with
      | .error e => .error e
      | .ok y => .ok (x - y)
  | .mul a b =>
    match specEvalExpr a with
    | .error e => .error e
    | .ok x =>
      match specEvalExpr b with
      | .error e => .error e
      | .ok y => .ok (x * y)
  | .div a b =>
    match specEvalExpr a with
    | .error e => .error e
    | .ok x =>
      match specEvalExpr b with
      | .error e => .error e
      | .ok y => if y = 0 then .error .divByZero else .ok (x / y)
  | .neg a =>
    match specEvalExpr a with
    | .error e => .error e
    | .ok x => .ok (-x)

/-- Evaluator of spec §6 `evaluate_expression`, specification side: tokenize,
parse the full token list, evaluate. -/
def specEvaluate (s : String) : Except SpecErr ℚ :=
  match specTokenize s with
  | .error e => .error e
  | .ok ts =>
    match specParseAll ts with
    | none => .error .parseError
    | some e => specEvalExpr e

/-! ## Python expressions and values

Python's expression grammar restricted to the tokens above:

```
expr   := term (('+' | '-') term)*
term   := factor (('*' | '/' | '//') factor)*
factor := ('+' | '-') factor | power
power  := postfix ['**' factor]
postfix:= atom ('(' [expr] ')')*
atom   := NUMBER | '(' expr ')'
```

Call suffixes parse (Python's grammar allows them) and always evaluate to a
`TypeError`, since every value of this language is a number. -/

/-- Abstract syntax of Python expressions over the calculator tokens. -/
inductive PExpr where
  | intLit (n : ℕ)
  | floatLit (v : PyFloat)
  | add (a b : PExpr)
  | sub (a b : PExpr)
  | mul (a b : PExpr)
  | div (a b : PExpr)
  | fdiv (a b : PExpr)
  | pow (a b : PExpr)
  | neg (a : PExpr)
  | pos (a : PExpr)
  | call0 (fn : PExpr)
  | call1 (fn : PExpr) (arg : PExpr)
deriving DecidableEq

mutual

/-- Python parser, `expr` production. -/
def pyExpr : Nat → List Tok → Option (PExpr × List Tok)
  | 0, _ => none
  | f + 1, ts =>
    match pyTerm f ts with
    | none => none
    | some (t, r) => pyExprChain f t r

/-- Python parser, additive chain, left-associative. -/
def pyExprChain : Nat → PExpr → List Tok → Option (PExpr × List Tok)
  | f, acc, .plus :: r =>
    (match f with
     | 0 => none
     | f + 1 =>
       match pyTerm f r with
       | none => none
       | some (t, r1) => pyExprChain f (.add acc t) r1)
  | f, acc, .minus :: r =>
    (match f with
     | 0 => none
     | f + 1 =>
       match pyTerm f r with
       | none => none
       | some (t, r1) => pyExprChain f (.sub acc t) r1)
  | _, acc, ts => some (acc, ts)

/-- Python parser, `term` production. -/
def pyTerm : Nat → List Tok → Option (PExpr × List Tok)
  | 0, _ => none
  | f + 1, ts =>
    match pyFactor f ts with
    | none => none
    | some (t, r) => pyTermChain f t r

/-- Python parser, multiplicative chain (`*`, `/`, `//`), left-associative. -/
def pyTermChain : Nat → PExpr → List Tok → Option (PExpr × List Tok)
  | f, acc, .star :: r =>
    (match f with
     | 0 => none
     | f + 1 =>
       match pyFactor f r with
       | none => none
       | some (t, r1) => pyTermChain f (.mul acc t) r1)
  | f, acc, .slash :: r =>
    (match f with
     | 0 => none
     | f + 1 =>
       match pyFactor f r with
       | none => none
       | some (t, r1) => pyTermChain f (.div acc t) r1)
  | f, acc, .dslash :: r =>
    (match f with
     | 0 => none
     | f + 1 =>
       match pyFactor f r with
       | none => none
       | some (t, r1) => pyTermChain f (.fdiv acc t) r1)
  | _, acc, ts => some (acc, ts)

/-- Python parser, `factor := ('+' | '-') factor | power`. -/
def pyFactor : Nat → List Tok → Option (PExpr × List Tok)
  | 0, _ => none
  | f + 1, .minus :: r =>
    match pyFactor f r with
    | none => none
    | some (e, r1) => some (.neg e, r1)
  | f + 1, .plus :: r =>
    match pyFactor f r with
    | none => none
    | some (e, r1) => some (.pos e, r1)
  | f + 1, ts => pyPower f ts

/-- Python parser, `power := atom trailer* ['**' factor]`: an atom (number
or parenthesised expression), then the call-suffix loop, then the optional
right-associative `**` exponent. -/
def pyPower : Nat → List Tok → Option (PExpr × List Tok)
  | 0, _ => none
  | f + 1, ts =>
    match
      (match ts with
       | .int n :: r => some ((PExpr.intLit n, r) : PExpr × List Tok)
       | .float v :: r => some (.floatLit v, r)
       | .lpar :: r =>
         (match pyExpr f r with
          | none => none
          | some (e, r1) =>
            match r1 with
            | .rpar :: r2 => some (e, r2)
            | _ => none)
       | _ => none) with
    | none => none
    | some (a, r) =>
      match pyTrail f a r with
      | none => none
      | some (e1, r1) =>
        match r1 with
        | .dstar :: r2 =>
          (match pyFactor f r2 with
           | none => none
           | some (x, r3) => some (.pow e1 x, r3))
        | _ => some (e1, r1)

/-- Python parser, the `('(' [expr] ')')*` call-suffix loop. -/
def pyTrail : Nat → PExpr → List Tok → Option (PExpr × List Tok)
  | f, e, .lpar :: r =>
    (match f with
     | 0 => none
     | f + 1 =>
       match r with
       | .rpar :: r2 => pyTrail f (.call0 e) r2
       | _ =>
         match pyExpr f r with
         | none => none
         | some (a, r1) =>
           match r1 with
           | .rpar :: r2 => pyTrail f (.call1 e a) r2
           | _ => none)
  | _, e, ts => some (e, ts)

end

/-- Python parser entry point: the whole token list must be consumed. -/
def pyParseAll (ts : List Tok) : Option PExpr :=
  match pyExpr (parseFuel ts) ts with
  | some (e, []) => some e
  | _ => none

/-! ## Python evaluation (int/float arithmetic of CPython, exact rationals) -/

/-- Values of Python `eval` on calculator inputs: `int` or `float`. -/
inductive PyVal where
  | int (n : Int)
  | float (v : PyFloat)
deriving DecidableEq

/-- Rational value of a Python value. -/
def pyValToRat : PyVal → ℚ
  | .int n => (n : ℚ)
  | .float v => v.toRat

/-- Executable zero test (denominators are positive by construction, so a
float is zero exactly when its numerator is). -/
def PyVal.isZero : PyVal → Bool
  | .int n => n == 0
  | .float v => v.num == 0

/-- Coerce a value to a float pair (Python's int-to-float promotion). -/
def PyVal.toF : PyVal → PyFloat
  | .int n => ⟨n, 1, Nat.one_pos⟩
  | .float v => v

theorem PyVal.toF_num_ne_zero : ∀ {y : PyVal}, y.isZero = false → y.toF.num ≠ 0 := by
  intro y h
  cases y with
  | int n =>
    simp only [PyVal.isZero, beq_eq_false_iff_ne, ne_eq] at h
    simpa [PyVal.toF] using h
  | float v =>
    simp only [PyVal.isZero, beq_eq_false_iff_ne, ne_eq] at h
    simpa [PyVal.toF] using h

/-- Python `+` on numbers: int stays int, otherwise float. -/
def pyAdd : PyVal → PyVal → PyVal
  | .int a, .int b => .int (a + b)
  | a, b => .float ⟨a.toF.num * b.toF.den + b.toF.num * a.toF.den,
                     a.toF.den * b.toF.den,
                     Nat.mul_pos a.toF.den_pos b.toF.den_pos⟩

/-- Python `-` on numbers. -/
def pySub : PyVal → PyVal → PyVal
  | .int a, .int b => .int (a - b)
  | a, b => .float ⟨a.toF.num * b.toF.den - b.toF.num * a.toF.den,
                     a.toF.den * b.toF.den,
                     Nat.mul_pos a.toF.den_pos b.toF.den_pos⟩

/-- Python `*` on numbers. -/
def pyMul : PyVal → PyVal → PyVal
  | .int a, .int b => .int (a * b)
  | a, b => .float ⟨a.toF.num * b.toF.num, a.toF.den * b.toF.den,
                     Nat.mul_pos a.toF.den_pos b.toF.den_pos⟩

/-- Python `/`: always true division into a float; a zero right operand
raises `ZeroDivisionError` (never infinity or NaN). -/
def pyDiv (a b : PyVal) : Except PyErr PyVal :=
  if hz : b.isZero then .error .zeroDivision
  else
    have hd : 0 < a.toF.den * b.toF.num.natAbs :=
      Nat.mul_pos a.toF.den_pos
        (Int.natAbs_pos.mpr (PyVal.toF_num_ne_zero (Bool.not_eq_true _ ▸ hz)))
    if 0 ≤ b.toF.num then
      .ok (.float ⟨a.toF.num * b.toF.den, a.toF.den * b.toF.num.natAbs, hd⟩)
    else
      .ok (.float ⟨-(a.toF.num * b.toF.den), a.toF.den * b.toF.num.natAbs, hd⟩)

/-- Python `//`: floor division; int on ints, floor-valued float otherwise. -/
def pyFloorDiv (a b : PyVal) : Except PyErr PyVal :=
  if b.isZero then .error .zeroDivision
  else
    match a, b with
    | .int x, .int y => .ok (.int (Int.fdiv x y))
    | a, b =>
      .ok (.float ⟨Int.fdiv (a.toF.num * b.toF.den) (a.toF.den * b.toF.num), 1,
            Nat.one_pos⟩)

/-- Python `**` on numbers.  `int ** nonnegative int` is an int; a negative
integer exponent produces a float (`ZeroDivisionError` on base 0); a float
power with integral exponent is computed exactly; a non-integral exponent is
the model boundary `unsupported` (CPython produces an irrational float or a
complex number there). -/
def pyPow (a b : PyVal) : Except PyErr PyVal :=
  match a, b with
  | .int x, .int y =>
    (match y with
     | .ofNat n => .ok (.int (ipow x n))
     | .negSucc n =>
       if hx : x = 0 then .error .zeroDivision
       else
         have hp : 0 < (ipow x (n + 1)).natAbs :=
           Int.natAbs_pos.mpr (ipow_ne_zero hx (n + 1))
         if 0 ≤ ipow x (n + 1) then
           .ok (.float ⟨1, (ipow x (n + 1)).natAbs, hp⟩)
         else
           .ok (.float ⟨-1, (ipow x (n + 1)).natAbs, hp⟩))
  | a, b =>
    if b.toF.num % (b.toF.den : Int) == 0 then
      match b.toF.num / (b.toF.den : Int) with
      | .ofNat k =>
        .ok (.float ⟨ipow a.toF.num k, npowN a.toF.den k,
              npowN_pos a.toF.den_pos k⟩)
      | .negSucc k =>
        if hx : a.toF.num = 0 then .error .zeroDivision
        else
          have hp : 0 < (ipow a.toF.num (k + 1)).natAbs :=
            Int.natAbs_pos.mpr (ipow_ne_zero hx (k + 1))
          if 0 ≤ ipow a.toF.num (k + 1) then
            .ok (.float ⟨(npowN a.toF.den (k + 1) : ℕ),
                  (ipow a.toF.num (k + 1)).natAbs, hp⟩)
          else
            .ok (.float ⟨-(npowN a.toF.den (k + 1) : ℕ),
                  (ipow a.toF.num (k + 1)).natAbs, hp⟩)
    else .error .unsupported

/-- Python unary minus. -/
def pyNeg : PyVal → PyVal
  | .int n => .int (-n)
  | .float v => .float ⟨-v.num, v.den, v.den_pos⟩

/-- Evaluator for Python expressions, left-to-right, first error wins. -/
def evalP : PExpr → Except PyErr PyVal
  | .intLit n => .ok (.int (n : Int))
  | .floatLit v => .ok (.float v)
  | .add a b =>
    match evalP a with
    | .error e => .error e
    | .ok x =>
      match evalP b with
      | .error e => .error e
      | .ok y => .ok (pyAdd x y)
  | .sub a b =>
    match evalP a with
    | .error e => .error e
    | .ok x =>
      match evalP b with
      | .error e => .error e
      | .ok y => .ok (pySub x y)
  | .mul a b =>
    match evalP a with
    | .error e => .error e
    | .ok x =>
      match evalP b with
      | .error e => .error e
      | .ok y => .ok (pyMul x y)
  | .div a b =>
    match evalP a with
    | .error e => .error e
    | .ok x =>
      match evalP b with
      | .error e => .error e
      | .ok y => pyDiv x y
  | .fdiv a b =>
    match evalP a with
    | .error e => .error e
    | .ok x =>
      match evalP b with
      | .error e => .error e
      | .ok y => pyFloorDiv x y
  | .pow a b =>
    match evalP a with
    | .error e => .error e
    | .ok x =>
      match evalP b with
      | .error e => .error e
      | .ok y => pyPow x y
  | .neg a =>
    match evalP a with
    | .error e => .error e
    | .ok x => .ok (pyNeg x)
  | .pos a => evalP a
  | .call0 fn =>
    match evalP fn with
    | .error e => .error e
    | .ok _ => .error .typeError
  | .call1 fn arg =>
    match evalP fn with
    | .error e => .error e
    | .ok _ =>
      match evalP arg with
      | .error e => .error e
      | .ok _ => .error .typeError

/-- Value semantics of Python `eval` on a calculator input string. -/
def pyEvalValue (s : String) : Except PyErr PyVal :=
  match pyTokenize s with
  | .error e => .error e
  | .ok ts =>
    match pyParseAll ts with
    | none => .error .syntaxError
    | some p => evalP p

example : pyEvalValue "2+2" = .ok (.int 4) := by decide
example : pyEvalValue "2**3" = .ok (.int 8) := by decide
example : pyEvalValue "10/0" = .error .zeroDivision := by decide
example : pyEvalValue "2+" = .error .syntaxError := by decide
example : pyEvalValue "" = .error .syntaxError := by decide
example : pyEvalValue "(1+2" = .error .syntaxError := by decide
example : pyEvalValue "7/2" = .ok (.float ⟨7, 2, by omega⟩) := by decide
example : pyEvalValue "(1)(2)" = .error .typeError := by decide
example : pyEvalValue "-2**2" = .ok (.int (-4)) := by decide
example : pyEvalValue "2*-3" = .ok (.int (-6)) := by decide
example : pyEvalValue "2*(3+4)" = .ok (.int 14) := by decide
example : pyEvalValue "2//3" = .ok (.int 0) := by decide
example : pyEvalValue "007" = .error .syntaxError := by decide

/-! ## Display strings (models Python `str` of an int or float result)

`str(int)` is plain decimal.  `str(float)` is `repr`: positional notation
with at least one fractional digit when the decimal exponent is in
`[-4, 16)`, scientific notation otherwise; the model truncates
non-terminating expansions at 17 significant digits (CPython instead prints
the shortest digit string that round-trips through the binary double). -/

/-- Number of decimal digits, fuel-indexed (`digLen 0 = 1`). -/
def digLenAux : Nat → Nat → Nat
  | 0, _ => 0
  | f + 1, n => if n < 10 then 1 else digLenAux f (n / 10) + 1

/-- Number of decimal digits of a natural number. -/
def digLen (n : Nat) : Nat := digLenAux (n + 1) n

/-- Decide `10 ^ e ≤ n / d` by integer comparison (`d > 0`). -/
def geScaled (n d : Nat) (e : Int) : Bool :=
  match e with
  | .ofNat k => d * pow10 k ≤ n
  | .negSucc k => d ≤ n * pow10 (k + 1)

/-- Decimal exponent of `n / d` for positive `n`, `d`: the unique `e` with
`10 ^ e ≤ n / d < 10 ^ (e + 1)`. -/
def decExpF (n d : Nat) : Int :=
  let e0 : Int := (digLen n : Int) - (digLen d : Int)
  if geScaled n d e0 then e0 else e0 - 1

/-- First 17 significant decimal digits of `n / d` (as a natural number in
`[10 ^ 16, 10 ^ 17)`, by truncation) together with the decimal exponent. -/
def floatDigits (n d : Nat) : Nat × Int :=
  let e := decExpF n d
  if e ≤ 16 then ((n * pow10 (16 - e).toNat) / d, e)
  else (n / (d * pow10 (e - 16).toNat), e)

/-- Remove trailing zero digits: returns the stripped value and how many
zeros were removed. -/
def stripZ : Nat → Nat → Nat × Nat
  | 0, m => (m, 0)
  | f + 1, m =>
    if m % 10 == 0 && m != 0 then
      let p := stripZ f (m / 10)
      (p.1, p.2 + 1)
    else (m, 0)

/-- Little-endian digit characters, fuel-indexed. -/
def natCharsRev : Nat → Nat → List Char
  | 0, _ => []
  | f + 1, n => if n == 0 then [] else Char.ofNat (48 + n % 10) :: natCharsRev f (n / 10)

/-- Big-endian decimal digit characters of a natural number. -/
def natChars (n : Nat) : List Char :=
  if n == 0 then ['0'] else (natCharsRev n n).reverse

/-- Decimal characters of an integer (Python `str(int)`). -/
def intChars (i : Int) : List Char :=
  if i < 0 then '-' :: natChars i.natAbs else natChars i.toNat

/-- Pad an exponent digit string to at least two digits (`1e+16`, `1e-05`). -/
def padLeft2 (ds : List Char) : List Char :=
  if ds.length < 2 then '0' :: ds else ds

/-- Scientific-notation rendering from significant digits and exponent. -/
def sciChars (dchars : List Char) (e : Int) : List Char :=
  (match dchars with
   | [c] => [c]
   | c :: rest => c :: '.' :: rest
   | [] => ['0']) ++
  'e' :: (if e < 0 then '-' else '+') :: padLeft2 (natChars e.natAbs)

/-- Positional rendering from significant digits and exponent in `[-4, 16)`;
an integral value gets the trailing `.0` of Python's float `repr`. -/
def plainChars (dchars : List Char) (e : Int) : List Char :=
  if 0 ≤ e then
    let ip := e.toNat + 1
    if dchars.length ≤ ip then
      dchars ++ List.replicate (ip - dchars.length) '0' ++ ['.', '0']
    else
      dchars.take ip ++ '.' :: dchars.drop ip
  else
    '0' :: '.' :: (List.replicate (e.natAbs - 1) '0' ++ dchars)

/-- Characters of Python's float `repr` for a positive value `n / d`. -/
def formatPos (n d : Nat) : List Char :=
  let t := floatDigits n d
  let dchars := natChars (stripZ 18 t.1).1
  if t.2 < -4 || 16 ≤ t.2 then sciChars dchars t.2 else plainChars dchars t.2

/-- Characters of Python's float `repr`. -/
def formatFloat (v : PyFloat) : List Char :=
  if v.num == 0 then ['0', '.', '0']
  else if v.num < 0 then '-' :: formatPos v.num.natAbs v.den
  else formatPos v.num.natAbs v.den

/-- Display string of a result value: Python's `str(result)`. -/
def pyDisplay : PyVal → String
  | .int n => ⟨intChars n⟩
  | .float v => ⟨formatFloat v⟩

/-- The evaluator the GUIs call: `str(eval(expression))` as a `Result`. -/
def pyEvalDisplay (s : String) : Except PyErr String :=
  match pyEvalValue s with
  | .error e => .error e
  | .ok v => .ok (pyDisplay v)

example : pyEvalDisplay "2+2" = .ok "4" := by decide
example : pyEvalDisplay "7/2" = .ok "3.5" := by decide
example : pyEvalDisplay "2/2" = .ok "1.0" := by decide
example : pyEvalDisplay "2*(3+4)" = .ok "14" := by decide
example : pyEvalDisplay "0-5" = .ok "-5" := by decide
example : pyEvalDisplay "100000000000000000/10" = .ok "1e+16" := by decide
example : pyEvalDisplay "1/3" = .ok "0.33333333333333333" := by decide
example : pyEvalDisplay "1/30000" = .ok "3.3333333333333333e-05" := by decide
example : pyEvalDisplay "0.1+0.2" = .ok "0.3" := by decide
example : pyEvalDisplay "1e+16" = .ok "1e+16" := by decide

/-! ## The two GUI state machines -/

/-- State of the Flet GUI (`CalculatorApp`): the accumulated expression, the
display text field, and the history label. -/
structure FletState where
  expression : String
  display : String
  history : String
deriving DecidableEq, Repr

/-- Initial Flet state (`expression = ""`, display shows `"0"`). -/
def fletInit : FletState := ⟨"", "0", ""⟩

/-- Transcription of `CalculatorApp.process_input` (flet source, lines
94-120): `"C"` clears, `"="` evaluates (the history line is set before the
`try` and survives failure), any other datum replaces the expression when
the display shows `"0"` or `"Error"` and is appended otherwise. -/
def fletStep (st : FletState) (data : String) : FletState :=
  if data == "C" then ⟨"", "0", ""⟩
  else if data == "=" then
    match pyEvalDisplay st.expression with
    | .ok r => ⟨r, r, st.expression ++ " ="⟩
    | .error _ => ⟨"", "Error", st.expression ++ " ="⟩
  else
    if st.display == "0" || st.display == "Error" then ⟨data, data, st.history⟩
    else ⟨st.expression ++ data, st.expression ++ data, st.history⟩

/-- State of the Tkinter GUI (`Calculator`): the accumulated expression, the
entry widget, and the message box (if any) raised by the last step. -/
structure TkState where
  expression : String
  display : String
  msg : Option String
deriving DecidableEq, Repr

/-- Initial Tkinter state (entry widget starts empty). -/
def tkInit : TkState := ⟨"", "", none⟩

/-- Transcription of `Calculator.on_button_click`/`calculate_result`
(tkinter source, lines 41-72): `'C'` clears, `'='` evaluates with a
dedicated `ZeroDivisionError` message box, any other character is appended
unconditionally. -/
def tkStep (st : TkState) (ch : Char) : TkState :=
  if ch == 'C' then ⟨"", "", none⟩
  else if ch == '=' then
    match pyEvalDisplay st.expression with
    | .ok r => ⟨r, r, none⟩
    | .error .zeroDivision => ⟨"", "", some "Cannot divide by zero"⟩
    | .error _ => ⟨"", "", some "Invalid Expression"⟩
  else ⟨st.expression.push ch, st.expression.push ch, none⟩

/-- Button labels of the Flet grid; the keyboard handler filters its keys to
exactly the same set (`valid_keys = "0123456789+-*/()."`, `Enter ↦ "="`,
`Backspace`/`Delete ↦ "C"`). -/
def fletInputs : List String :=
  ["C", "(", ")", "/", "7", "8", "9", "*", "4", "5", "6", "-", "1", "2", "3",
   "+", "0", ".", "="]

/-- Button labels of the Tkinter grid (its only input source: no keyboard
handler, no parentheses, no decimal point). -/
def tkInputs : List Char :=
  ['7', '8', '9', '/', '4', '5', '6', '*', '1', '2', '3', '-', 'C', '0', '=', '+']

/-- Run the Flet GUI from its initial state on a list of inputs. -/
def fletRun (inputs : List String) : FletState := inputs.foldl fletStep fletInit

/-- Run the Tkinter GUI from its initial state on a list of inputs. -/
def tkRun (inputs : List Char) : TkState := inputs.foldl tkStep tkInit

/-- The character set of spec §3's `ExpressionString` invariant. -/
def exprChar (c : Char) : Bool :=
  isDig c || c == '.' || c == '+' || c == '-' || c == '*' || c == '/' ||
    c == '(' || c == ')'


/-! ## Spec-to-Python refinement apparatus

The spec grammar (§4.1/§4.2) and Python's grammar differ in three ways on
calculator inputs: Python rejects plain integer literals with a redundant
leading zero, Python merges the character pairs `**` and `//` into single
tokens, and Python's trees carry the int/float distinction.  The predicates
and the relation below capture exactly those gaps. -/

/-- Python's leading-zero restriction checked over the raw characters: every
dot-free number lexeme must be a valid Python int literal. -/
def noLZAux : Nat → List Char → Bool
  | 0, _ => false
  | _ + 1, [] => true
  | f + 1, c :: cs =>
    if isDig c || c == '.' then
      match lexNum (c :: cs) with
      | (ip, hasDot, _, rest) => (hasDot || validIntLit ip) && noLZAux f rest
    else noLZAux f cs

/-- No number lexeme of `s` is an int literal with a redundant leading zero. -/
def noLZ (s : String) : Bool := noLZAux (s.toList.length + 1) s.toList

/-- Adjacent-token compatibility: Python's tokenizer merges `* *` and `/ /`. -/
def adjOK (a b : Tok) : Prop :=
  ¬(a = .star ∧ b = .star) ∧ ¬(a = .slash ∧ b = .slash)

/-- No adjacent token pair of the list would be merged by Python's tokenizer. -/
def NoAdj : List Tok → Prop
  | a :: b :: ts => adjOK a b ∧ NoAdj (b :: ts)
  | _ => True

/-- The list contains none of Python's two-character operator tokens. -/
def NoDS (ts : List Tok) : Prop := ∀ t ∈ ts, t ≠ .dstar ∧ t ≠ .dslash

/-- Characters of integer-only expressions: digits and `+ - * ( )`.  On such
inputs Python evaluates entirely in `int` arithmetic, which is exact and
unbounded, so no IEEE-754 rounding or overflow can occur. -/
def intOnlyChar (c : Char) : Bool :=
  isDig c || c == '+' || c == '-' || c == '*' || c == '(' || c == ')'

/-- Every character of the string is a digit or one of `+ - * ( )`. -/
def intOnly (s : String) : Bool := s.toList.all intOnlyChar

/-- Token lists free of float literals, `/`, `//` and `**`: the tokens an
integer-only input can produce. -/
def IntToks (ts : List Tok) : Prop :=
  ∀ t ∈ ts, (∀ v : PyFloat, t ≠ .float v) ∧
    t ≠ .slash ∧ t ≠ .dslash ∧ t ≠ .dstar

/-- Python parse trees whose evaluation stays in `int` arithmetic (or fails
with a `TypeError` on a call): no float literals, no `/`, `//` or `**`. -/
inductive IntTree : PExpr → Prop
  | intLit (n : ℕ) : IntTree (.intLit n)
  | add : IntTree a → IntTree b → IntTree (.add a b)
  | sub : IntTree a → IntTree b → IntTree (.sub a b)
  | mul : IntTree a → IntTree b → IntTree (.mul a b)
  | neg : IntTree a → IntTree (.neg a)
  | pos : IntTree a → IntTree (.pos a)
  | call0 : IntTree a → IntTree (.call0 a)
  | call1 : IntTree a → IntTree b → IntTree (.call1 a b)

/-- Structural agreement between a spec parse tree and a Python parse tree
with the same rational leaves and the same operator structure. -/
inductive Agree : SExpr → PExpr → Prop
  | int (n : ℕ) : Agree (.num (n : ℚ)) (.intLit n)
  | float (v : PyFloat) : Agree (.num v.toRat) (.floatLit v)
  | add : Agree a a2 → Agree b b2 → Agree (.add a b) (.add a2 b2)
  | sub : Agree a a2 → Agree b b2 → Agree (.sub a b) (.sub a2 b2)
  | mul : Agree a a2 → Agree b b2 → Agree (.mul a b) (.mul a2 b2)
  | div : Agree a a2 → Agree b b2 → Agree (.div a b) (.div a2 b2)
  | neg : Agree a a2 → Agree (.neg a) (.neg a2)

/-! ## Basic semantic lemmas -/

theorem PyFloat.den_int_ne_zero (v : PyFloat) : (v.den : Int) ≠ 0 := by
  have := v.den_pos
  omega

/-- A value is `isZero` exactly when its rational value is zero. -/
theorem isZero_iff_toRat {y : PyVal} : y.isZero = true ↔ pyValToRat y = 0 := by
  cases y with
  | int n => simp [PyVal.isZero, pyValToRat]
  | float v =>
    simp only [PyVal.isZero, beq_iff_eq, pyValToRat, PyFloat.toRat]
    rw [Rat.divInt_eq_zero (PyFloat.den_int_ne_zero v)]

/-! ## Claim theorems: GUI behaviour -/

/-- Claim C10: from every state, the clear action resets the accumulated
expression to `""`; the Flet GUI shows `"0"` and clears the history line,
the Tkinter GUI shows the empty string. -/
theorem c10_clear_action (st : FletState) (st2 : TkState) :
    fletStep st "C" = ⟨"", "0", ""⟩ ∧ tkStep st2 'C' = ⟨"", "", none⟩ :=
  ⟨rfl, rfl⟩

/-- Claim C7: every failed evaluation resets the accumulated expression to
the empty string in both GUIs (the Flet display shows `"Error"`, the Tkinter
display is emptied); no numeric result is kept. -/
theorem c7_failure_resets :
    (∀ (st : FletState) (e : PyErr), pyEvalDisplay st.expression = .error e →
        fletStep st "=" = ⟨"", "Error", st.expression ++ " ="⟩) ∧
    (∀ (st : TkState) (e : PyErr), pyEvalDisplay st.expression = .error e →
        (tkStep st '=').expression = "" ∧ (tkStep st '=').display = "") := by
  constructor
  · intro st e h
    simp [fletStep, h]
  · intro st e h
    cases e <;> simp [tkStep, h]

/-- Witness for C7 at the concrete failing input `"2+"`. -/
theorem c7_failure_resets_witness :
    fletStep ⟨"2+", "2+", ""⟩ "=" = ⟨"", "Error", "2+" ++ " ="⟩ ∧
    (tkStep ⟨"2+", "2+", none⟩ '=').expression = "" :=
  ⟨c7_failure_resets.1 ⟨"2+", "2+", ""⟩ .syntaxError (by decide),
   (c7_failure_resets.2 ⟨"2+", "2+", none⟩ .syntaxError (by decide)).1⟩

/-- Counterexample to claim C6: the Tkinter GUI has no replace-on-`"0"` rule.
In the reachable state after pressing `'0'` the display shows `"0"`, yet
pressing `'5'` appends, giving expression `"05"`, not `"5"`. -/
theorem c6_counterexample :
    (tkRun ['0']).display = "0" ∧
    tkStep (tkRun ['0']) '5' = ⟨"05", "05", none⟩ ∧ ("05" : String) ≠ "5" := by
  refine ⟨rfl, rfl, ?_⟩
  decide

/-- Claim C6 as amended: the replace-when-display-shows-`"0"`-or-`"Error"`
rule holds in the Flet GUI only; the Tkinter GUI appends unconditionally. -/
theorem c6_replace_vs_append :
    (∀ (st : FletState) (d : String), d ≠ "C" → d ≠ "=" →
        fletStep st d =
          if st.display = "0" ∨ st.display = "Error"
          then ⟨d, d, st.history⟩
          else ⟨st.expression ++ d, st.expression ++ d, st.history⟩) ∧
    (∀ (st : TkState) (c : Char), c ≠ 'C' → c ≠ '=' →
        tkStep st c = ⟨st.expression.push c, st.expression.push c, none⟩) := by
  constructor
  · intro st d h1 h2
    have b1 : (d == "C") = false := beq_eq_false_iff_ne.mpr h1
    have b2 : (d == "=") = false := beq_eq_false_iff_ne.mpr h2
    simp only [fletStep, b1, b2, Bool.false_eq_true, if_false]
    by_cases h0 : st.display = "0"
    · simp [h0]
    · by_cases hE : st.display = "Error"
      · simp [h0, hE]
      · simp [h0, hE]
  · intro st c h1 h2
    have b1 : (c == 'C') = false := beq_eq_false_iff_ne.mpr h1
    have b2 : (c == '=') = false := beq_eq_false_iff_ne.mpr h2
    simp [tkStep, b1, b2]

/-- Witness for the amended C6 at concrete states and the input `'5'`. -/
theorem c6_replace_vs_append_witness :
    fletStep ⟨"", "0", ""⟩ "5" = ⟨"5", "5", ""⟩ ∧
    tkStep ⟨"", "", none⟩ '5' = ⟨"5", "5", none⟩ := by
  constructor
  · rw [c6_replace_vs_append.1 ⟨"", "0", ""⟩ "5" (by decide) (by decide)]
    decide
  · rw [c6_replace_vs_append.2 ⟨"", "", none⟩ '5' (by decide) (by decide)]
    decide

/-- Claim C2: a division whose right-hand operand evaluates to exactly zero
fails with `ZeroDivisionError` rather than producing a numeric result; in
particular `"10/0"` does, and the Tkinter GUI shows its dedicated
divide-by-zero message box. -/
theorem c2_divide_by_zero :
    (∀ (a b : PExpr) (x y : PyVal), evalP a = .ok x → evalP b = .ok y →
        pyValToRat y = 0 → evalP (.div a b) = .error .zeroDivision) ∧
    pyEvalDisplay "10/0" = .error .zeroDivision ∧
    (tkStep ⟨"10/0", "10/0", none⟩ '=').msg = some "Cannot divide by zero" := by
  refine ⟨?_, by decide, by decide⟩
  intro a b x y hx hy h0
  have hz : y.isZero = true := isZero_iff_toRat.mpr h0
  simp [evalP, hx, hy, pyDiv, hz]

/-- Witness for C2 at the concrete division `1 / 0`. -/
theorem c2_divide_by_zero_witness :
    evalP (.div (.intLit 1) (.intLit 0)) = .error .zeroDivision :=
  c2_divide_by_zero.1 (.intLit 1) (.intLit 0) (.int 1) (.int 0) rfl rfl (by decide)

/-- Claim C9: evaluation is deterministic and depends only on the expression
string — in both GUIs the entire result state of the `"="` action is a
function of the accumulated expression alone, independent of the other
state components (the model is pure, so two invocations on the same string
are identical). -/
theorem c9_deterministic :
    (∀ s1 s2 : FletState, s1.expression = s2.expression →
        fletStep s1 "=" = fletStep s2 "=") ∧
    (∀ t1 t2 : TkState, t1.expression = t2.expression →
        tkStep t1 '=' = tkStep t2 '=') := by
  constructor
  · intro s1 s2 h
    simp [fletStep, h]
  · intro t1 t2 h
    simp [tkStep, h]

/-- Witness for C9 at two states agreeing only on the expression. -/
theorem c9_deterministic_witness :
    fletStep ⟨"1+1", "abc", "xy"⟩ "=" = fletStep ⟨"1+1", "0", ""⟩ "=" ∧
    tkStep ⟨"1+1", "zz", some "m"⟩ '=' = tkStep ⟨"1+1", "", none⟩ '=' :=
  ⟨c9_deterministic.1 _ _ rfl, c9_deterministic.2 _ _ rfl⟩

/-! ## Claim theorems: parse failures (C4) -/

/-- Counterexample to claim C4: `"2**3"` is rejected by the spec grammar
(its spec token sequence `2 * * 3` has an operator with no following
operand), yet the code evaluates it — Python reads `**` as exponentiation —
and displays `"8"` instead of failing with a parse error. -/
theorem c4_counterexample :
    specTokenize "2**3" = .ok [.int 2, .star, .star, .int 3] ∧
    specParseAll [.int 2, .star, .star, .int 3] = none ∧
    pyEvalDisplay "2**3" = .ok "8" :=
  ⟨rfl, rfl, by decide⟩

/-- Claim C4 as amended: every input that Python's own lexer or expression
grammar rejects — including the claim's cases: a missing operand (`"2+"`),
the empty input, an unmatched `"("` or `")"` — makes evaluation fail and
never yields a numeric result; but inputs the spec grammar rejects that are
valid Python (such as `"2**3"`, `"2//3"`, `"+2"`) can succeed instead. -/
theorem c4_parse_errors :
    (∀ (s : String) (e : PyErr), pyTokenize s = .error e →
        pyEvalDisplay s = .error e) ∧
    (∀ (s : String) (ts : List Tok), pyTokenize s = .ok ts →
        pyParseAll ts = none → pyEvalDisplay s = .error .syntaxError) ∧
    pyEvalDisplay "2+" = .error .syntaxError ∧
    pyEvalDisplay "" = .error .syntaxError ∧
    pyEvalDisplay "(1+2" = .error .syntaxError ∧
    pyEvalDisplay "1)" = .error .syntaxError := by
  refine ⟨?_, ?_, by decide, by decide, by decide, by decide⟩
  · intro s e h
    simp [pyEvalDisplay, pyEvalValue, h]
  · intro s ts h1 h2
    simp [pyEvalDisplay, pyEvalValue, h1, h2]

/-- Witness for the amended C4 at the concrete input `"2+"`. -/
theorem c4_parse_errors_witness : pyEvalDisplay "2+" = .error .syntaxError :=
  c4_parse_errors.2.1 "2+" [.int 2, .plus] (by decide) (by decide)

/-! ## Claim theorems: expression character set (C8) -/

/-- Every Flet input datum is `"C"`, `"="`, or a string over the allowed
character set. -/
theorem fletInputs_charset :
    ∀ d ∈ fletInputs, d = "C" ∨ d = "=" ∨ d.data.all exprChar = true := by
  decide

/-- Every Tkinter input is `'C'`, `'='`, or an allowed character. -/
theorem tkInputs_charset :
    ∀ c ∈ tkInputs, c = 'C' ∨ c = '=' ∨ exprChar c = true := by
  decide

/-- Reduction of `fletStep` on an ordinary datum (not `"C"`, not `"="`). -/
theorem fletStep_other (st : FletState) (d : String) (h1 : (d == "C") = false)
    (h2 : (d == "=") = false) :
    fletStep st d =
      if st.display == "0" || st.display == "Error"
      then ⟨d, d, st.history⟩
      else ⟨st.expression ++ d, st.expression ++ d, st.history⟩ := by
  simp only [fletStep, h1, h2, Bool.false_eq_true, if_false]

/-- One Flet step preserves the character-set invariant when the datum is
not `"="`. -/
theorem fletStep_charset {st : FletState} {d : String}
    (hd : d = "C" ∨ d.data.all exprChar = true)
    (hinv : st.expression.data.all exprChar = true) :
    ((fletStep st d).expression.data.all exprChar) = true := by
  by_cases hC : d = "C"
  · subst hC
    simp [fletStep]
  · rcases hd with hd | hd
    · exact absurd hd hC
    · by_cases hE : d = "="
      · subst hE
        exact absurd hd (by decide)
      · rw [fletStep_other st d (beq_eq_false_iff_ne.mpr hC) (beq_eq_false_iff_ne.mpr hE)]
        by_cases hcond : (st.display == "0" || st.display == "Error") = true
        · simp only [hcond, if_true]
          exact hd
        · simp only [Bool.not_eq_true] at hcond
          simp only [hcond, Bool.false_eq_true, if_false, String.data_append,
            List.all_append]
          rw [hinv, hd]
          rfl

/-- One Tkinter step preserves the character-set invariant when the input is
not `'='`. -/
theorem tkStep_charset {st : TkState} {c : Char}
    (hc : c = 'C' ∨ exprChar c = true)
    (hinv : st.expression.data.all exprChar = true) :
    ((tkStep st c).expression.data.all exprChar) = true := by
  by_cases hC : c = 'C'
  · subst hC
    simp [tkStep]
  · rcases hc with hc | hc
    · exact absurd hc hC
    · by_cases hE : c = '='
      · subst hE
        exact absurd hc (by decide)
      · have b1 : (c == 'C') = false := beq_eq_false_iff_ne.mpr hC
        have b2 : (c == '=') = false := beq_eq_false_iff_ne.mpr hE
        simp only [tkStep, b1, b2, Bool.false_eq_true, if_false,
          String.data_push, List.all_append]
        rw [hinv]
        simp [hc]

/-- Counterexample to claim C8: chaining an evaluation result back into the
expression can violate the character-set invariant.  Keying in
`100000000000000000/10` and pressing `"="` (all of them legal inputs) leaves
the Flet expression `"1e+16"`, which contains `'e'`. -/
theorem c8_counterexample :
    (fletRun ["1", "0", "0", "0", "0", "0", "0", "0", "0", "0", "0", "0", "0",
        "0", "0", "0", "0", "0", "/", "1", "0", "="]).expression = "1e+16" ∧
    ("1e+16" : String).data.all exprChar = false ∧
    (∀ d ∈ ["1", "0", "0", "0", "0", "0", "0", "0", "0", "0", "0", "0", "0",
        "0", "0", "0", "0", "0", "/", "1", "0", "="], d ∈ fletInputs) := by
  refine ⟨by decide, by decide, by decide⟩

/-- Claim C8 as amended: both GUIs filter every character-appending path to
the allowed set, so along any run that never evaluates (`"="`), the
accumulated expression stays inside `0-9 . + - * / ( )`; the full
reachable-state invariant fails only because `"="` can assign an evaluation
result (scientific notation containing `'e'`) to the expression. -/
theorem c8_charset_invariant :
    (∀ (inputs : List String), (∀ d ∈ inputs, d ∈ fletInputs) →
        "=" ∉ inputs → ((fletRun inputs).expression.data.all exprChar) = true) ∧
    (∀ (inputs : List Char), (∀ c ∈ inputs, c ∈ tkInputs) →
        '=' ∉ inputs → ((tkRun inputs).expression.data.all exprChar) = true) := by
  constructor
  · have aux : ∀ (inputs : List String) (st : FletState),
        (∀ d ∈ inputs, d ∈ fletInputs) → "=" ∉ inputs →
        st.expression.data.all exprChar = true →
        ((inputs.foldl fletStep st).expression.data.all exprChar) = true := by
      intro inputs
      induction inputs with
      | nil => intro st _ _ h; exact h
      | cons d rest ih =>
        intro st hmem hne h
        have hd := fletInputs_charset d (hmem d (List.mem_cons_self d rest))
        have hdne : d ≠ "=" := by
          intro hcon
          exact hne (hcon ▸ List.mem_cons_self d rest)
        rcases hd with hd | hd | hd
        · exact ih _ (fun x hx => hmem x (List.mem_cons_of_mem d hx))
            (fun hx => hne (List.mem_cons_of_mem d hx))
            (fletStep_charset (Or.inl hd) h)
        · exact absurd hd hdne
        · exact ih _ (fun x hx => hmem x (List.mem_cons_of_mem d hx))
            (fun hx => hne (List.mem_cons_of_mem d hx))
            (fletStep_charset (Or.inr hd) h)
    intro inputs hmem hne
    exact aux inputs fletInit hmem hne rfl
  · have aux : ∀ (inputs : List Char) (st : TkState),
        (∀ c ∈ inputs, c ∈ tkInputs) → '=' ∉ inputs →
        st.expression.data.all exprChar = true →
        ((inputs.foldl tkStep st).expression.data.all exprChar) = true := by
      intro inputs
      induction inputs with
      | nil => intro st _ _ h; exact h
      | cons c rest ih =>
        intro st hmem hne h
        have hc := tkInputs_charset c (hmem c (List.mem_cons_self c rest))
        have hcne : c ≠ '=' := by
          intro hcon
          exact hne (hcon ▸ List.mem_cons_self c rest)
        rcases hc with hc | hc | hc
        · exact ih _ (fun x hx => hmem x (List.mem_cons_of_mem c hx))
            (fun hx => hne (List.mem_cons_of_mem c hx))
            (tkStep_charset (Or.inl hc) h)
        · exact absurd hc hcne
        · exact ih _ (fun x hx => hmem x (List.mem_cons_of_mem c hx))
            (fun hx => hne (List.mem_cons_of_mem c hx))
            (tkStep_charset (Or.inr hc) h)
    intro inputs hmem hne
    exact aux inputs tkInit hmem hne rfl

/-- Witness for the amended C8 on a concrete evaluation-free run. -/
theorem c8_charset_invariant_witness :
    ((fletRun ["1", "+", "2"]).expression.data.all exprChar) = true ∧
    ((tkRun ['1', '+', '2']).expression.data.all exprChar) = true :=
  ⟨c8_charset_invariant.1 ["1", "+", "2"] (by decide) (by decide),
   c8_charset_invariant.2 ['1', '+', '2'] (by decide) (by decide)⟩

/-! ## Digit-length and decimal-exponent lemmas -/

theorem digLenAux_bounds :
    ∀ (f n : ℕ), 0 < n → n ≤ f →
      n < pow10 (digLenAux f n) ∧ pow10 (digLenAux f n) ≤ 10 * n := by
  intro f
  induction f with
  | zero => intro n h1 h2; omega
  | succ f ih =>
    intro n h1 h2
    rw [digLenAux]
    by_cases h : n < 10
    · simp only [h, if_true]
      have : pow10 1 = 10 := rfl
      rw [this]
      omega
    · simp only [h, if_false]
      have h10 : 10 ≤ n := by omega
      have hq1 : 0 < n / 10 := Nat.div_pos h10 (by omega)
      have hq2 : n / 10 ≤ f := by
        have := Nat.div_lt_self h1 (show 1 < 10 by omega)
        omega
      obtain ⟨u, l⟩ := ih (n / 10) hq1 hq2
      have hp : pow10 (digLenAux f (n / 10) + 1) = 10 * pow10 (digLenAux f (n / 10)) := rfl
      rw [hp]
      omega

/-- For positive `n`: `n < 10 ^ digLen n ≤ 10 * n`. -/
theorem digLen_bounds {n : ℕ} (hn : 0 < n) :
    n < pow10 (digLen n) ∧ pow10 (digLen n) ≤ 10 * n :=
  digLenAux_bounds (n + 1) n hn (by omega)

theorem digLen_pos {n : ℕ} (hn : 0 < n) : 0 < digLen n := by
  rcases Nat.eq_zero_or_pos (digLen n) with h | h
  · exfalso
    have := (digLen_bounds hn).1
    rw [h] at this
    simp [pow10] at this
    omega
  · exact h

/-- Cast of `pow10` to the rationals. -/
theorem pow10_cast (k : ℕ) : ((pow10 k : ℕ) : ℚ) = (10 : ℚ) ^ (k : ℤ) := by
  rw [pow10_eq]
  push_cast
  rw [zpow_natCast]

/-- `geScaled n d e` decides `10 ^ e ≤ n / d` (for positive `d`). -/
theorem geScaled_iff {n d : ℕ} (hd : 0 < d) (e : Int) :
    geScaled n d e = true ↔ (10 : ℚ) ^ e ≤ (n : ℚ) / (d : ℚ) := by
  have hdq : (0 : ℚ) < (d : ℚ) := by exact_mod_cast hd
  cases e with
  | ofNat k =>
    simp only [geScaled, decide_eq_true_eq]
    rw [le_div_iff₀ hdq]
    have hcast : (10 : ℚ) ^ (Int.ofNat k) = ((pow10 k : ℕ) : ℚ) := by
      rw [pow10_cast, Int.ofNat_eq_coe]
    rw [hcast,
      show ((pow10 k : ℕ) : ℚ) * (d : ℚ) = ((pow10 k * d : ℕ) : ℚ) by push_cast; ring,
      Nat.cast_le, Nat.mul_comm d (pow10 k)]
  | negSucc k =>
    simp only [geScaled, decide_eq_true_eq]
    have hA : (0 : ℚ) < ((pow10 (k + 1) : ℕ) : ℚ) := by
      exact_mod_cast pow10_pos (k + 1)
    have hcast : (10 : ℚ) ^ (Int.negSucc k) = 1 / ((pow10 (k + 1) : ℕ) : ℚ) := by
      rw [Int.negSucc_eq, zpow_neg, pow10_cast, one_div]
      norm_num
    rw [hcast, div_le_div_iff₀ hA hdq, one_mul,
      show (n : ℚ) * ((pow10 (k + 1) : ℕ) : ℚ) = ((n * pow10 (k + 1) : ℕ) : ℚ) by
        push_cast; ring,
      Nat.cast_le]

/-- Correctness of the decimal exponent: `10 ^ decExpF n d ≤ n/d < 10 ^ (decExpF n d + 1)`. -/
theorem decExpF_bounds {n d : ℕ} (hn : 0 < n) (hd : 0 < d) :
    (10 : ℚ) ^ decExpF n d ≤ (n : ℚ) / (d : ℚ) ∧
    (n : ℚ) / (d : ℚ) < (10 : ℚ) ^ (decExpF n d + 1) := by
  have hdq : (0 : ℚ) < (d : ℚ) := by exact_mod_cast hd
  have hten : (10 : ℚ) ≠ 0 := by norm_num
  obtain ⟨hn1, hn2⟩ := digLen_bounds hn
  obtain ⟨hd1, hd2⟩ := digLen_bounds hd
  have hna : (n : ℚ) < (10 : ℚ) ^ (digLen n : ℤ) := by
    rw [← pow10_cast]; exact_mod_cast hn1
  have hna2 : (10 : ℚ) ^ (digLen n : ℤ) ≤ 10 * (n : ℚ) := by
    rw [← pow10_cast]; exact_mod_cast hn2
  have hdb : (d : ℚ) < (10 : ℚ) ^ (digLen d : ℤ) := by
    rw [← pow10_cast]; exact_mod_cast hd1
  have hdb2 : (10 : ℚ) ^ (digLen d : ℤ) ≤ 10 * (d : ℚ) := by
    rw [← pow10_cast]; exact_mod_cast hd2
  have hub : (n : ℚ) / (d : ℚ) <
      (10 : ℚ) ^ ((digLen n : ℤ) - (digLen d : ℤ) + 1) := by
    rw [div_lt_iff₀ hdq]
    have h1 : (10 : ℚ) ^ ((digLen d : ℤ) - 1) ≤ (d : ℚ) := by
      have h10 : (10 : ℚ) ^ ((digLen d : ℤ) - 1) * 10 = (10 : ℚ) ^ (digLen d : ℤ) := by
        rw [← zpow_add_one₀ hten]
        congr 1
        ring
      nlinarith [hdb2]
    calc (n : ℚ) < (10 : ℚ) ^ (digLen n : ℤ) := hna
      _ = (10 : ℚ) ^ ((digLen n : ℤ) - (digLen d : ℤ) + 1) *
            (10 : ℚ) ^ ((digLen d : ℤ) - 1) := by
          rw [← zpow_add₀ hten]
          congr 1
          ring
      _ ≤ (10 : ℚ) ^ ((digLen n : ℤ) - (digLen d : ℤ) + 1) * (d : ℚ) :=
          mul_le_mul_of_nonneg_left h1 (by positivity)
  have hlb : (10 : ℚ) ^ ((digLen n : ℤ) - (digLen d : ℤ) - 1) < (n : ℚ) / (d : ℚ) := by
    rw [lt_div_iff₀ hdq]
    have h1 : (10 : ℚ) ^ ((digLen n : ℤ) - 1) ≤ (n : ℚ) := by
      have h10 : (10 : ℚ) ^ ((digLen n : ℤ) - 1) * 10 = (10 : ℚ) ^ (digLen n : ℤ) := by
        rw [← zpow_add_one₀ hten]
        congr 1
        ring
      nlinarith [hna2]
    calc (10 : ℚ) ^ ((digLen n : ℤ) - (digLen d : ℤ) - 1) * (d : ℚ)
        < (10 : ℚ) ^ ((digLen n : ℤ) - (digLen d : ℤ) - 1) *
            (10 : ℚ) ^ (digLen d : ℤ) :=
          mul_lt_mul_of_pos_left hdb (by positivity)
      _ = (10 : ℚ) ^ ((digLen n : ℤ) - 1) := by
          rw [← zpow_add₀ hten]
          congr 1
          ring
      _ ≤ (n : ℚ) := h1
  unfold decExpF
  by_cases hg : geScaled n d ((digLen n : ℤ) - (digLen d : ℤ)) = true
  · rw [if_pos hg]
    exact ⟨(geScaled_iff hd _).mp hg, hub⟩
  · rw [if_neg hg]
    refine ⟨le_of_lt hlb, ?_⟩
    have h2 : ¬ ((10 : ℚ) ^ ((digLen n : ℤ) - (digLen d : ℤ)) ≤ (n : ℚ) / (d : ℚ)) :=
      fun hc => hg ((geScaled_iff hd _).mpr hc)
    have h3 : (digLen n : ℤ) - (digLen d : ℤ) - 1 + 1 =
        (digLen n : ℤ) - (digLen d : ℤ) := by ring
    rw [h3]
    exact lt_of_not_le h2

/-! ## Arithmetic toolbox for the formatter -/

theorem pow10_add (a b : ℕ) : pow10 (a + b) = pow10 a * pow10 b := by
  rw [pow10_eq, pow10_eq, pow10_eq, pow_add]

theorem pow10_le_pow10 {a b : ℕ} (h : a ≤ b) : pow10 a ≤ pow10 b := by
  rw [pow10_eq, pow10_eq]
  exact Nat.pow_le_pow_right (by omega) h

theorem pow10_lt_pow10 {a b : ℕ} (h : a < b) : pow10 a < pow10 b := by
  rw [pow10_eq, pow10_eq]
  exact Nat.pow_lt_pow_right (by omega) h

theorem pow10_lt_reflect {a b : ℕ} (h : pow10 a < pow10 b) : a < b := by
  by_contra hc
  exact absurd h (not_lt.mpr (pow10_le_pow10 (by omega)))

theorem pow10_succ (n : ℕ) : pow10 (n + 1) = 10 * pow10 n := rfl

/-- `digLen` is determined by the two-sided bound. -/
theorem digLen_unique {x L : ℕ} (hx : 0 < x) (h1 : x < pow10 L)
    (h2 : pow10 L ≤ 10 * x) : digLen x = L := by
  obtain ⟨b1, b2⟩ := digLen_bounds hx
  rcases Nat.lt_trichotomy (digLen x) L with h | h | h
  · exfalso
    have hL : digLen x + 1 ≤ L := by omega
    have hp := pow10_le_pow10 hL
    have hsucc := pow10_succ (digLen x)
    omega
  · exact h
  · exfalso
    have hL : L + 1 ≤ digLen x := by omega
    have hp := pow10_le_pow10 hL
    have hsucc := pow10_succ L
    omega

theorem digLen_le_of_lt {x L : ℕ} (hx : 0 < x) (h : x < pow10 L) :
    digLen x ≤ L := by
  obtain ⟨b1, b2⟩ := digLen_bounds hx
  have hsucc := pow10_succ L
  have hlt : pow10 (digLen x) < pow10 (L + 1) := by omega
  have := pow10_lt_reflect hlt
  omega

theorem digLen_mul_pow10 {a : ℕ} (ha : 0 < a) (k : ℕ) :
    digLen (a * pow10 k) = digLen a + k := by
  obtain ⟨b1, b2⟩ := digLen_bounds ha
  apply digLen_unique (Nat.mul_pos ha (pow10_pos k))
  · rw [pow10_add]
    exact Nat.mul_lt_mul_of_lt_of_le b1 (le_refl _) (pow10_pos k)
  · rw [pow10_add]
    calc pow10 (digLen a) * pow10 k ≤ (10 * a) * pow10 k :=
          Nat.mul_le_mul_right _ b2
      _ = 10 * (a * pow10 k) := by ring

/-- Specification of trailing-zero stripping. -/
theorem stripZ_spec : ∀ (f m : ℕ), 0 < m → m < pow10 f →
    m = (stripZ f m).1 * pow10 (stripZ f m).2 ∧
    0 < (stripZ f m).1 ∧ (stripZ f m).1 % 10 ≠ 0 := by
  intro f
  induction f with
  | zero =>
    intro m h1 h2
    simp [pow10] at h2
    omega
  | succ f ih =>
    intro m h1 h2
    by_cases hc : (m % 10 == 0 && m != 0) = true
    · have hm10 : m % 10 = 0 := by
        simp only [Bool.and_eq_true, beq_iff_eq, bne_iff_ne, ne_eq] at hc
        exact hc.1
      have hstep : stripZ (f + 1) m =
          ((stripZ f (m / 10)).1, (stripZ f (m / 10)).2 + 1) := by
        rw [stripZ]
        simp only [hc, if_true]
      have hq1 : 0 < m / 10 := by omega
      have hq2 : m / 10 < pow10 f := by
        have := pow10_succ f
        omega
      obtain ⟨e1, e2, e3⟩ := ih (m / 10) hq1 hq2
      rw [hstep]
      refine ⟨?_, e2, e3⟩
      calc m = 10 * (m / 10) := by omega
        _ = 10 * ((stripZ f (m / 10)).1 * pow10 (stripZ f (m / 10)).2) := by
            rw [← e1]
        _ = (stripZ f (m / 10)).1 * pow10 ((stripZ f (m / 10)).2 + 1) := by
            rw [pow10_succ]
            ring
    · rw [Bool.not_eq_true] at hc
      have hstep : stripZ (f + 1) m = (m, 0) := by
        rw [stripZ]
        simp only [hc, Bool.false_eq_true, if_false]
      rw [hstep]
      rw [← Bool.not_eq_true] at hc
      simp only [Bool.and_eq_true, beq_iff_eq, bne_iff_ne, ne_eq, not_and,
        Decidable.not_not] at hc
      refine ⟨by simp [pow10], h1, ?_⟩
      intro h0
      have := hc h0
      omega

/-- Fuel-insensitivity of `digLenAux` above the needed amount. -/
theorem digLenAux_fuel : ∀ (f g n : ℕ), 0 < n → n ≤ f → n ≤ g →
    digLenAux f n = digLenAux g n := by
  intro f
  induction f with
  | zero => intro g n h0 h1 h2; omega
  | succ f ih =>
    intro g n h0 h1 h2
    cases g with
    | zero => omega
    | succ g =>
      rw [digLenAux, digLenAux]
      by_cases h : n < 10
      · simp [h]
      · simp only [h, if_false]
        have := Nat.div_lt_self h0 (show 1 < 10 by omega)
        rw [ih g (n / 10) (by omega) (by omega) (by omega)]

/-! ## Digit-character lemmas -/

theorem digLen_small {n : ℕ} (h1 : n < 10) : digLen n = 1 := by
  rw [digLen, digLenAux]
  simp [h1]

theorem digLen_div10 {n : ℕ} (h : 10 ≤ n) : digLen n = digLen (n / 10) + 1 := by
  rw [digLen, digLenAux]
  simp only [show ¬ n < 10 by omega, if_false]
  congr 1
  have hq : 0 < n / 10 := Nat.div_pos h (by omega)
  have hle : n / 10 ≤ n := Nat.div_le_self n 10
  exact digLenAux_fuel n (n / 10 + 1) (n / 10) hq (by omega) (by omega)

theorem digitChar_isDig {r : ℕ} (h : r < 10) : isDig (Char.ofNat (48 + r)) = true := by
  interval_cases r <;> decide

theorem digitChar_digVal {r : ℕ} (h : r < 10) : digVal (Char.ofNat (48 + r)) = r := by
  interval_cases r <;> decide

theorem digitChar_ne_zero {r : ℕ} (h : 0 < r) (h2 : r < 10) :
    Char.ofNat (48 + r) ≠ '0' := by
  interval_cases r <;> decide

theorem natCharsRev_nil (f : ℕ) : natCharsRev f 0 = [] := by
  cases f with
  | zero => rfl
  | succ f => rw [natCharsRev]; simp

theorem natCharsRev_len : ∀ (f n : ℕ), 0 < n → n ≤ f →
    (natCharsRev f n).length = digLen n := by
  intro f
  induction f with
  | zero => intro n h1 h2; omega
  | succ f ih =>
    intro n h1 h2
    rw [natCharsRev]
    simp only [show (n == 0) = false from beq_eq_false_iff_ne.mpr (by omega),
      Bool.false_eq_true, if_false, List.length_cons]
    by_cases h : n < 10
    · rw [show n / 10 = 0 by omega, natCharsRev_nil, digLen_small h]
      rfl
    · have hq : 0 < n / 10 := Nat.div_pos (by omega) (by omega)
      have hlt := Nat.div_lt_self h1 (show 1 < 10 by omega)
      rw [ih (n / 10) hq (by omega), digLen_div10 (show (10 : ℕ) ≤ n by omega)]

theorem natCharsRev_digits : ∀ (f n : ℕ), ∀ c ∈ natCharsRev f n, isDig c = true := by
  intro f
  induction f with
  | zero => intro n c hc; cases hc
  | succ f ih =>
    intro n c hc
    rw [natCharsRev] at hc
    by_cases h : n = 0
    · simp [h] at hc
    · simp only [show (n == 0) = false from beq_eq_false_iff_ne.mpr h,
        Bool.false_eq_true, if_false, List.mem_cons] at hc
      rcases hc with rfl | hc
      · exact digitChar_isDig (Nat.mod_lt n (by omega))
      · exact ih (n / 10) c hc

theorem natChars_digits (n : ℕ) : ∀ c ∈ natChars n, isDig c = true := by
  intro c hc
  rw [natChars] at hc
  by_cases h : n = 0
  · simp [h] at hc
    rw [hc]
    rfl
  · simp only [show (n == 0) = false from beq_eq_false_iff_ne.mpr h,
      Bool.false_eq_true, if_false, List.mem_reverse] at hc
    exact natCharsRev_digits n n c hc

theorem natChars_len {n : ℕ} (hn : 0 < n) : (natChars n).length = digLen n := by
  rw [natChars]
  simp only [show (n == 0) = false from beq_eq_false_iff_ne.mpr (by omega),
    Bool.false_eq_true, if_false, List.length_reverse]
  exact natCharsRev_len n n hn (le_refl n)

/-- Parsing digit characters back: `natOfChars` over a snoc. -/
theorem natOfChars_snoc (xs : List Char) (c : Char) :
    natOfChars (xs ++ [c]) = 10 * natOfChars xs + digVal c := by
  rw [natOfChars, natOfChars, List.foldl_append]
  rfl

theorem natChars_roundtrip : ∀ (f n : ℕ), n ≤ f →
    natOfChars (natCharsRev f n).reverse = n := by
  intro f
  induction f with
  | zero =>
    intro n h
    interval_cases n
    rfl
  | succ f ih =>
    intro n h
    rw [natCharsRev]
    by_cases h0 : n = 0
    · simp [h0, natOfChars]
    · simp only [show (n == 0) = false from beq_eq_false_iff_ne.mpr h0,
        Bool.false_eq_true, if_false, List.reverse_cons]
      rw [natOfChars_snoc]
      have hlt := Nat.div_lt_self (show 0 < n by omega) (show 1 < 10 by omega)
      rw [ih (n / 10) (by omega), digitChar_digVal (Nat.mod_lt n (by omega))]
      omega

theorem natOfChars_natChars (n : ℕ) : natOfChars (natChars n) = n := by
  rw [natChars]
  by_cases h : n = 0
  · simp [h]
    rfl
  · simp only [show (n == 0) = false from beq_eq_false_iff_ne.mpr h,
      Bool.false_eq_true, if_false]
    exact natChars_roundtrip n n (le_refl n)

/-- The last character produced by `natCharsRev` is the leading digit, and
for a positive number it is not `'0'`. -/
theorem natCharsRev_getLast : ∀ (f n : ℕ), 0 < n → n ≤ f →
    ∃ r, 0 < r ∧ r < 10 ∧
      (natCharsRev f n).getLast? = some (Char.ofNat (48 + r)) := by
  intro f
  induction f with
  | zero => intro n h1 h2; omega
  | succ f ih =>
    intro n h1 h2
    rw [natCharsRev]
    simp only [show (n == 0) = false from beq_eq_false_iff_ne.mpr (by omega),
      Bool.false_eq_true, if_false]
    by_cases h : n < 10
    · refine ⟨n % 10, by omega, by omega, ?_⟩
      rw [show n / 10 = 0 by omega, natCharsRev_nil]
      rfl
    · have hq : 0 < n / 10 := Nat.div_pos (by omega) (by omega)
      have hlt := Nat.div_lt_self h1 (show 1 < 10 by omega)
      obtain ⟨r, hr1, hr2, hr3⟩ := ih (n / 10) hq (by omega)
      refine ⟨r, hr1, hr2, ?_⟩
      rw [List.getLast?_cons, hr3]
      rfl

/-- `natChars` of any number is a valid Python integer literal (no leading
zero unless the number is zero). -/
theorem validIntLit_natChars (n : ℕ) : validIntLit (natChars n) = true := by
  by_cases h : n = 0
  · subst h
    decide
  · rw [natChars]
    simp only [show (n == 0) = false from beq_eq_false_iff_ne.mpr h,
      Bool.false_eq_true, if_false]
    obtain ⟨r, hr1, hr2, hr3⟩ := natCharsRev_getLast n n (by omega) (le_refl n)
    have hhead : (natCharsRev n n).reverse.head? = some (Char.ofNat (48 + r)) := by
      rw [List.head?_reverse]
      exact hr3
    cases hrev : (natCharsRev n n).reverse with
    | nil => rfl
    | cons c rest =>
      rw [hrev] at hhead
      have hc : c = Char.ofNat (48 + r) := by
        injection hhead
      have hcne : c ≠ '0' := by
        rw [hc]
        exact digitChar_ne_zero hr1 hr2
      rw [validIntLit]
      simp only [if_neg hcne]

/-! ## Bounds on the 17-digit extraction -/

theorem floatDigits_snd (n d : ℕ) : (floatDigits n d).2 = decExpF n d := by
  rw [floatDigits]
  split <;> rfl

theorem floatDigits_bounds {n d : ℕ} (hn : 0 < n) (hd : 0 < d) :
    pow10 16 ≤ (floatDigits n d).1 ∧ (floatDigits n d).1 < pow10 17 := by
  have hdq : (0 : ℚ) < (d : ℚ) := by exact_mod_cast hd
  have hten : (10 : ℚ) ≠ 0 := by norm_num
  obtain ⟨lb, ub⟩ := decExpF_bounds hn hd
  rw [floatDigits]
  by_cases he : decExpF n d ≤ 16
  · rw [if_pos he]
    dsimp only
    have hk : ((16 - decExpF n d).toNat : ℤ) = 16 - decExpF n d :=
      Int.toNat_of_nonneg (by omega)
    constructor
    · rw [Nat.le_div_iff_mul_le hd]
      have hq : ((pow10 16 * d : ℕ) : ℚ) ≤
          ((n * pow10 (16 - decExpF n d).toNat : ℕ) : ℚ) := by
        push_cast
        rw [pow10_cast, pow10_cast, hk]
        have h1 : (10 : ℚ) ^ decExpF n d * d ≤ n := (le_div_iff₀ hdq).mp lb
        calc (10 : ℚ) ^ (16 : ℤ) * d
            = ((10 : ℚ) ^ decExpF n d * d) * (10 : ℚ) ^ (16 - decExpF n d) := by
              rw [show (10 : ℚ) ^ (16 : ℤ) =
                    (10 : ℚ) ^ decExpF n d * (10 : ℚ) ^ (16 - decExpF n d) by
                  rw [← zpow_add₀ hten]; congr 1; ring]
              ring
          _ ≤ (n : ℚ) * (10 : ℚ) ^ (16 - decExpF n d) :=
              mul_le_mul_of_nonneg_right h1 (by positivity)
      exact_mod_cast hq
    · rw [Nat.div_lt_iff_lt_mul hd]
      have hq : ((n * pow10 (16 - decExpF n d).toNat : ℕ) : ℚ) <
          ((pow10 17 * d : ℕ) : ℚ) := by
        push_cast
        rw [pow10_cast, pow10_cast, hk]
        have h1 : (n : ℚ) < (10 : ℚ) ^ (decExpF n d + 1) * d := (div_lt_iff₀ hdq).mp ub
        calc (n : ℚ) * (10 : ℚ) ^ (16 - decExpF n d)
            < ((10 : ℚ) ^ (decExpF n d + 1) * d) * (10 : ℚ) ^ (16 - decExpF n d) :=
              mul_lt_mul_of_pos_right h1 (by positivity)
          _ = (10 : ℚ) ^ (17 : ℤ) * d := by
              rw [show (10 : ℚ) ^ (17 : ℤ) =
                    (10 : ℚ) ^ (decExpF n d + 1) * (10 : ℚ) ^ (16 - decExpF n d) by
                  rw [← zpow_add₀ hten]; congr 1; ring]
              ring
      exact_mod_cast hq
  · rw [if_neg he]
    dsimp only
    have hk : ((decExpF n d - 16).toNat : ℤ) = decExpF n d - 16 :=
      Int.toNat_of_nonneg (by omega)
    constructor
    · rw [Nat.le_div_iff_mul_le (Nat.mul_pos hd (pow10_pos _))]
      have hq : ((pow10 16 * (d * pow10 (decExpF n d - 16).toNat) : ℕ) : ℚ) ≤
          (n : ℚ) := by
        push_cast
        rw [pow10_cast, pow10_cast, hk]
        have h1 : (10 : ℚ) ^ decExpF n d * d ≤ n := (le_div_iff₀ hdq).mp lb
        calc (10 : ℚ) ^ (16 : ℤ) * ((d : ℚ) * (10 : ℚ) ^ (decExpF n d - 16))
            = (10 : ℚ) ^ decExpF n d * d := by
              rw [show (10 : ℚ) ^ decExpF n d =
                    (10 : ℚ) ^ (16 : ℤ) * (10 : ℚ) ^ (decExpF n d - 16) by
                  rw [← zpow_add₀ hten]; congr 1; ring]
              ring
          _ ≤ (n : ℚ) := h1
      exact_mod_cast hq
    · rw [Nat.div_lt_iff_lt_mul (Nat.mul_pos hd (pow10_pos _))]
      have hq : (n : ℚ) <
          ((pow10 17 * (d * pow10 (decExpF n d - 16).toNat) : ℕ) : ℚ) := by
        push_cast
        rw [pow10_cast, pow10_cast, hk]
        have h1 : (n : ℚ) < (10 : ℚ) ^ (decExpF n d + 1) * d := (div_lt_iff₀ hdq).mp ub
        calc (n : ℚ) < (10 : ℚ) ^ (decExpF n d + 1) * d := h1
          _ = (10 : ℚ) ^ (17 : ℤ) * ((d : ℚ) * (10 : ℚ) ^ (decExpF n d - 16)) := by
              rw [show (10 : ℚ) ^ (decExpF n d + 1) =
                    (10 : ℚ) ^ (17 : ℤ) * (10 : ℚ) ^ (decExpF n d - 16) by
                  rw [← zpow_add₀ hten]; congr 1; ring]
              ring
      exact_mod_cast hq

/-- When the value is an exact multiple of the denominator and its exponent
is at most 16, the digit extraction is exact. -/
theorem floatDigits_exact {V d : ℕ} (hd : 0 < d)
    (he : decExpF (V * d) d ≤ 16) :
    (floatDigits (V * d) d).1 = V * pow10 (16 - decExpF (V * d) d).toNat := by
  rw [floatDigits]
  rw [if_pos he]
  dsimp only
  rw [show V * d * pow10 (16 - decExpF (V * d) d).toNat =
        (V * pow10 (16 - decExpF (V * d) d).toNat) * d by ring]
  exact Nat.mul_div_cancel _ hd

/-! ## Formatting of integral floats (C3) -/

theorem isDig_ne_dot {c : Char} (h : isDig c = true) : c ≠ '.' := by
  intro heq
  rw [heq] at h
  exact absurd h (by decide)

theorem isDig_ne_minus {c : Char} (h : isDig c = true) : c ≠ '-' := by
  intro heq
  rw [heq] at h
  exact absurd h (by decide)

/-- An integer display string contains no decimal point. -/
theorem intChars_no_dot (i : Int) : '.' ∉ intChars i := by
  intro hmem
  rw [intChars] at hmem
  by_cases hneg : i < 0
  · rw [if_pos hneg] at hmem
    rcases List.mem_cons.mp hmem with h | h
    · cases h
    · exact absurd rfl (isDig_ne_dot (natChars_digits _ _ h))
  · rw [if_neg hneg] at hmem
    exact absurd rfl (isDig_ne_dot (natChars_digits _ _ hmem))

/-- The positional formatter renders a positive integral value below
`10 ^ 16` with a trailing `".0"`. -/
theorem formatPos_int {V d : ℕ} (hV : 0 < V) (hd : 0 < d) (hlt : V < pow10 16) :
    ∃ pre, formatPos (V * d) d = pre ++ ['.', '0'] := by
  have hn : 0 < V * d := Nat.mul_pos hV hd
  have hdq : (0 : ℚ) < (d : ℚ) := by exact_mod_cast hd
  obtain ⟨lb, ub⟩ := decExpF_bounds hn hd
  have hVq : ((V * d : ℕ) : ℚ) / (d : ℚ) = (V : ℚ) := by
    push_cast
    field_simp
  rw [hVq] at lb ub
  have hVq1 : (1 : ℚ) ≤ (V : ℚ) := by exact_mod_cast hV
  have he0 : 0 ≤ decExpF (V * d) d := by
    by_contra hc
    have h1 : decExpF (V * d) d + 1 ≤ 0 := by omega
    have h2 : (10 : ℚ) ^ (decExpF (V * d) d + 1) ≤ (10 : ℚ) ^ (0 : ℤ) :=
      zpow_le_zpow_right₀ (by norm_num) h1
    rw [zpow_zero] at h2
    linarith
  have he15 : decExpF (V * d) d ≤ 15 := by
    have hVlt : (V : ℚ) < (10 : ℚ) ^ ((16 : ℕ) : ℤ) := by
      rw [← pow10_cast]
      exact_mod_cast hlt
    have h2 : (10 : ℚ) ^ decExpF (V * d) d < (10 : ℚ) ^ ((16 : ℕ) : ℤ) :=
      lt_of_le_of_lt lb hVlt
    have := (zpow_lt_zpow_iff_right₀ (show (1:ℚ) < 10 by norm_num)).mp h2
    omega
  have hex := @floatDigits_exact V d hd (by omega)
  set k := (16 - decExpF (V * d) d).toNat with hkdef
  have hk1 : 1 ≤ k := by omega
  obtain ⟨hm1, hm2⟩ := floatDigits_bounds hn hd
  rw [hex] at hm1 hm2
  have hmlt18 : V * pow10 k < pow10 18 :=
    lt_of_lt_of_le hm2 (pow10_le_pow10 (by omega))
  obtain ⟨hs1, hs2, hs3⟩ :=
    stripZ_spec 18 (V * pow10 k) (Nat.mul_pos hV (pow10_pos k)) hmlt18
  set M := V * pow10 k with hM
  set S1 := (stripZ 18 M).1 with hS1
  set S2 := (stripZ 18 M).2 with hS2
  have ht : k ≤ S2 := by
    by_contra hc
    push_neg at hc
    have hsplit : pow10 k = pow10 (k - S2) * pow10 S2 := by
      rw [← pow10_add]
      congr 1
      omega
    have h1 : S1 * pow10 S2 = (V * pow10 (k - S2)) * pow10 S2 := by
      rw [← hs1, hM, hsplit]
      ring
    have hcancel : S1 = V * pow10 (k - S2) :=
      Nat.eq_of_mul_eq_mul_right (pow10_pos _) h1
    have hmod : S1 % 10 = 0 := by
      rw [hcancel, show pow10 (k - S2) = 10 * pow10 (k - S2 - 1) by
          rw [← pow10_succ]
          congr 1
          omega,
        show V * (10 * pow10 (k - S2 - 1)) = 10 * (V * pow10 (k - S2 - 1)) by ring]
      exact Nat.mul_mod_right 10 _
    exact hs3 hmod
  have hmle : S1 ≤ V := by
    have h2 : pow10 k ≤ pow10 S2 := pow10_le_pow10 ht
    by_contra hc
    push_neg at hc
    have := Nat.mul_lt_mul_of_lt_of_le hc h2 (pow10_pos _)
    omega
  have hVsmall : V < pow10 ((decExpF (V * d) d).toNat + 1) := by
    have hcast : (((decExpF (V * d) d).toNat + 1 : ℕ) : ℤ) = decExpF (V * d) d + 1 := by
      omega
    have h3 : (V : ℚ) < ((pow10 ((decExpF (V * d) d).toNat + 1) : ℕ) : ℚ) := by
      rw [pow10_cast, hcast]
      exact ub
    exact_mod_cast h3
  have hlen : (natChars S1).length ≤ (decExpF (V * d) d).toNat + 1 := by
    rw [natChars_len hs2]
    exact digLen_le_of_lt hs2 (lt_of_le_of_lt hmle hVsmall)
  refine ⟨natChars S1 ++
    List.replicate ((decExpF (V * d) d).toNat + 1 - (natChars S1).length) '0', ?_⟩
  rw [formatPos]
  rw [floatDigits_snd, hex, ← hS1]
  rw [show (decide (decExpF (V * d) d < -4) || decide (16 ≤ decExpF (V * d) d)) = false by
    rw [decide_eq_false (by omega), decide_eq_false (by omega)]
    rfl]
  rw [if_neg (by simp)]
  rw [plainChars]
  rw [if_pos he0]
  have hc2 : (natChars S1).length ≤ (decExpF (V * d) d).toNat + 1 := hlen
  simp only [if_pos hc2, List.append_assoc]

/-! ## Lexing algebra for display strings -/

theorem natOfChars_append (a b : List Char) :
    natOfChars (a ++ b) = natOfChars a * pow10 b.length + natOfChars b := by
  induction b using List.reverseRecOn with
  | nil => simp [natOfChars, pow10]
  | append_singleton ys c ih =>
    rw [← List.append_assoc, natOfChars_snoc, natOfChars_snoc, ih,
      List.length_append, List.length_singleton, pow10_add]
    have : pow10 1 = 10 := rfl
    rw [this]
    ring

theorem natOfChars_replicate_zero (k : ℕ) :
    natOfChars (List.replicate k '0') = 0 := by
  induction k with
  | zero => rfl
  | succ k ih =>
    rw [show List.replicate (k + 1) '0' = List.replicate k '0' ++ ['0'] by
        rw [← List.replicate_succ']  ,
      natOfChars_snoc, ih]
    rfl

theorem natOfChars_cons_zero (xs : List Char) :
    natOfChars ('0' :: xs) = natOfChars xs := by
  have h : ('0' :: xs) = ('0' :: ([] : List Char)) ++ xs := rfl
  rw [h, natOfChars_append]
  have h0 : natOfChars ['0'] = 0 := rfl
  rw [h0]
  omega

/-- `takeWhile isDig` keeps exactly a leading digit block. -/
theorem takeWhile_digits (ds rest : List Char) (hds : ∀ c ∈ ds, isDig c = true)
    (hrest : ∀ c h, rest = c :: h → isDig c = false) :
    List.takeWhile isDig (ds ++ rest) = ds := by
  induction ds with
  | nil =>
    cases rest with
    | nil => rfl
    | cons c h => simp [List.takeWhile_cons, hrest c h rfl]
  | cons c ds ih =>
    have hc : isDig c = true := hds c (List.mem_cons_self c ds)
    simp [List.takeWhile_cons, hc, ih (fun x hx => hds x (List.mem_cons_of_mem c hx))]

/-- `dropWhile isDig` drops exactly a leading digit block. -/
theorem dropWhile_digits (ds rest : List Char) (hds : ∀ c ∈ ds, isDig c = true)
    (hrest : ∀ c h, rest = c :: h → isDig c = false) :
    List.dropWhile isDig (ds ++ rest) = rest := by
  induction ds with
  | nil =>
    cases rest with
    | nil => rfl
    | cons c h => simp [List.dropWhile_cons, hrest c h rfl]
  | cons c ds ih =>
    have hc : isDig c = true := hds c (List.mem_cons_self c ds)
    simp [List.dropWhile_cons, hc, ih (fun x hx => hds x (List.mem_cons_of_mem c hx))]

/-- `span isDig` splits a digit block from a non-digit continuation. -/
theorem span_digits (ds rest : List Char) (hds : ∀ c ∈ ds, isDig c = true)
    (hrest : ∀ c h, rest = c :: h → isDig c = false) :
    List.span isDig (ds ++ rest) = (ds, rest) := by
  rw [List.span_eq_take_drop, takeWhile_digits ds rest hds hrest,
    dropWhile_digits ds rest hds hrest]

theorem isDig_beq_false {c : Char} (h : isDig c = true) (x : Char)
    (hx : isDig x = false) : (c == x) = false :=
  beq_eq_false_iff_ne.mpr (fun he => by rw [he, hx] at h; cases h)

/-- Lexing a pure digit block at the end of input. -/
theorem lexNum_digits_end (ds : List Char) (hd : ∀ c ∈ ds, isDig c = true) :
    lexNum ds = (ds, false, [], []) := by
  have h1 : List.span isDig ds = (ds, []) := by
    have := span_digits ds [] hd (by intro c h heq; cases heq)
    rwa [List.append_nil] at this
  rw [lexNum, h1]

/-- Lexing a digit block followed by a non-digit, non-dot character. -/
theorem lexNum_digits_cont (ds : List Char) (c : Char) (rest : List Char)
    (hd : ∀ x ∈ ds, isDig x = true) (hc : isDig c = false) (hdot : c ≠ '.') :
    lexNum (ds ++ c :: rest) = (ds, false, [], c :: rest) := by
  have h1 : List.span isDig (ds ++ c :: rest) = (ds, c :: rest) :=
    span_digits ds (c :: rest) hd
      (by intro x h heq; injection heq with h1 _; rw [← h1]; exact hc)
  rw [lexNum, h1]
  split
  · rename_i r2 heq
    injection heq with h4 _
    exact absurd h4 hdot
  · rfl

/-- Lexing `digits.digits` at the end of input. -/
theorem lexNum_dot_end (ip fp : List Char) (hip : ∀ c ∈ ip, isDig c = true)
    (hfp : ∀ c ∈ fp, isDig c = true) :
    lexNum (ip ++ '.' :: fp) = (ip, true, fp, []) := by
  have h1 : List.span isDig (ip ++ '.' :: fp) = (ip, '.' :: fp) :=
    span_digits ip ('.' :: fp) hip
      (by intro x h heq; injection heq with h1 _; rw [← h1]; decide)
  have h2 : List.span isDig fp = (fp, []) := by
    have := span_digits fp [] hfp (by intro c h heq; cases heq)
    rwa [List.append_nil] at this
  rw [lexNum, h1]
  show ((ip, true, (List.span isDig fp).1, (List.span isDig fp).2) :
    List Char × Bool × List Char × List Char) = (ip, true, fp, [])
  rw [h2]

/-- Lexing `digits.digits` followed by a non-digit, non-dot character. -/
theorem lexNum_dot_cont (ip fp : List Char) (c : Char) (rest : List Char)
    (hip : ∀ x ∈ ip, isDig x = true) (hfp : ∀ x ∈ fp, isDig x = true)
    (hc : isDig c = false) :
    lexNum (ip ++ '.' :: (fp ++ c :: rest)) = (ip, true, fp, c :: rest) := by
  have h1 : List.span isDig (ip ++ '.' :: (fp ++ c :: rest)) =
      (ip, '.' :: (fp ++ c :: rest)) :=
    span_digits ip ('.' :: (fp ++ c :: rest)) hip
      (by intro x h heq; injection heq with h1 _; rw [← h1]; decide)
  have h2 : List.span isDig (fp ++ c :: rest) = (fp, c :: rest) :=
    span_digits fp (c :: rest) hfp
      (by intro x h heq; injection heq with h1 _; rw [← h1]; exact hc)
  rw [lexNum, h1]
  show ((ip, true, (List.span isDig (fp ++ c :: rest)).1,
      (List.span isDig (fp ++ c :: rest)).2) :
    List Char × Bool × List Char × List Char) = (ip, true, fp, c :: rest)
  rw [h2]

/-! ## Tokenizing a single displayed number -/

theorem pyTokAux_int_lex (f : ℕ) (ip : List Char) (hip : ip ≠ [])
    (hd : ∀ x ∈ ip, isDig x = true) (hv : validIntLit ip = true) :
    pyTokAux (f + 2) ip = .ok [.int (natOfChars ip)] := by
  obtain ⟨c, ip', rfl⟩ := List.exists_cons_of_ne_nil hip
  have hc : isDig c = true := hd c (List.mem_cons_self c ip')
  have hlex := lexNum_digits_end (c :: ip') hd
  simp only [pyTokAux, isDig_beq_false hc ' ' (by decide), Bool.false_eq_true,
    if_false, hc, Bool.true_or, if_true, hlex, List.isEmpty_cons, List.isEmpty_nil,
    Bool.false_and, hv]

theorem pyTokAux_float_lex (f : ℕ) (ip fp : List Char) (hip : ip ≠ [])
    (hipd : ∀ x ∈ ip, isDig x = true) (hfpd : ∀ x ∈ fp, isDig x = true) :
    pyTokAux (f + 2) (ip ++ '.' :: fp) = .ok [.float (floatOfParts ip fp)] := by
  obtain ⟨c, ip', rfl⟩ := List.exists_cons_of_ne_nil hip
  have hc : isDig c = true := hipd c (List.mem_cons_self c ip')
  have hlex := lexNum_dot_end (c :: ip') fp hipd hfpd
  rw [List.cons_append] at hlex ⊢
  simp only [pyTokAux, isDig_beq_false hc ' ' (by decide), Bool.false_eq_true,
    if_false, hc, Bool.true_or, if_true, List.cons_append, hlex,
    List.isEmpty_cons, Bool.false_and]

theorem pyTokAux_sci_lex (f : ℕ) (ip fp ed : List Char) (sgn : Char) (z : Int)
    (hip : ip ≠ []) (hed : ed ≠ [])
    (hipd : ∀ x ∈ ip, isDig x = true) (hfpd : ∀ x ∈ fp, isDig x = true)
    (hedd : ∀ x ∈ ed, isDig x = true)
    (hsgn : (sgn = '+' ∧ z = 1) ∨ (sgn = '-' ∧ z = -1)) :
    pyTokAux (f + 2) (ip ++ '.' :: (fp ++ 'e' :: sgn :: ed)) =
      .ok [.float (scaleFloat (floatOfParts ip fp) (z * (natOfChars ed : Int)))] := by
  obtain ⟨c, ip', rfl⟩ := List.exists_cons_of_ne_nil hip
  have hc : isDig c = true := hipd c (List.mem_cons_self c ip')
  have hlex := lexNum_dot_cont (c :: ip') fp 'e' (sgn :: ed) hipd hfpd (by decide)
  rw [List.cons_append] at hlex ⊢
  have hspan : List.span isDig ed = (ed, []) := by
    have := span_digits ed [] hedd (by intro x h heq; cases heq)
    rwa [List.append_nil] at this
  have hedne : ed.isEmpty = false := by
    cases ed with
    | nil => exact absurd rfl hed
    | cons a l => rfl
  rcases hsgn with ⟨rfl, rfl⟩ | ⟨rfl, rfl⟩ <;>
    simp only [pyTokAux, isDig_beq_false hc ' ' (by decide), Bool.false_eq_true,
      if_false, hc, Bool.true_or, if_true, List.cons_append, hlex,
      List.isEmpty_cons, Bool.false_and, hspan, hedne]

theorem pyTokAux_nodot_sci_lex (f : ℕ) (ip ed : List Char) (sgn : Char) (z : Int)
    (hip : ip ≠ []) (hed : ed ≠ [])
    (hipd : ∀ x ∈ ip, isDig x = true) (hedd : ∀ x ∈ ed, isDig x = true)
    (hsgn : (sgn = '+' ∧ z = 1) ∨ (sgn = '-' ∧ z = -1)) :
    pyTokAux (f + 2) (ip ++ 'e' :: sgn :: ed) =
      .ok [.float (scaleFloat (floatOfParts ip []) (z * (natOfChars ed : Int)))] := by
  obtain ⟨c, ip', rfl⟩ := List.exists_cons_of_ne_nil hip
  have hc : isDig c = true := hipd c (List.mem_cons_self c ip')
  have hlex := lexNum_digits_cont (c :: ip') 'e' (sgn :: ed) hipd (by decide) (by decide)
  rw [List.cons_append] at hlex ⊢
  have hspan : List.span isDig ed = (ed, []) := by
    have := span_digits ed [] hedd (by intro x h heq; cases heq)
    rwa [List.append_nil] at this
  have hedne : ed.isEmpty = false := by
    cases ed with
    | nil => exact absurd rfl hed
    | cons a l => rfl
  rcases hsgn with ⟨rfl, rfl⟩ | ⟨rfl, rfl⟩ <;>
    simp only [pyTokAux, isDig_beq_false hc ' ' (by decide), Bool.false_eq_true,
      if_false, hc, Bool.true_or, if_true, List.cons_append, hlex,
      List.isEmpty_cons, Bool.false_and, hspan, hedne]

/-- Tokenizing a leading minus applied to the rest of the input. -/
theorem pyTokAux_minus (f : ℕ) (cs : List Char) (ts : List Tok)
    (h : pyTokAux (f + 1) cs = .ok ts) :
    pyTokAux (f + 2) ('-' :: cs) = .ok (.minus :: ts) := by
  simp only [pyTokAux, charTok, h]
  rfl

/-! ## Parsing a single literal (possibly negated) -/

theorem pyParseAll_float (w : PyFloat) :
    pyParseAll [.float w] = some (.floatLit w) := rfl

theorem pyParseAll_int (m : ℕ) :
    pyParseAll [.int m] = some (.intLit m) := rfl

theorem pyParseAll_minus_float (w : PyFloat) :
    pyParseAll [.minus, .float w] = some (.neg (.floatLit w)) := rfl

theorem pyParseAll_minus_int (m : ℕ) :
    pyParseAll [.minus, .int m] = some (.neg (.intLit m)) := rfl

/-! ## Canonical digits determine the formatter output -/

theorem decExpF_eq_of_bounds {n d : ℕ} {e : Int} (hn : 0 < n) (hd : 0 < d)
    (h1 : (10 : ℚ) ^ e ≤ (n : ℚ) / (d : ℚ))
    (h2 : (n : ℚ) / (d : ℚ) < (10 : ℚ) ^ (e + 1)) :
    decExpF n d = e := by
  have hten : (1 : ℚ) ≤ 10 := by norm_num
  obtain ⟨b1, b2⟩ := decExpF_bounds hn hd
  by_contra hne
  rcases lt_or_gt_of_ne hne with h | h
  · have hle : (10 : ℚ) ^ (decExpF n d + 1) ≤ (10 : ℚ) ^ e :=
      zpow_le_zpow_right₀ hten (by omega)
    linarith
  · have hle : (10 : ℚ) ^ (e + 1) ≤ (10 : ℚ) ^ (decExpF n d) :=
      zpow_le_zpow_right₀ hten (by omega)
    linarith

theorem floatDigits_canonical {S n d : ℕ} {e : Int} (hd : 0 < d)
    (hS1 : pow10 16 ≤ S) (hS2 : S < pow10 17)
    (hval : (n : ℚ) / (d : ℚ) = (S : ℚ) * (10 : ℚ) ^ (e - 16)) :
    floatDigits n d = (S, e) := by
  have hten : (10 : ℚ) ≠ 0 := by norm_num
  have hdq : (0 : ℚ) < (d : ℚ) := by exact_mod_cast hd
  have h16 : ((16 : ℕ) : ℤ) = (16 : ℤ) := rfl
  have h17 : ((17 : ℕ) : ℤ) = (17 : ℤ) := rfl
  have hSq : (10 : ℚ) ^ (16 : ℤ) ≤ (S : ℚ) := by
    rw [← h16, ← pow10_cast]; exact_mod_cast hS1
  have hSq2 : (S : ℚ) < (10 : ℚ) ^ (17 : ℤ) := by
    rw [← h17, ← pow10_cast]; exact_mod_cast hS2
  have hSqpos : (0 : ℚ) < (S : ℚ) := lt_of_lt_of_le (by positivity) hSq
  have hxpos : (0 : ℚ) < (n : ℚ) / (d : ℚ) := by
    rw [hval]; positivity
  have hn : 0 < n := by
    rcases Nat.eq_zero_or_pos n with h0 | h0
    · exfalso; rw [h0] at hxpos; simp at hxpos
    · exact h0
  have hnval : (n : ℚ) = (S : ℚ) * (10 : ℚ) ^ (e - 16) * (d : ℚ) := by
    rw [← hval]; field_simp
  have hlow : (10 : ℚ) ^ e ≤ (n : ℚ) / (d : ℚ) := by
    rw [hval]
    calc (10 : ℚ) ^ e = (10 : ℚ) ^ (16 : ℤ) * (10 : ℚ) ^ (e - 16) := by
          rw [← zpow_add₀ hten]; congr 1; ring
    _ ≤ (S : ℚ) * (10 : ℚ) ^ (e - 16) :=
          mul_le_mul_of_nonneg_right hSq (by positivity)
  have hup : (n : ℚ) / (d : ℚ) < (10 : ℚ) ^ (e + 1) := by
    rw [hval]
    calc (S : ℚ) * (10 : ℚ) ^ (e - 16)
        < (10 : ℚ) ^ (17 : ℤ) * (10 : ℚ) ^ (e - 16) :=
          mul_lt_mul_of_pos_right hSq2 (by positivity)
    _ = (10 : ℚ) ^ (e + 1) := by
          rw [← zpow_add₀ hten]; congr 1; ring
  have he : decExpF n d = e := decExpF_eq_of_bounds hn hd hlow hup
  simp only [floatDigits, he]
  by_cases he16 : e ≤ 16
  · rw [if_pos he16]
    have hk : (((16 - e).toNat : ℕ) : ℤ) = 16 - e := Int.toNat_of_nonneg (by omega)
    have hQ : ((n * pow10 (16 - e).toNat : ℕ) : ℚ) = ((S * d : ℕ) : ℚ) := by
      push_cast
      rw [pow10_cast, hk, hnval]
      have hAB : (10 : ℚ) ^ (e - 16) * (10 : ℚ) ^ (16 - e) = 1 := by
        rw [← zpow_add₀ hten, show e - 16 + (16 - e) = 0 by ring, zpow_zero]
      calc (S : ℚ) * (10 : ℚ) ^ (e - 16) * (d : ℚ) * (10 : ℚ) ^ (16 - e)
          = (S : ℚ) * (d : ℚ) * ((10 : ℚ) ^ (e - 16) * (10 : ℚ) ^ (16 - e)) := by
            ring
      _ = (S : ℚ) * (d : ℚ) := by rw [hAB, mul_one]
    have hN : n * pow10 (16 - e).toNat = S * d := by exact_mod_cast hQ
    rw [hN, Nat.mul_div_cancel S hd]
  · rw [if_neg he16]
    have hk : (((e - 16).toNat : ℕ) : ℤ) = e - 16 := Int.toNat_of_nonneg (by omega)
    have hQ : ((n : ℕ) : ℚ) = ((S * (d * pow10 (e - 16).toNat) : ℕ) : ℚ) := by
      push_cast
      rw [pow10_cast, hk, hnval]
      ring
    have hN : n = S * (d * pow10 (e - 16).toNat) := by exact_mod_cast hQ
    have hP : 0 < d * pow10 (e - 16).toNat := Nat.mul_pos hd (pow10_pos _)
    rw [hN, Nat.mul_div_cancel S hP]

theorem formatPos_congr_digits {n d n2 d2 : ℕ}
    (h : floatDigits n d = floatDigits n2 d2) :
    formatPos n d = formatPos n2 d2 := by
  rw [formatPos, formatPos, h]

/-! ## Re-tokenizing a rendered float: helpers -/

theorem natChars_ne_nil (n : ℕ) : natChars n ≠ [] := by
  by_cases h : n = 0
  · subst h; decide
  · have hpos : 0 < n := Nat.pos_of_ne_zero h
    have hlen := natChars_len hpos
    have hd := digLen_pos hpos
    intro hcon
    rw [hcon] at hlen
    simp at hlen
    omega

theorem padLeft2_ne_nil {ds : List Char} (h : ds ≠ []) : padLeft2 ds ≠ [] := by
  rw [padLeft2]
  split
  · exact List.cons_ne_nil _ _
  · exact h

theorem padLeft2_digits {ds : List Char} (h : ∀ c ∈ ds, isDig c = true) :
    ∀ c ∈ padLeft2 ds, isDig c = true := by
  intro c hc
  rw [padLeft2] at hc
  split at hc
  · rcases List.mem_cons.mp hc with rfl | hc2
    · decide
    · exact h c hc2
  · exact h c hc

theorem natOfChars_padLeft2 (ds : List Char) :
    natOfChars (padLeft2 ds) = natOfChars ds := by
  rw [padLeft2]
  split
  · exact natOfChars_cons_zero ds
  · rfl

theorem pow10_div_val (A p q : ℕ) :
    ((A * pow10 p : ℕ) : ℚ) / ((pow10 q : ℕ) : ℚ) =
      (A : ℚ) * (10 : ℚ) ^ ((p : ℤ) - (q : ℤ)) := by
  push_cast
  rw [pow10_cast, pow10_cast, mul_div_assoc, ← zpow_sub₀ (by norm_num)]

/-! ## Re-tokenizing a rendered float: the positional branches -/

theorem plainRetokC {S1 : ℕ} {e : Int} (hS1pos : 0 < S1) (he : e < 0) (f : ℕ) :
    ∃ w : PyFloat,
      pyTokAux (f + 2) (plainChars (natChars S1) e) = .ok [.float w] ∧
      0 < w.num ∧
      (w.num.natAbs : ℚ) / (w.den : ℚ) =
        (S1 : ℚ) * (10 : ℚ) ^ (e + 1 - ((natChars S1).length : ℤ)) := by
  refine ⟨floatOfParts ['0'] (List.replicate (e.natAbs - 1) '0' ++ natChars S1),
    ?_, ?_, ?_⟩
  · have hplain : plainChars (natChars S1) e =
        ['0'] ++ '.' :: (List.replicate (e.natAbs - 1) '0' ++ natChars S1) := by
      rw [plainChars, if_neg (by omega), List.singleton_append]
    rw [hplain]
    refine pyTokAux_float_lex f _ _ (by decide) ?_ ?_
    · intro x hx
      rcases List.mem_singleton.mp hx with rfl
      decide
    · intro x hx
      rcases List.mem_append.mp hx with h1 | h2
      · rw [List.eq_of_mem_replicate h1]; decide
      · exact natChars_digits S1 x h2
  · show 0 < ((natOfChars (['0'] ++ (List.replicate (e.natAbs - 1) '0' ++ natChars S1)) : ℕ) : ℤ)
    have hval : natOfChars (['0'] ++ (List.replicate (e.natAbs - 1) '0' ++ natChars S1))
        = S1 := by
      rw [List.singleton_append, natOfChars_cons_zero, natOfChars_append,
        natOfChars_replicate_zero, natOfChars_natChars]
      simp
    rw [hval]
    exact_mod_cast hS1pos
  · have hval : natOfChars (['0'] ++ (List.replicate (e.natAbs - 1) '0' ++ natChars S1))
        = S1 := by
      rw [List.singleton_append, natOfChars_cons_zero, natOfChars_append,
        natOfChars_replicate_zero, natOfChars_natChars]
      simp
    simp only [floatOfParts, hval, Int.natAbs_ofNat, List.length_append,
      List.length_replicate]
    rw [div_eq_mul_inv, pow10_cast, ← zpow_neg,
      show -((e.natAbs - 1 + (natChars S1).length : ℕ) : ℤ) =
        e + 1 - ((natChars S1).length : ℤ) by omega]

theorem plainRetokA {S1 : ℕ} {e : Int} (hS1pos : 0 < S1) (he : 0 ≤ e)
    (hL : (natChars S1).length ≤ e.toNat + 1) (f : ℕ) :
    ∃ w : PyFloat,
      pyTokAux (f + 2) (plainChars (natChars S1) e) = .ok [.float w] ∧
      0 < w.num ∧
      (w.num.natAbs : ℚ) / (w.den : ℚ) =
        (S1 : ℚ) * (10 : ℚ) ^ (e + 1 - ((natChars S1).length : ℤ)) := by
  refine ⟨floatOfParts
    (natChars S1 ++ List.replicate (e.toNat + 1 - (natChars S1).length) '0') ['0'],
    ?_, ?_, ?_⟩
  · have hplain : plainChars (natChars S1) e =
        (natChars S1 ++ List.replicate (e.toNat + 1 - (natChars S1).length) '0')
          ++ '.' :: ['0'] := by
      rw [plainChars, if_pos he]
      simp only [if_pos hL]
    rw [hplain]
    refine pyTokAux_float_lex f _ _ ?_ ?_ ?_
    · intro hcon
      exact natChars_ne_nil S1 (List.append_eq_nil.mp hcon).1
    · intro x hx
      rcases List.mem_append.mp hx with h1 | h2
      · exact natChars_digits S1 x h1
      · rw [List.eq_of_mem_replicate h2]; decide
    · intro x hx
      rcases List.mem_singleton.mp hx with rfl
      decide
  · show 0 < ((natOfChars ((natChars S1 ++
      List.replicate (e.toNat + 1 - (natChars S1).length) '0') ++ ['0']) : ℕ) : ℤ)
    have hval : natOfChars ((natChars S1 ++
        List.replicate (e.toNat + 1 - (natChars S1).length) '0') ++ ['0'])
        = S1 * pow10 (e.toNat + 1 - (natChars S1).length) * 10 := by
      rw [natOfChars_snoc, natOfChars_append, natOfChars_replicate_zero,
        natOfChars_natChars, List.length_replicate]
      show 10 * (S1 * pow10 _ + 0) + 0 = _
      ring
    rw [hval]
    have hp := pow10_pos (e.toNat + 1 - (natChars S1).length)
    positivity
  · have hval : natOfChars ((natChars S1 ++
        List.replicate (e.toNat + 1 - (natChars S1).length) '0') ++ ['0'])
        = S1 * pow10 (e.toNat + 1 - (natChars S1).length) * 10 := by
      rw [natOfChars_snoc, natOfChars_append, natOfChars_replicate_zero,
        natOfChars_natChars, List.length_replicate]
      show 10 * (S1 * pow10 _ + 0) + 0 = _
      ring
    simp only [floatOfParts, hval, Int.natAbs_ofNat, List.length_singleton]
    push_cast
    rw [pow10_cast, pow10_cast,
      show ((1 : ℕ) : ℤ) = (1 : ℤ) from rfl,
      show ((e.toNat + 1 - (natChars S1).length : ℕ) : ℤ) =
        e + 1 - ((natChars S1).length : ℤ) by omega]
    rw [zpow_one]
    field_simp

theorem plainRetokB {S1 : ℕ} {e : Int} (hS1pos : 0 < S1) (he : 0 ≤ e)
    (hL : e.toNat + 1 < (natChars S1).length) (f : ℕ) :
    ∃ w : PyFloat,
      pyTokAux (f + 2) (plainChars (natChars S1) e) = .ok [.float w] ∧
      0 < w.num ∧
      (w.num.natAbs : ℚ) / (w.den : ℚ) =
        (S1 : ℚ) * (10 : ℚ) ^ (e + 1 - ((natChars S1).length : ℤ)) := by
  refine ⟨floatOfParts ((natChars S1).take (e.toNat + 1))
    ((natChars S1).drop (e.toNat + 1)), ?_, ?_, ?_⟩
  · have hplain : plainChars (natChars S1) e =
        (natChars S1).take (e.toNat + 1) ++ '.' :: (natChars S1).drop (e.toNat + 1) := by
      rw [plainChars, if_pos he]
      simp only [if_neg (by omega : ¬ (natChars S1).length ≤ e.toNat + 1)]
    rw [hplain]
    refine pyTokAux_float_lex f _ _ ?_ ?_ ?_
    · intro hcon
      have hlen := congrArg List.length hcon
      rw [List.length_take] at hlen
      simp only [List.length_nil] at hlen
      omega
    · intro x hx
      exact natChars_digits S1 x (List.take_subset _ _ hx)
    · intro x hx
      exact natChars_digits S1 x (List.drop_subset _ _ hx)
  · show 0 < ((natOfChars ((natChars S1).take (e.toNat + 1) ++
      (natChars S1).drop (e.toNat + 1)) : ℕ) : ℤ)
    rw [List.take_append_drop, natOfChars_natChars]
    exact_mod_cast hS1pos
  · simp only [floatOfParts, List.take_append_drop, natOfChars_natChars,
      Int.natAbs_ofNat, List.length_drop]
    rw [div_eq_mul_inv, pow10_cast, ← zpow_neg,
      show -(((natChars S1).length - (e.toNat + 1) : ℕ) : ℤ) =
        e + 1 - ((natChars S1).length : ℤ) by omega]

/-! ## Re-tokenizing a rendered float: the scientific branch -/

theorem scaleFloat_pos_num {v : PyFloat} (z : Int) (hv : 0 < v.num) :
    0 < (scaleFloat v z).num := by
  cases z with
  | ofNat k =>
    simp only [scaleFloat]
    exact mul_pos hv (by exact_mod_cast pow10_pos k)
  | negSucc k => exact hv

theorem scaleFloat_val (v : PyFloat) (z : Int) :
    ((scaleFloat v z).num.natAbs : ℚ) / ((scaleFloat v z).den : ℚ) =
      ((v.num.natAbs : ℚ) / (v.den : ℚ)) * (10 : ℚ) ^ z := by
  cases z with
  | ofNat k =>
    simp only [scaleFloat]
    rw [Int.natAbs_mul, Int.natAbs_ofNat]
    push_cast
    rw [pow10_cast]
    rw [show ((Int.ofNat k : ℤ)) = ((k : ℕ) : ℤ) from rfl]
    ring
  | negSucc k =>
    simp only [scaleFloat]
    push_cast
    rw [pow10_cast, zpow_negSucc]
    rw [show ((10 : ℚ) ^ (((k + 1 : ℕ)) : ℤ)) = (10 : ℚ) ^ ((k + 1 : ℕ)) from
      zpow_natCast 10 (k + 1)]
    field_simp

theorem sciRetok {S1 : ℕ} {e : Int} (hS1pos : 0 < S1) (f : ℕ) :
    ∃ w : PyFloat,
      pyTokAux (f + 2) (sciChars (natChars S1) e) = .ok [.float w] ∧
      0 < w.num ∧
      (w.num.natAbs : ℚ) / (w.den : ℚ) =
        (S1 : ℚ) * (10 : ℚ) ^ (e + 1 - ((natChars S1).length : ℤ)) := by
  have hedne := padLeft2_ne_nil (natChars_ne_nil e.natAbs)
  have hedd := padLeft2_digits (natChars_digits e.natAbs)
  have hedval : natOfChars (padLeft2 (natChars e.natAbs)) = e.natAbs := by
    rw [natOfChars_padLeft2, natOfChars_natChars]
  have hsgn : ((if e < 0 then '-' else '+') = '+' ∧ (if e < 0 then (-1 : ℤ) else 1) = 1)
      ∨ ((if e < 0 then '-' else '+') = '-' ∧ (if e < 0 then (-1 : ℤ) else 1) = -1) := by
    by_cases h : e < 0
    · right; rw [if_pos h, if_pos h]; exact ⟨rfl, rfl⟩
    · left; rw [if_neg h, if_neg h]; exact ⟨rfl, rfl⟩
  have hz : (if e < 0 then (-1 : ℤ) else 1) *
      (natOfChars (padLeft2 (natChars e.natAbs)) : ℤ) = e := by
    rw [hedval]
    by_cases h : e < 0
    · rw [if_pos h]; omega
    · rw [if_neg h]; omega
  cases hdc : natChars S1 with
  | nil => exact absurd hdc (natChars_ne_nil S1)
  | cons c rest =>
    have hcd : isDig c = true :=
      natChars_digits S1 c (by rw [hdc]; exact List.mem_cons_self c rest)
    have hcdig : ∀ x ∈ [c], isDig x = true := by
      intro x hx
      rcases List.mem_singleton.mp hx with rfl
      exact hcd
    have hS1num : natOfChars (c :: rest) = S1 := by
      rw [← hdc, natOfChars_natChars]
    cases rest with
    | nil =>
      refine ⟨scaleFloat (floatOfParts [c] []) e, ?_, ?_, ?_⟩
      · have htok := pyTokAux_nodot_sci_lex f [c] (padLeft2 (natChars e.natAbs))
          (if e < 0 then '-' else '+') (if e < 0 then (-1 : ℤ) else 1)
          (List.cons_ne_nil c []) hedne hcdig hedd hsgn
        rw [hz] at htok
        exact htok
      · apply scaleFloat_pos_num
        show 0 < ((natOfChars ([c] ++ []) : ℕ) : ℤ)
        rw [List.append_nil, show natOfChars [c] = S1 from hS1num]
        exact_mod_cast hS1pos
      · rw [scaleFloat_val]
        have hnum : natOfChars ([c] ++ []) = S1 := by
          rw [List.append_nil]; exact hS1num
        simp only [floatOfParts, Int.natAbs_ofNat, List.length_nil,
          List.length_cons]
        rw [hnum]
        rw [show pow10 0 = 1 from rfl]
        push_cast
        rw [div_one]
        norm_num
    | cons c2 rest2 =>
      have hfpd : ∀ x ∈ (c2 :: rest2), isDig x = true := by
        intro x hx
        refine natChars_digits S1 x ?_
        rw [hdc]
        exact List.mem_cons_of_mem c hx
      refine ⟨scaleFloat (floatOfParts [c] (c2 :: rest2)) e, ?_, ?_, ?_⟩
      · have htok := pyTokAux_sci_lex f [c] (c2 :: rest2)
          (padLeft2 (natChars e.natAbs))
          (if e < 0 then '-' else '+') (if e < 0 then (-1 : ℤ) else 1)
          (List.cons_ne_nil c []) hedne hcdig hfpd hedd hsgn
        rw [hz] at htok
        exact htok
      · apply scaleFloat_pos_num
        show 0 < ((natOfChars ([c] ++ (c2 :: rest2)) : ℕ) : ℤ)
        rw [List.singleton_append, hS1num]
        exact_mod_cast hS1pos
      · rw [scaleFloat_val]
        have hnum : natOfChars ([c] ++ (c2 :: rest2)) = S1 := by
          rw [List.singleton_append]; exact hS1num
        simp only [floatOfParts, Int.natAbs_ofNat, List.length_cons]
        rw [hnum]
        rw [div_eq_mul_inv, pow10_cast, ← zpow_neg, mul_assoc,
          ← zpow_add₀ (by norm_num : (10 : ℚ) ≠ 0)]
        rw [show -(((rest2.length + 1 : ℕ)) : ℤ) + e =
          e + 1 - ((rest2.length + 1 + 1 : ℕ) : ℤ) by push_cast; ring]

theorem formatPos_ifSE (n d : ℕ) :
    formatPos n d =
      (if (floatDigits n d).2 < -4 || 16 ≤ (floatDigits n d).2 then
        sciChars (natChars (stripZ 18 (floatDigits n d).1).1) (floatDigits n d).2
      else
        plainChars (natChars (stripZ 18 (floatDigits n d).1).1)
          (floatDigits n d).2) := rfl

theorem formatPos_retok {n d : ℕ} (hn : 0 < n) (hd : 0 < d) (f : ℕ) :
    ∃ w : PyFloat,
      pyTokAux (f + 2) (formatPos n d) = .ok [.float w] ∧
      0 < w.num ∧
      (w.num.natAbs : ℚ) / (w.den : ℚ) =
        (((floatDigits n d).1 : ℕ) : ℚ) * (10 : ℚ) ^ ((floatDigits n d).2 - 16) := by
  have hSpos : 0 < (floatDigits n d).1 :=
    lt_of_lt_of_le (pow10_pos 16) (floatDigits_bounds hn hd).1
  obtain ⟨hsplit, hS1pos, hS1mod⟩ :=
    stripZ_spec 18 (floatDigits n d).1 hSpos
      (lt_trans (floatDigits_bounds hn hd).2 (pow10_lt_pow10 (by omega)))
  have hdigS : digLen (floatDigits n d).1 = 17 := by
    apply digLen_unique hSpos (floatDigits_bounds hn hd).2
    have h1 := (floatDigits_bounds hn hd).1
    calc pow10 17 = 10 * pow10 16 := pow10_succ 16
    _ ≤ 10 * (floatDigits n d).1 := by omega
  have hLz : digLen (stripZ 18 (floatDigits n d).1).1
      + (stripZ 18 (floatDigits n d).1).2 = 17 := by
    rw [← digLen_mul_pow10 hS1pos, ← hsplit, hdigS]
  have hlen : (natChars (stripZ 18 (floatDigits n d).1).1).length
      = digLen (stripZ 18 (floatDigits n d).1).1 := natChars_len hS1pos
  have hbridge : ((stripZ 18 (floatDigits n d).1).1 : ℚ) *
      (10 : ℚ) ^ ((floatDigits n d).2 + 1 -
        ((natChars (stripZ 18 (floatDigits n d).1).1).length : ℤ)) =
      (((floatDigits n d).1 : ℕ) : ℚ) * (10 : ℚ) ^ ((floatDigits n d).2 - 16) := by
    rw [hlen]
    conv_rhs => rw [hsplit]
    push_cast
    rw [pow10_cast, mul_assoc, ← zpow_add₀ (by norm_num : (10 : ℚ) ≠ 0)]
    congr 2
    omega
  rw [formatPos_ifSE n d]
  by_cases hs1 : (floatDigits n d).2 < -4
  · rw [if_pos (by simp [hs1])]
    obtain ⟨w, htok, hpos, hval⟩ := sciRetok hS1pos f
    exact ⟨w, htok, hpos, by rw [← hbridge]; exact hval⟩
  · by_cases hs2 : 16 ≤ (floatDigits n d).2
    · rw [if_pos (by simp [hs2])]
      obtain ⟨w, htok, hpos, hval⟩ := sciRetok hS1pos f
      exact ⟨w, htok, hpos, by rw [← hbridge]; exact hval⟩
    · rw [if_neg (by simp [hs1, hs2])]
      by_cases he0 : 0 ≤ (floatDigits n d).2
      · by_cases hcase : (natChars (stripZ 18 (floatDigits n d).1).1).length ≤
            (floatDigits n d).2.toNat + 1
        · obtain ⟨w, htok, hpos, hval⟩ := plainRetokA hS1pos he0 hcase f
          exact ⟨w, htok, hpos, by rw [← hbridge]; exact hval⟩
        · rw [not_le] at hcase
          obtain ⟨w, htok, hpos, hval⟩ := plainRetokB hS1pos he0 hcase f
          exact ⟨w, htok, hpos, by rw [← hbridge]; exact hval⟩
      · obtain ⟨w, htok, hpos, hval⟩ :=
          plainRetokC hS1pos (show (floatDigits n d).2 < 0 by omega) f
        exact ⟨w, htok, hpos, by rw [← hbridge]; exact hval⟩

/-- Tokenizing a rendered positive float gives back one float token whose
value re-renders to exactly the same characters. -/
theorem formatPos_roundtrip {n d : ℕ} (hn : 0 < n) (hd : 0 < d) (f : ℕ) :
    ∃ w : PyFloat,
      pyTokAux (f + 2) (formatPos n d) = .ok [.float w] ∧
      0 < w.num ∧ formatFloat w = formatPos n d := by
  obtain ⟨w, htok, hpos, hval⟩ := formatPos_retok hn hd f
  refine ⟨w, htok, hpos, ?_⟩
  have hcanon : floatDigits w.num.natAbs w.den =
      ((floatDigits n d).1, (floatDigits n d).2) :=
    floatDigits_canonical w.den_pos (floatDigits_bounds hn hd).1
      (floatDigits_bounds hn hd).2 hval
  have hne : (w.num == 0) = false := by
    rw [beq_eq_false_iff_ne]
    omega
  have hnlt : ¬ w.num < 0 := by omega
  rw [formatFloat, hne]
  simp only [Bool.false_eq_true, if_false, if_neg hnlt]
  apply formatPos_congr_digits
  rw [hcanon]

theorem formatPos_ne_nil (n d : ℕ) : formatPos n d ≠ [] := by
  rw [formatPos]
  split
  · intro hcon
    have hl := congrArg List.length hcon
    rw [sciChars.eq_def, List.length_append] at hl
    simp at hl
  · intro hcon
    rw [plainChars] at hcon
    split at hcon
    · simp only [] at hcon
      split at hcon
      · have hl := congrArg List.length hcon
        rw [List.length_append, List.length_append] at hl
        simp at hl
      · have hl := congrArg List.length hcon
        rw [List.length_append] at hl
        simp at hl
    · exact List.cons_ne_nil _ _ hcon

/-! ## Displayed results re-evaluate to themselves -/

theorem pyTokenize_mk (cs : List Char) :
    pyTokenize ⟨cs⟩ = pyTokAux (cs.length + 1) cs := rfl

theorem pyDisplay_int_fixed (m : ℕ) :
    pyEvalDisplay ⟨natChars m⟩ = .ok ⟨natChars m⟩ := by
  have hne := natChars_ne_nil m
  have hlenpos : 0 < (natChars m).length := List.length_pos.mpr hne
  have htok : pyTokenize ⟨natChars m⟩ = .ok [.int m] := by
    rw [pyTokenize_mk,
      show (natChars m).length + 1 = ((natChars m).length - 1) + 2 by omega,
      pyTokAux_int_lex _ _ hne (natChars_digits m) (validIntLit_natChars m),
      natOfChars_natChars]
  rw [pyEvalDisplay, pyEvalValue, htok]
  simp only [pyParseAll_int, evalP, pyDisplay, intChars,
    if_neg (show ¬ ((m : ℤ) < 0) by omega), Int.toNat_ofNat]

theorem pyDisplay_negint_fixed (m : ℕ) (hm : 0 < m) :
    pyEvalDisplay ⟨'-' :: natChars m⟩ = .ok ⟨'-' :: natChars m⟩ := by
  have hne := natChars_ne_nil m
  have hlenpos : 0 < (natChars m).length := List.length_pos.mpr hne
  have htok0 : pyTokAux ((natChars m).length + 1) (natChars m) = .ok [.int m] := by
    rw [show (natChars m).length + 1 = ((natChars m).length - 1) + 2 by omega,
      pyTokAux_int_lex _ _ hne (natChars_digits m) (validIntLit_natChars m),
      natOfChars_natChars]
  have htok : pyTokenize ⟨'-' :: natChars m⟩ = .ok [.minus, .int m] := by
    rw [pyTokenize_mk,
      show ('-' :: natChars m).length + 1 = (natChars m).length + 2 from by simp]
    exact pyTokAux_minus _ _ _ htok0
  rw [pyEvalDisplay, pyEvalValue, htok]
  simp only [pyParseAll_minus_int, evalP, pyNeg, pyDisplay, intChars,
    if_pos (show (-(m : ℤ) : ℤ) < 0 by omega)]
  rw [show (-(m : ℤ)).natAbs = m by omega]

theorem pyDisplay_posfloat_fixed (n d : ℕ) (hn : 0 < n) (hd : 0 < d) :
    pyEvalDisplay ⟨formatPos n d⟩ = .ok ⟨formatPos n d⟩ := by
  have hlenpos : 0 < (formatPos n d).length :=
    List.length_pos.mpr (formatPos_ne_nil n d)
  obtain ⟨w, htok0, hpos, hre⟩ := formatPos_roundtrip hn hd ((formatPos n d).length - 1)
  have htok : pyTokenize ⟨formatPos n d⟩ = .ok [.float w] := by
    rw [pyTokenize_mk,
      show (formatPos n d).length + 1 = ((formatPos n d).length - 1) + 2 by omega]
    exact htok0
  rw [pyEvalDisplay, pyEvalValue, htok]
  simp only [pyParseAll_float, evalP, pyDisplay]
  rw [hre]

theorem pyDisplay_negfloat_fixed (n d : ℕ) (hn : 0 < n) (hd : 0 < d) :
    pyEvalDisplay ⟨'-' :: formatPos n d⟩ = .ok ⟨'-' :: formatPos n d⟩ := by
  have hlenpos : 0 < (formatPos n d).length :=
    List.length_pos.mpr (formatPos_ne_nil n d)
  obtain ⟨w, htok0, hpos, hre⟩ := formatPos_roundtrip hn hd ((formatPos n d).length - 1)
  have htok1 : pyTokAux ((formatPos n d).length + 1) (formatPos n d) = .ok [.float w] := by
    rw [show (formatPos n d).length + 1 = ((formatPos n d).length - 1) + 2 by omega]
    exact htok0
  have htok : pyTokenize ⟨'-' :: formatPos n d⟩ = .ok [.minus, .float w] := by
    rw [pyTokenize_mk,
      show ('-' :: formatPos n d).length + 1 = (formatPos n d).length + 2 from by simp]
    exact pyTokAux_minus _ _ _ htok1
  have hfw : formatPos w.num.natAbs w.den = formatPos n d := by
    rw [← hre, formatFloat,
      show (w.num == 0) = false from by rw [beq_eq_false_iff_ne]; omega]
    simp only [Bool.false_eq_true, if_false, if_neg (show ¬ w.num < 0 by omega)]
  rw [pyEvalDisplay, pyEvalValue, htok]
  simp only [pyParseAll_minus_float, evalP, pyNeg, pyDisplay]
  have h1 : ((-w.num : ℤ) == 0) = false := by rw [beq_eq_false_iff_ne]; omega
  have h2 : (-w.num : ℤ) < 0 := by omega
  simp only [formatFloat, h1, Bool.false_eq_true, if_false, if_pos h2,
    Int.natAbs_neg]
  rw [hfw]

/-- Every displayed value is a fixed point of display-then-re-evaluate. -/
theorem pyDisplay_fixed (v : PyVal) :
    pyEvalDisplay (pyDisplay v) = .ok (pyDisplay v) := by
  cases v with
  | int i =>
    cases i with
    | ofNat m =>
      show pyEvalDisplay ⟨intChars (Int.ofNat m)⟩ = .ok ⟨intChars (Int.ofNat m)⟩
      rw [show intChars (Int.ofNat m) = natChars m from by
        rw [intChars,
          if_neg (show ¬ Int.ofNat m < 0 from not_lt.mpr (Int.ofNat_nonneg m))]
        rfl]
      exact pyDisplay_int_fixed m
    | negSucc m =>
      show pyEvalDisplay ⟨intChars (Int.negSucc m)⟩ = .ok ⟨intChars (Int.negSucc m)⟩
      rw [show intChars (Int.negSucc m) = '-' :: natChars (m + 1) from by
        rw [intChars, if_pos (Int.negSucc_lt_zero m)]
        rfl]
      exact pyDisplay_negint_fixed (m + 1) (by omega)
  | float w =>
    show pyEvalDisplay ⟨formatFloat w⟩ = .ok ⟨formatFloat w⟩
    rcases lt_trichotomy w.num 0 with hneg | hzero | hpos
    · rw [show formatFloat w = '-' :: formatPos w.num.natAbs w.den from by
        rw [formatFloat,
          show (w.num == 0) = false from by rw [beq_eq_false_iff_ne]; omega]
        simp only [Bool.false_eq_true, if_false, if_pos hneg]]
      exact pyDisplay_negfloat_fixed _ _ (Int.natAbs_pos.mpr (by omega)) w.den_pos
    · rw [show formatFloat w = ['0', '.', '0'] from by
        rw [formatFloat, show (w.num == 0) = true from by rw [beq_iff_eq]; omega]
        simp]
      decide
    · rw [show formatFloat w = formatPos w.num.natAbs w.den from by
        rw [formatFloat,
          show (w.num == 0) = false from by rw [beq_eq_false_iff_ne]; omega]
        simp only [Bool.false_eq_true, if_false, if_neg (show ¬ w.num < 0 by omega)]]
      exact pyDisplay_posfloat_fixed _ _ (Int.natAbs_pos.mpr (by omega)) w.den_pos

/-- Display round-trip inside the exact-rational model: a result string
re-evaluates to itself.  This is a fact about the embedding only — its float
values are unbounded exact rationals, whereas CPython floats are IEEE-754
doubles that overflow to `inf` (whose display `"inf"` does not re-evaluate),
so this theorem does not transfer to the program. -/
theorem display_roundtrip_exact (s r : String)
    (h : pyEvalDisplay s = .ok r) : pyEvalDisplay r = .ok r := by
  rw [pyEvalDisplay] at h
  cases hv : pyEvalValue s with
  | error e =>
    rw [hv] at h
    simp at h
  | ok v =>
    rw [hv] at h
    simp only [Except.ok.injEq] at h
    rw [← h]
    exact pyDisplay_fixed v

/-! ## Refinement: structural helper lemmas -/

theorem NoAdj_tail {a : Tok} {ts : List Tok} (h : NoAdj (a :: ts)) : NoAdj ts := by
  cases ts with
  | nil => trivial
  | cons b ts2 => exact h.2

theorem NoAdj_cons {a : Tok} {ts : List Tok} (h : NoAdj ts)
    (hp : ∀ b, ts.head? = some b → adjOK a b) : NoAdj (a :: ts) := by
  cases ts with
  | nil => trivial
  | cons b ts2 => exact ⟨hp b rfl, h⟩

theorem NoDS_tail {a : Tok} {ts : List Tok} (h : NoDS (a :: ts)) : NoDS ts :=
  fun t ht => h t (List.mem_cons_of_mem a ht)

/-- The spec tokenizer rejects a leading `e`. -/
theorem specTokAux_e (f : Nat) (r : List Char) :
    specTokAux f ('e' :: r) = .error .lexError := by
  cases f with
  | zero => rfl
  | succ f => rfl

/-- Character tokens are single-character operators, never `**` or `//`. -/
theorem charTok_not_ds {c : Char} {t : Tok} (h : charTok c = some t) :
    t ≠ .dstar ∧ t ≠ .dslash := by
  unfold charTok at h
  repeat' split at h
  all_goals
    first
      | exact Option.noConfusion h
      | (injection h with h2
         subst h2
         exact ⟨(fun hc => nomatch hc), (fun hc => nomatch hc)⟩)

/-- The spec tokenizer never emits Python's two-character operator tokens. -/
theorem specTok_NoDS : ∀ (f : Nat) (cs : List Char) (ts : List Tok),
    specTokAux f cs = .ok ts → NoDS ts := by
  intro f
  induction f with
  | zero => intro cs ts h; exact Except.noConfusion h
  | succ f ih =>
    intro cs ts h
    cases cs with
    | nil =>
      rw [specTokAux] at h
      injection h with h2
      subst h2
      intro t ht
      exact absurd ht (List.not_mem_nil t)
    | cons c cs2 =>
      rw [specTokAux] at h
      by_cases hsp : (c == ' ') = true
      · rw [if_pos hsp] at h
        exact ih cs2 ts h
      · rw [if_neg hsp] at h
        by_cases hdig : (isDig c || c == '.') = true
        · rw [if_pos hdig] at h
          split at h
          rename_i ip hasDot fp rest heq
          by_cases hemp : (ip.isEmpty && fp.isEmpty) = true
          · rw [if_pos hemp] at h
            exact Except.noConfusion h
          · rw [if_neg hemp] at h
            cases hrec : specTokAux f rest with
            | error e =>
              rw [hrec] at h
              exact Except.noConfusion h
            | ok ts2 =>
              simp only [hrec] at h
              have hts : ∃ tk : Tok, ts = tk :: ts2 ∧
                  tk ≠ .dstar ∧ tk ≠ .dslash := by
                by_cases hdot : hasDot = true
                · rw [if_pos hdot] at h
                  injection h with h2
                  exact ⟨_, h2.symm, by simp, by simp⟩
                · rw [if_neg hdot] at h
                  injection h with h2
                  exact ⟨_, h2.symm, by simp, by simp⟩
              obtain ⟨tk, rfl, htk⟩ := hts
              intro t ht
              rcases List.mem_cons.mp ht with rfl | ht2
              · exact htk
              · exact ih _ _ hrec t ht2
        · rw [if_neg hdig] at h
          cases hct : charTok c with
          | none =>
            rw [hct] at h
            exact Except.noConfusion h
          | some tk =>
            rw [hct] at h
            cases hrec : specTokAux f cs2 with
            | error e =>
              rw [hrec] at h
              exact Except.noConfusion h
            | ok ts2 =>
              simp only [hrec] at h
              injection h with h2
              subst h2
              intro t ht
              rcases List.mem_cons.mp ht with rfl | ht2
              · exact charTok_not_ds hct
              · exact ih _ _ hrec t ht2

theorem sUnary_head {f : Nat} {ts : List Tok} {p : SExpr × List Tok}
    (h : sUnary f ts = some p) :
    ts.head? ≠ some .star ∧ ts.head? ≠ some .slash := by
  cases f with
  | zero => exact Option.noConfusion h
  | succ f =>
    cases ts with
    | nil => exact ⟨by simp, by simp⟩
    | cons t r =>
      refine ⟨fun hc => ?_, fun hc => ?_⟩
      · injection hc with hc2
        subst hc2
        have hp : sPrimary f (Tok.star :: r) = none := by cases f <;> rfl
        have he : sUnary (f + 1) (Tok.star :: r) = sPrimary f (Tok.star :: r) := rfl
        rw [he, hp] at h
        exact Option.noConfusion h
      · injection hc with hc2
        subst hc2
        have hp : sPrimary f (Tok.slash :: r) = none := by cases f <;> rfl
        have he : sUnary (f + 1) (Tok.slash :: r) = sPrimary f (Tok.slash :: r) := rfl
        rw [he, hp] at h
        exact Option.noConfusion h

theorem adjOK_of_left {a b : Tok} (h1 : a ≠ .star) (h2 : a ≠ .slash) : adjOK a b :=
  ⟨(fun hp => h1 hp.1), (fun hp => h2 hp.1)⟩

theorem adjOK_star {b : Tok} (h : b ≠ .star) : adjOK .star b :=
  ⟨(fun hp => h hp.2), (fun hp => nomatch hp.1)⟩

theorem adjOK_slash {b : Tok} (h : b ≠ .slash) : adjOK .slash b :=
  ⟨(fun hp => nomatch hp.1), (fun hp => h hp.2)⟩

/-- A successful spec parse never leaves an adjacent `* *` or `/ /` pair in
the consumed part: if the remainder is merge-free, so was the whole input. -/
theorem specParse_NoAdj : ∀ f : Nat,
    (∀ ts e rest, sExpr f ts = some (e, rest) → NoAdj rest → NoAdj ts) ∧
    (∀ acc ts e rest, sExprChain f acc ts = some (e, rest) → NoAdj rest → NoAdj ts) ∧
    (∀ ts e rest, sTerm f ts = some (e, rest) → NoAdj rest → NoAdj ts) ∧
    (∀ acc ts e rest, sTermChain f acc ts = some (e, rest) → NoAdj rest → NoAdj ts) ∧
    (∀ ts e rest, sUnary f ts = some (e, rest) → NoAdj rest → NoAdj ts) ∧
    (∀ ts e rest, sPrimary f ts = some (e, rest) → NoAdj rest → NoAdj ts) := by
  intro f
  induction f with
  | zero =>
    have hchainE : ∀ acc ts e rest, sExprChain 0 acc ts = some (e, rest) →
        NoAdj rest → NoAdj ts := by
      intro acc ts e rest h hr
      match ts with
      | [] =>
        injection h with h2
        injection h2 with h3 h4
        rw [← h4] at hr
        exact hr
      | .plus :: r => exact Option.noConfusion h
      | .minus :: r => exact Option.noConfusion h
      | .int n :: r | .float v :: r | .star :: r | .slash :: r | .dstar :: r
      | .dslash :: r | .lpar :: r | .rpar :: r =>
        injection h with h2
        injection h2 with h3 h4
        rw [← h4] at hr
        exact hr
    have hchainT : ∀ acc ts e rest, sTermChain 0 acc ts = some (e, rest) →
        NoAdj rest → NoAdj ts := by
      intro acc ts e rest h hr
      match ts with
      | [] =>
        injection h with h2
        injection h2 with h3 h4
        rw [← h4] at hr
        exact hr
      | .star :: r => exact Option.noConfusion h
      | .slash :: r => exact Option.noConfusion h
      | .int n :: r | .float v :: r | .plus :: r | .minus :: r | .dstar :: r
      | .dslash :: r | .lpar :: r | .rpar :: r =>
        injection h with h2
        injection h2 with h3 h4
        rw [← h4] at hr
        exact hr
    exact ⟨fun ts e rest h => absurd h (by simp [sExpr]),
      hchainE,
      fun ts e rest h => absurd h (by simp [sTerm]),
      hchainT,
      fun ts e rest h => absurd h (by simp [sUnary]),
      fun ts e rest h => absurd h (by simp [sPrimary])⟩
  | succ f ih =>
    obtain ⟨ihE, ihEC, ihT, ihTC, ihU, ihP⟩ := ih
    have hE : ∀ ts e rest, sExpr (f + 1) ts = some (e, rest) →
        NoAdj rest → NoAdj ts := by
      intro ts e rest h hr
      rw [sExpr] at h
      cases hst : sTerm f ts with
      | none => rw [hst] at h; exact Option.noConfusion h
      | some p =>
        obtain ⟨t, r⟩ := p
        rw [hst] at h
        exact ihT ts t r hst (ihEC t r e rest h hr)
    have hT : ∀ ts e rest, sTerm (f + 1) ts = some (e, rest) →
        NoAdj rest → NoAdj ts := by
      intro ts e rest h hr
      rw [sTerm] at h
      cases hst : sUnary f ts with
      | none => rw [hst] at h; exact Option.noConfusion h
      | some p =>
        obtain ⟨t, r⟩ := p
        rw [hst] at h
        exact ihU ts t r hst (ihTC t r e rest h hr)
    have hEC : ∀ acc ts e rest, sExprChain (f + 1) acc ts = some (e, rest) →
        NoAdj rest → NoAdj ts := by
      intro acc ts e rest h hr
      match ts with
      | [] =>
        injection h with h2
        injection h2 with h3 h4
        rw [← h4] at hr
        exact hr
      | .plus :: r =>
        have he : sExprChain (f + 1) acc (.plus :: r) =
            (match sTerm f r with
             | none => none
             | some (t, r1) => sExprChain f (.add acc t) r1) := rfl
        rw [he] at h
        cases hst : sTerm f r with
        | none => rw [hst] at h; exact Option.noConfusion h
        | some p =>
          obtain ⟨t, r1⟩ := p
          rw [hst] at h
          have hradj : NoAdj r := ihT r t r1 hst (ihEC _ r1 e rest h hr)
          exact NoAdj_cons hradj
            (fun b hb => adjOK_of_left (by simp) (by simp))
      | .minus :: r =>
        have he : sExprChain (f + 1) acc (.minus :: r) =
            (match sTerm f r with
             | none => none
             | some (t, r1) => sExprChain f (.sub acc t) r1) := rfl
        rw [he] at h
        cases hst : sTerm f r with
        | none => rw [hst] at h; exact Option.noConfusion h
        | some p =>
          obtain ⟨t, r1⟩ := p
          rw [hst] at h
          have hradj : NoAdj r := ihT r t r1 hst (ihEC _ r1 e rest h hr)
          exact NoAdj_cons hradj
            (fun b hb => adjOK_of_left (by simp) (by simp))
      | .int n :: r | .float v :: r | .star :: r | .slash :: r | .dstar :: r
      | .dslash :: r | .lpar :: r | .rpar :: r =>
        injection h with h2
        injection h2 with h3 h4
        rw [← h4] at hr
        exact hr
    have hTC : ∀ acc ts e rest, sTermChain (f + 1) acc ts = some (e, rest) →
        NoAdj rest → NoAdj ts := by
      intro acc ts e rest h hr
      match ts with
      | [] =>
        injection h with h2
        injection h2 with h3 h4
        rw [← h4] at hr
        exact hr
      | .star :: r =>
        have he : sTermChain (f + 1) acc (.star :: r) =
            (match sUnary f r with
             | none => none
             | some (t, r1) => sTermChain f (.mul acc t) r1) := rfl
        rw [he] at h
        cases hst : sUnary f r with
        | none => rw [hst] at h; exact Option.noConfusion h
        | some p =>
          obtain ⟨t, r1⟩ := p
          rw [hst] at h
          have hradj : NoAdj r := ihU r t r1 hst (ihTC _ r1 e rest h hr)
          refine NoAdj_cons hradj (fun b hb => adjOK_star ?_)
          intro hcon
          subst hcon
          exact (sUnary_head hst).1 hb
      | .slash :: r =>
        have he : sTermChain (f + 1) acc (.slash :: r) =
            (match sUnary f r with
             | none => none
             | some (t, r1) => sTermChain f (.div acc t) r1) := rfl
        rw [he] at h
        cases hst : sUnary f r with
        | none => rw [hst] at h; exact Option.noConfusion h
        | some p =>
          obtain ⟨t, r1⟩ := p
          rw [hst] at h
          have hradj : NoAdj r := ihU r t r1 hst (ihTC _ r1 e rest h hr)
          refine NoAdj_cons hradj (fun b hb => adjOK_slash ?_)
          intro hcon
          subst hcon
          exact (sUnary_head hst).2 hb
      | .int n :: r | .float v :: r | .plus :: r | .minus :: r | .dstar :: r
      | .dslash :: r | .lpar :: r | .rpar :: r =>
        injection h with h2
        injection h2 with h3 h4
        rw [← h4] at hr
        exact hr
    have hU : ∀ ts e rest, sUnary (f + 1) ts = some (e, rest) →
        NoAdj rest → NoAdj ts := by
      intro ts e rest h hr
      match ts with
      | [] =>
        have hp : sPrimary f ([] : List Tok) = none := by cases f <;> rfl
        have he : sUnary (f + 1) ([] : List Tok) = sPrimary f [] := rfl
        rw [he, hp] at h
        exact Option.noConfusion h
      | .minus :: r =>
        have he : sUnary (f + 1) (.minus :: r) =
            (match sUnary f r with
             | none => none
             | some (e0, r1) => some (.neg e0, r1)) := rfl
        rw [he] at h
        cases hst : sUnary f r with
        | none => rw [hst] at h; exact Option.noConfusion h
        | some p =>
          obtain ⟨e0, r1⟩ := p
          rw [hst] at h
          injection h with h2
          injection h2 with h3 h4
          rw [← h4] at hr
          have hradj : NoAdj r := ihU r e0 r1 hst hr
          exact NoAdj_cons hradj
            (fun b hb => adjOK_of_left (by simp) (by simp))
      | .int n :: r | .float v :: r | .plus :: r | .star :: r | .slash :: r
      | .dstar :: r | .dslash :: r | .lpar :: r | .rpar :: r =>
        exact ihP _ e rest h hr
    have hP : ∀ ts e rest, sPrimary (f + 1) ts = some (e, rest) →
        NoAdj rest → NoAdj ts := by
      intro ts e rest h hr
      match ts with
      | .int n :: r =>
        injection h with h2
        injection h2 with h3 h4
        rw [← h4] at hr
        exact NoAdj_cons hr (fun b hb => adjOK_of_left (by simp) (by simp))
      | .float v :: r =>
        injection h with h2
        injection h2 with h3 h4
        rw [← h4] at hr
        exact NoAdj_cons hr (fun b hb => adjOK_of_left (by simp) (by simp))
      | .lpar :: r =>
        have he : sPrimary (f + 1) (.lpar :: r) =
            (match sExpr f r with
             | none => none
             | some (e0, r1) =>
               match r1 with
               | .rpar :: r2 => some (e0, r2)
               | _ => none) := rfl
        rw [he] at h
        cases hse : sExpr f r with
        | none => rw [hse] at h; exact Option.noConfusion h
        | some p =>
          obtain ⟨e0, r1⟩ := p
          rw [hse] at h
          match r1, h with
          | .rpar :: r2, h =>
            injection h with h2
            injection h2 with h3 h4
            rw [← h4] at hr
            have h1adj : NoAdj (Tok.rpar :: r2) :=
              NoAdj_cons hr (fun b hb => adjOK_of_left (by simp) (by simp))
            have hradj : NoAdj r := ihE r e0 (.rpar :: r2) hse h1adj
            exact NoAdj_cons hradj
              (fun b hb => adjOK_of_left (by simp) (by simp))
      | [] => exact Option.noConfusion h
      | .plus :: r => exact Option.noConfusion h
      | .minus :: r => exact Option.noConfusion h
      | .star :: r => exact Option.noConfusion h
      | .slash :: r => exact Option.noConfusion h
      | .dstar :: r => exact Option.noConfusion h
      | .dslash :: r => exact Option.noConfusion h
      | .rpar :: r => exact Option.noConfusion h
    exact ⟨hE, hEC, hT, hTC, hU, hP⟩

/-- One-step unfolding of the Python tokenizer on a cons cell. -/
theorem pyTokAux_cons (f : Nat) (c : Char) (cs : List Char) :
    pyTokAux (f + 1) (c :: cs) =
      (if c == ' ' then pyTokAux f cs
       else if isDig c || c == '.' then
         match lexNum (c :: cs) with
         | (ip, hasDot, fp, rest) =>
           if ip.isEmpty && fp.isEmpty then .error .syntaxError
           else
             match rest with
             | 'e' :: r2 =>
               let sp : Int × List Char :=
                 match r2 with
                 | '+' :: r3 => (1, r3)
                 | '-' :: r3 => (-1, r3)
                 | _ => (1, r2)
               let ep := sp.2.span isDig
               if ep.1.isEmpty then .error .syntaxError
               else
                 match pyTokAux f ep.2 with
                 | .error e => .error e
                 | .ok ts =>
                   .ok (.float (scaleFloat (floatOfParts ip fp)
                         (sp.1 * (natOfChars ep.1 : Int))) :: ts)
             | _ =>
               match pyTokAux f rest with
               | .error e => .error e
               | .ok ts =>
                 if hasDot then .ok (.float (floatOfParts ip fp) :: ts)
                 else if validIntLit ip then .ok (.int (natOfChars ip) :: ts)
                 else .error .syntaxError
       else if c == '*' then
         match cs with
         | '*' :: cs2 =>
           (match pyTokAux f cs2 with
            | .error e => .error e
            | .ok ts => .ok (.dstar :: ts))
         | _ =>
           (match pyTokAux f cs with
            | .error e => .error e
            | .ok ts => .ok (.star :: ts))
       else if c == '/' then
         match cs with
         | '/' :: cs2 =>
           (match pyTokAux f cs2 with
            | .error e => .error e
            | .ok ts => .ok (.dslash :: ts))
         | _ =>
           (match pyTokAux f cs with
            | .error e => .error e
            | .ok ts => .ok (.slash :: ts))
       else
         match charTok c with
         | some t =>
           match pyTokAux f cs with
           | .error e => .error e
           | .ok ts => .ok (t :: ts)
         | none => .error .syntaxError) := rfl

/-- Tokenizer bridge: on an input the spec tokenizer accepts, whose number
lexemes obey Python's leading-zero rule and whose token stream is merge-free,
Python's tokenizer produces exactly the spec's tokens. -/
theorem tokBridge : ∀ (f : Nat) (cs : List Char) (ts : List Tok),
    specTokAux f cs = .ok ts → noLZAux f cs = true → NoAdj ts →
    pyTokAux f cs = .ok ts := by
  intro f
  induction f with
  | zero => intro cs ts h _ _; exact Except.noConfusion h
  | succ f ih =>
    intro cs ts h hlz hadj
    cases cs with
    | nil =>
      rw [specTokAux] at h
      injection h with h2
      subst h2
      rfl
    | cons c cs2 =>
      by_cases hsp : (c == ' ') = true
      · have hceq := eq_of_beq hsp
        subst hceq
        rw [show specTokAux (f + 1) (' ' :: cs2) = specTokAux f cs2 from rfl] at h
        rw [show noLZAux (f + 1) (' ' :: cs2) = noLZAux f cs2 from rfl] at hlz
        rw [show pyTokAux (f + 1) (' ' :: cs2) = pyTokAux f cs2 from rfl]
        exact ih cs2 ts h hlz hadj
      · by_cases hdig : (isDig c || c == '.') = true
        · rw [specTokAux, if_neg hsp, if_pos hdig] at h
          rw [noLZAux, if_pos hdig] at hlz
          rw [pyTokAux_cons, if_neg hsp, if_pos hdig]
          split at h
          rename_i ip hasDot fp rest heq
          simp only [heq] at hlz ⊢
          by_cases hemp : (ip.isEmpty && fp.isEmpty) = true
          · rw [if_pos hemp] at h
            exact Except.noConfusion h
          · rw [if_neg hemp] at h
            rw [if_neg hemp]
            rw [Bool.and_eq_true] at hlz
            obtain ⟨hlz1, hlz2⟩ := hlz
            cases hrec : specTokAux f rest with
            | error e =>
              rw [hrec] at h
              exact Except.noConfusion h
            | ok ts2 =>
              simp only [hrec] at h
              split
              · exfalso
                rw [specTokAux_e] at hrec
                exact Except.noConfusion hrec
              · by_cases hdot : hasDot = true
                · rw [if_pos hdot] at h
                  injection h with h2
                  subst h2
                  have hpy := ih rest ts2 hrec hlz2 (NoAdj_tail hadj)
                  simp only [hpy, if_pos hdot]
                · rw [if_neg hdot] at h
                  injection h with h2
                  subst h2
                  have hvl : validIntLit ip = true := by
                    rw [Bool.or_eq_true] at hlz1
                    rcases hlz1 with h1 | h1
                    · exact absurd h1 hdot
                    · exact h1
                  have hpy := ih rest ts2 hrec hlz2 (NoAdj_tail hadj)
                  simp only [hpy, if_neg hdot, if_pos hvl]
        · rw [specTokAux, if_neg hsp, if_neg hdig] at h
          have hlz2 : noLZAux f cs2 = true := by
            rw [noLZAux, if_neg hdig] at hlz
            exact hlz
          cases hct : charTok c with
          | none =>
            rw [hct] at h
            exact Except.noConfusion h
          | some tk =>
            simp only [hct] at h
            cases hrec : specTokAux f cs2 with
            | error e =>
              simp only [hrec] at h
              exact Except.noConfusion h
            | ok ts2 =>
              simp only [hrec] at h
              injection h with h2
              subst h2
              by_cases hstar : (c == '*') = true
              · have hceq := eq_of_beq hstar
                subst hceq
                have htk : tk = Tok.star := by
                  rw [show charTok '*' = some Tok.star from rfl] at hct
                  injection hct with h3
                  exact h3.symm
                subst htk
                rw [pyTokAux_cons, if_neg hsp, if_neg hdig, if_pos hstar]
                split
                · rename_i cs3
                  exfalso
                  cases f with
                  | zero => exact Except.noConfusion hrec
                  | succ g =>
                    rw [show specTokAux (g + 1) ('*' :: cs3) =
                        (match specTokAux g cs3 with
                         | .error e => .error e
                         | .ok ts => .ok (.star :: ts)) from rfl] at hrec
                    cases hrec2 : specTokAux g cs3 with
                    | error e =>
                      rw [hrec2] at hrec
                      exact Except.noConfusion hrec
                    | ok ts3 =>
                      simp only [hrec2] at hrec
                      injection hrec with h5
                      rw [← h5] at hadj
                      exact hadj.1.1 ⟨rfl, rfl⟩
                · have hpy := ih cs2 ts2 hrec hlz2 (NoAdj_tail hadj)
                  simp only [hpy]
              · by_cases hslash : (c == '/') = true
                · have hceq := eq_of_beq hslash
                  subst hceq
                  have htk : tk = Tok.slash := by
                    rw [show charTok '/' = some Tok.slash from rfl] at hct
                    injection hct with h3
                    exact h3.symm
                  subst htk
                  rw [pyTokAux_cons, if_neg hsp, if_neg hdig, if_neg hstar,
                    if_pos hslash]
                  split
                  · rename_i cs3
                    exfalso
                    cases f with
                    | zero => exact Except.noConfusion hrec
                    | succ g =>
                      rw [show specTokAux (g + 1) ('/' :: cs3) =
                          (match specTokAux g cs3 with
                           | .error e => .error e
                           | .ok ts => .ok (.slash :: ts)) from rfl] at hrec
                      cases hrec2 : specTokAux g cs3 with
                      | error e =>
                        rw [hrec2] at hrec
                        exact Except.noConfusion hrec
                      | ok ts3 =>
                        simp only [hrec2] at hrec
                        injection hrec with h5
                        rw [← h5] at hadj
                        exact hadj.1.2 ⟨rfl, rfl⟩
                  · have hpy := ih cs2 ts2 hrec hlz2 (NoAdj_tail hadj)
                    simp only [hpy]
                · have hpy := ih cs2 ts2 hrec hlz2 (NoAdj_tail hadj)
                  rw [pyTokAux_cons, if_neg hsp, if_neg hdig, if_neg hstar,
                    if_neg hslash]
                  simp only [hct, hpy]

theorem NoDS_nil : NoDS [] := fun t ht => absurd ht (List.not_mem_nil t)

theorem sTermChain_head_lpar {f : Nat} {acc e : SExpr} {ts rest : List Tok}
    (h : sTermChain f acc ts = some (e, rest))
    (hr : rest.head? ≠ some Tok.lpar) : ts.head? ≠ some Tok.lpar := by
  intro hc
  cases ts with
  | nil => exact Option.noConfusion hc
  | cons t r =>
    injection hc with hc2
    subst hc2
    rw [show sTermChain f acc (Tok.lpar :: r) = some (acc, Tok.lpar :: r)
      from by cases f <;> rfl] at h
    injection h with h2
    injection h2 with h3 h4
    rw [← h4] at hr
    exact hr rfl

theorem sExprChain_head_lpar {f : Nat} {acc e : SExpr} {ts rest : List Tok}
    (h : sExprChain f acc ts = some (e, rest))
    (hr : rest.head? ≠ some Tok.lpar) : ts.head? ≠ some Tok.lpar := by
  intro hc
  cases ts with
  | nil => exact Option.noConfusion hc
  | cons t r =>
    injection hc with hc2
    subst hc2
    rw [show sExprChain f acc (Tok.lpar :: r) = some (acc, Tok.lpar :: r)
      from by cases f <;> rfl] at h
    injection h with h2
    injection h2 with h3 h4
    rw [← h4] at hr
    exact hr rfl

theorem pyTrail_no_lpar {f : Nat} {a : PExpr} {r : List Tok}
    (h : r.head? ≠ some Tok.lpar) : pyTrail f a r = some (a, r) := by
  cases r with
  | nil => cases f <;> rfl
  | cons t r2 =>
    cases t <;> first
      | exact absurd rfl h
      | (cases f <;> rfl)

/-- Parser bridge: on a merge-free token list from the spec tokenizer, each
Python parser level succeeds exactly where the spec level does, consumes the
same tokens, and builds a structurally agreeing tree. -/
theorem parseBridge : ∀ f : Nat,
    (∀ ts e rest, NoDS ts → sExpr f ts = some (e, rest) →
      rest.head? ≠ some Tok.lpar →
      NoDS rest ∧ ∃ e2, pyExpr f ts = some (e2, rest) ∧ Agree e e2) ∧
    (∀ acc acc2 ts e rest, NoDS ts → Agree acc acc2 →
      sExprChain f acc ts = some (e, rest) → rest.head? ≠ some Tok.lpar →
      NoDS rest ∧ ∃ e2, pyExprChain f acc2 ts = some (e2, rest) ∧ Agree e e2) ∧
    (∀ ts e rest, NoDS ts → sTerm f ts = some (e, rest) →
      rest.head? ≠ some Tok.lpar →
      NoDS rest ∧ ∃ e2, pyTerm f ts = some (e2, rest) ∧ Agree e e2) ∧
    (∀ acc acc2 ts e rest, NoDS ts → Agree acc acc2 →
      sTermChain f acc ts = some (e, rest) → rest.head? ≠ some Tok.lpar →
      NoDS rest ∧ ∃ e2, pyTermChain f acc2 ts = some (e2, rest) ∧ Agree e e2) ∧
    (∀ ts e rest, NoDS ts → sUnary f ts = some (e, rest) →
      rest.head? ≠ some Tok.lpar →
      NoDS rest ∧ ∃ e2, pyFactor f ts = some (e2, rest) ∧ Agree e e2) ∧
    (∀ ts e rest, NoDS ts → sPrimary f ts = some (e, rest) →
      rest.head? ≠ some Tok.lpar →
      NoDS rest ∧ ∃ e2, pyPower f ts = some (e2, rest) ∧ Agree e e2) := by
  intro f
  induction f with
  | zero =>
    refine ⟨?_, ?_, ?_, ?_, ?_, ?_⟩
    · intro ts e rest _ h _
      exact Option.noConfusion h
    · intro acc acc2 ts e rest hds hag h hrest
      match ts with
      | [] =>
        injection h with h2
        injection h2 with h3 h4
        subst h3
        subst h4
        exact ⟨NoDS_nil, acc2, rfl, hag⟩
      | .plus :: r => exact Option.noConfusion h
      | .minus :: r => exact Option.noConfusion h
      | .int n :: r | .float v :: r | .star :: r | .slash :: r | .dstar :: r
      | .dslash :: r | .lpar :: r | .rpar :: r =>
        injection h with h2
        injection h2 with h3 h4
        subst h3
        subst h4
        exact ⟨hds, acc2, rfl, hag⟩
    · intro ts e rest _ h _
      exact Option.noConfusion h
    · intro acc acc2 ts e rest hds hag h hrest
      match ts with
      | [] =>
        injection h with h2
        injection h2 with h3 h4
        subst h3
        subst h4
        exact ⟨NoDS_nil, acc2, rfl, hag⟩
      | .star :: r => exact Option.noConfusion h
      | .slash :: r => exact Option.noConfusion h
      | .dslash :: r =>
        exact absurd rfl (hds .dslash (List.mem_cons_self _ _)).2
      | .int n :: r | .float v :: r | .plus :: r | .minus :: r | .dstar :: r
      | .lpar :: r | .rpar :: r =>
        injection h with h2
        injection h2 with h3 h4
        subst h3
        subst h4
        exact ⟨hds, acc2, rfl, hag⟩
    · intro ts e rest _ h _
      exact Option.noConfusion h
    · intro ts e rest _ h _
      exact Option.noConfusion h
  | succ f ih =>
    obtain ⟨ihE, ihEC, ihT, ihTC, ihU, ihP⟩ := ih
    have hU : ∀ ts e rest, NoDS ts → sUnary (f + 1) ts = some (e, rest) →
        rest.head? ≠ some Tok.lpar →
        NoDS rest ∧ ∃ e2, pyFactor (f + 1) ts = some (e2, rest) ∧ Agree e e2 := by
      intro ts e rest hds h hrest
      match ts with
      | [] =>
        have hnone : sPrimary f ([] : List Tok) = none := by cases f <;> rfl
        rw [show sUnary (f + 1) ([] : List Tok) = sPrimary f [] from rfl,
          hnone] at h
        exact Option.noConfusion h
      | .minus :: r =>
        rw [show sUnary (f + 1) (Tok.minus :: r) =
            (match sUnary f r with
             | none => none
             | some (e0, r1) => some (.neg e0, r1)) from rfl] at h
        cases hsu : sUnary f r with
        | none =>
          rw [hsu] at h
          exact Option.noConfusion h
        | some p =>
          obtain ⟨e0, r1⟩ := p
          simp only [hsu] at h
          injection h with h2
          injection h2 with h3 h4
          subst h3
          subst h4
          obtain ⟨hnr, e02, hpf, hag⟩ := ihU r e0 r1 (NoDS_tail hds) hsu hrest
          refine ⟨hnr, .neg e02, ?_, Agree.neg hag⟩
          rw [show pyFactor (f + 1) (Tok.minus :: r) =
              (match pyFactor f r with
               | none => none
               | some (e2, r1) => some (.neg e2, r1)) from rfl]
          simp only [hpf]
      | .int n :: r =>
        obtain ⟨hnr, e2, hpp, hag⟩ := ihP (.int n :: r) e rest hds h hrest
        refine ⟨hnr, e2, ?_, hag⟩
        rw [show pyFactor (f + 1) (Tok.int n :: r) =
          pyPower f (Tok.int n :: r) from rfl]
        exact hpp
      | .float v :: r =>
        obtain ⟨hnr, e2, hpp, hag⟩ := ihP (.float v :: r) e rest hds h hrest
        refine ⟨hnr, e2, ?_, hag⟩
        rw [show pyFactor (f + 1) (Tok.float v :: r) =
          pyPower f (Tok.float v :: r) from rfl]
        exact hpp
      | .lpar :: r =>
        obtain ⟨hnr, e2, hpp, hag⟩ := ihP (.lpar :: r) e rest hds h hrest
        refine ⟨hnr, e2, ?_, hag⟩
        rw [show pyFactor (f + 1) (Tok.lpar :: r) =
          pyPower f (Tok.lpar :: r) from rfl]
        exact hpp
      | .plus :: r =>
        have hnone : sPrimary f (Tok.plus :: r) = none := by cases f <;> rfl
        rw [show sUnary (f + 1) (Tok.plus :: r) = sPrimary f (Tok.plus :: r)
          from rfl, hnone] at h
        exact Option.noConfusion h
      | .star :: r =>
        have hnone : sPrimary f (Tok.star :: r) = none := by cases f <;> rfl
        rw [show sUnary (f + 1) (Tok.star :: r) = sPrimary f (Tok.star :: r)
          from rfl, hnone] at h
        exact Option.noConfusion h
      | .slash :: r =>
        have hnone : sPrimary f (Tok.slash :: r) = none := by cases f <;> rfl
        rw [show sUnary (f + 1) (Tok.slash :: r) = sPrimary f (Tok.slash :: r)
          from rfl, hnone] at h
        exact Option.noConfusion h
      | .dstar :: r =>
        have hnone : sPrimary f (Tok.dstar :: r) = none := by cases f <;> rfl
        rw [show sUnary (f + 1) (Tok.dstar :: r) = sPrimary f (Tok.dstar :: r)
          from rfl, hnone] at h
        exact Option.noConfusion h
      | .dslash :: r =>
        have hnone : sPrimary f (Tok.dslash :: r) = none := by cases f <;> rfl
        rw [show sUnary (f + 1) (Tok.dslash :: r) = sPrimary f (Tok.dslash :: r)
          from rfl, hnone] at h
        exact Option.noConfusion h
      | .rpar :: r =>
        have hnone : sPrimary f (Tok.rpar :: r) = none := by cases f <;> rfl
        rw [show sUnary (f + 1) (Tok.rpar :: r) = sPrimary f (Tok.rpar :: r)
          from rfl, hnone] at h
        exact Option.noConfusion h
    have hP : ∀ ts e rest, NoDS ts → sPrimary (f + 1) ts = some (e, rest) →
        rest.head? ≠ some Tok.lpar →
        NoDS rest ∧ ∃ e2, pyPower (f + 1) ts = some (e2, rest) ∧ Agree e e2 := by
      intro ts e rest hds h hrest
      match ts with
      | .int n :: r =>
        injection h with h2
        injection h2 with h3 h4
        subst h3
        subst h4
        refine ⟨NoDS_tail hds, .intLit n, ?_, Agree.int n⟩
        rw [show pyPower (f + 1) (Tok.int n :: r) =
            (match pyTrail f (.intLit n) r with
             | none => none
             | some (e1, r1) =>
               match r1 with
               | .dstar :: r2 =>
                 (match pyFactor f r2 with
                  | none => none
                  | some (x, r3) => some (.pow e1 x, r3))
               | _ => some (e1, r1)) from rfl]
        simp only [pyTrail_no_lpar hrest]
        split
        · rename_i r2 heq2
          exact absurd rfl (hds .dstar (by simp)).1
        · rfl
      | .float v :: r =>
        injection h with h2
        injection h2 with h3 h4
        subst h3
        subst h4
        refine ⟨NoDS_tail hds, .floatLit v, ?_, Agree.float v⟩
        rw [show pyPower (f + 1) (Tok.float v :: r) =
            (match pyTrail f (.floatLit v) r with
             | none => none
             | some (e1, r1) =>
               match r1 with
               | .dstar :: r2 =>
                 (match pyFactor f r2 with
                  | none => none
                  | some (x, r3) => some (.pow e1 x, r3))
               | _ => some (e1, r1)) from rfl]
        simp only [pyTrail_no_lpar hrest]
        split
        · rename_i r2 heq2
          exact absurd rfl (hds .dstar (by simp)).1
        · rfl
      | .lpar :: r =>
        rw [show sPrimary (f + 1) (Tok.lpar :: r) =
            (match sExpr f r with
             | none => none
             | some (e0, r1) =>
               match r1 with
               | .rpar :: r2 => some (e0, r2)
               | _ => none) from rfl] at h
        cases hse : sExpr f r with
        | none =>
          rw [hse] at h
          exact Option.noConfusion h
        | some p =>
          obtain ⟨e0, r1⟩ := p
          simp only [hse] at h
          match r1, h, hse with
          | .rpar :: r2, h, hse =>
            injection h with h2
            injection h2 with h3 h4
            subst h3
            subst h4
            obtain ⟨hnr1, e02, hpe, hag⟩ :=
              ihE r e0 (.rpar :: r2) (NoDS_tail hds) hse (by simp)
            refine ⟨NoDS_tail hnr1, e02, ?_, hag⟩
            rw [show pyPower (f + 1) (Tok.lpar :: r) =
                (match
                   (match pyExpr f r with
                    | none => none
                    | some (e0, r1) =>
                      match r1 with
                      | .rpar :: r2 => some (e0, r2)
                      | _ => none) with
                 | none => none
                 | some (a, r0) =>
                   match pyTrail f a r0 with
                   | none => none
                   | some (e1, r1) =>
                     match r1 with
                     | .dstar :: r2 =>
                       (match pyFactor f r2 with
                        | none => none
                        | some (x, r3) => some (.pow e1 x, r3))
                     | _ => some (e1, r1)) from rfl]
            simp only [hpe]
            simp only [pyTrail_no_lpar hrest]
            split
            · rename_i r3 heq3
              exact absurd rfl ((NoDS_tail hnr1) .dstar (by simp)).1
            · rfl
      | [] => exact Option.noConfusion h
      | .plus :: r => exact Option.noConfusion h
      | .minus :: r => exact Option.noConfusion h
      | .star :: r => exact Option.noConfusion h
      | .slash :: r => exact Option.noConfusion h
      | .dstar :: r => exact Option.noConfusion h
      | .dslash :: r => exact Option.noConfusion h
      | .rpar :: r => exact Option.noConfusion h
    have hTC : ∀ acc acc2 ts e rest, NoDS ts → Agree acc acc2 →
        sTermChain (f + 1) acc ts = some (e, rest) →
        rest.head? ≠ some Tok.lpar →
        NoDS rest ∧ ∃ e2, pyTermChain (f + 1) acc2 ts = some (e2, rest) ∧
          Agree e e2 := by
      intro acc acc2 ts e rest hds hag h hrest
      match ts with
      | [] =>
        injection h with h2
        injection h2 with h3 h4
        subst h3
        subst h4
        exact ⟨NoDS_nil, acc2, rfl, hag⟩
      | .star :: r =>
        rw [show sTermChain (f + 1) acc (Tok.star :: r) =
            (match sUnary f r with
             | none => none
             | some (t, r1) => sTermChain f (.mul acc t) r1) from rfl] at h
        cases hsu : sUnary f r with
        | none =>
          rw [hsu] at h
          exact Option.noConfusion h
        | some p =>
          obtain ⟨t, r1⟩ := p
          simp only [hsu] at h
          have hr1l : r1.head? ≠ some Tok.lpar := sTermChain_head_lpar h hrest
          obtain ⟨hnr1, t2, hpf, hagT⟩ := ihU r t r1 (NoDS_tail hds) hsu hr1l
          obtain ⟨hnrest, e2, hptc, hagE⟩ :=
            ihTC (.mul acc t) (.mul acc2 t2) r1 e rest hnr1
              (Agree.mul hag hagT) h hrest
          refine ⟨hnrest, e2, ?_, hagE⟩
          rw [show pyTermChain (f + 1) acc2 (Tok.star :: r) =
              (match pyFactor f r with
               | none => none
               | some (t, r1) => pyTermChain f (.mul acc2 t) r1) from rfl]
          simp only [hpf]
          exact hptc
      | .slash :: r =>
        rw [show sTermChain (f + 1) acc (Tok.slash :: r) =
            (match sUnary f r with
             | none => none
             | some (t, r1) => sTermChain f (.div acc t) r1) from rfl] at h
        cases hsu : sUnary f r with
        | none =>
          rw [hsu] at h
          exact Option.noConfusion h
        | some p =>
          obtain ⟨t, r1⟩ := p
          simp only [hsu] at h
          have hr1l : r1.head? ≠ some Tok.lpar := sTermChain_head_lpar h hrest
          obtain ⟨hnr1, t2, hpf, hagT⟩ := ihU r t r1 (NoDS_tail hds) hsu hr1l
          obtain ⟨hnrest, e2, hptc, hagE⟩ :=
            ihTC (.div acc t) (.div acc2 t2) r1 e rest hnr1
              (Agree.div hag hagT) h hrest
          refine ⟨hnrest, e2, ?_, hagE⟩
          rw [show pyTermChain (f + 1) acc2 (Tok.slash :: r) =
              (match pyFactor f r with
               | none => none
               | some (t, r1) => pyTermChain f (.div acc2 t) r1) from rfl]
          simp only [hpf]
          exact hptc
      | .dslash :: r =>
        exact absurd rfl (hds .dslash (List.mem_cons_self _ _)).2
      | .int n :: r | .float v :: r | .plus :: r | .minus :: r | .dstar :: r
      | .lpar :: r | .rpar :: r =>
        injection h with h2
        injection h2 with h3 h4
        subst h3
        subst h4
        exact ⟨hds, acc2, rfl, hag⟩
    have hT : ∀ ts e rest, NoDS ts → sTerm (f + 1) ts = some (e, rest) →
        rest.head? ≠ some Tok.lpar →
        NoDS rest ∧ ∃ e2, pyTerm (f + 1) ts = some (e2, rest) ∧ Agree e e2 := by
      intro ts e rest hds h hrest
      rw [sTerm] at h
      cases hsu : sUnary f ts with
      | none =>
        rw [hsu] at h
        exact Option.noConfusion h
      | some p =>
        obtain ⟨t, r⟩ := p
        simp only [hsu] at h
        have hrl : r.head? ≠ some Tok.lpar := sTermChain_head_lpar h hrest
        obtain ⟨hnr, t2, hpf, hagT⟩ := ihU ts t r hds hsu hrl
        obtain ⟨hnrest, e2, hptc, hagE⟩ :=
          ihTC t t2 r e rest hnr hagT h hrest
        refine ⟨hnrest, e2, ?_, hagE⟩
        rw [pyTerm]
        simp only [hpf]
        exact hptc
    have hEC : ∀ acc acc2 ts e rest, NoDS ts → Agree acc acc2 →
        sExprChain (f + 1) acc ts = some (e, rest) →
        rest.head? ≠ some Tok.lpar →
        NoDS rest ∧ ∃ e2, pyExprChain (f + 1) acc2 ts = some (e2, rest) ∧
          Agree e e2 := by
      intro acc acc2 ts e rest hds hag h hrest
      match ts with
      | [] =>
        injection h with h2
        injection h2 with h3 h4
        subst h3
        subst h4
        exact ⟨NoDS_nil, acc2, rfl, hag⟩
      | .plus :: r =>
        rw [show sExprChain (f + 1) acc (Tok.plus :: r) =
            (match sTerm f r with
             | none => none
             | some (t, r1) => sExprChain f (.add acc t) r1) from rfl] at h
        cases hst : sTerm f r with
        | none =>
          rw [hst] at h
          exact Option.noConfusion h
        | some p =>
          obtain ⟨t, r1⟩ := p
          simp only [hst] at h
          have hr1l : r1.head? ≠ some Tok.lpar := sExprChain_head_lpar h hrest
          obtain ⟨hnr1, t2, hpt, hagT⟩ := ihT r t r1 (NoDS_tail hds) hst hr1l
          obtain ⟨hnrest, e2, hpc, hagE⟩ :=
            ihEC (.add acc t) (.add acc2 t2) r1 e rest hnr1
              (Agree.add hag hagT) h hrest
          refine ⟨hnrest, e2, ?_, hagE⟩
          rw [show pyExprChain (f + 1) acc2 (Tok.plus :: r) =
              (match pyTerm f r with
               | none => none
               | some (t, r1) => pyExprChain f (.add acc2 t) r1) from rfl]
          simp only [hpt]
          exact hpc
      | .minus :: r =>
        rw [show sExprChain (f + 1) acc (Tok.minus :: r) =
            (match sTerm f r with
             | none => none
             | some (t, r1) => sExprChain f (.sub acc t) r1) from rfl] at h
        cases hst : sTerm f r with
        | none =>
          rw [hst] at h
          exact Option.noConfusion h
        | some p =>
          obtain ⟨t, r1⟩ := p
          simp only [hst] at h
          have hr1l : r1.head? ≠ some Tok.lpar := sExprChain_head_lpar h hrest
          obtain ⟨hnr1, t2, hpt, hagT⟩ := ihT r t r1 (NoDS_tail hds) hst hr1l
          obtain ⟨hnrest, e2, hpc, hagE⟩ :=
            ihEC (.sub acc t) (.sub acc2 t2) r1 e rest hnr1
              (Agree.sub hag hagT) h hrest
          refine ⟨hnrest, e2, ?_, hagE⟩
          rw [show pyExprChain (f + 1) acc2 (Tok.minus :: r) =
              (match pyTerm f r with
               | none => none
               | some (t, r1) => pyExprChain f (.sub acc2 t) r1) from rfl]
          simp only [hpt]
          exact hpc
      | .int n :: r | .float v :: r | .star :: r | .slash :: r | .dstar :: r
      | .dslash :: r | .lpar :: r | .rpar :: r =>
        injection h with h2
        injection h2 with h3 h4
        subst h3
        subst h4
        exact ⟨hds, acc2, rfl, hag⟩
    have hE : ∀ ts e rest, NoDS ts → sExpr (f + 1) ts = some (e, rest) →
        rest.head? ≠ some Tok.lpar →
        NoDS rest ∧ ∃ e2, pyExpr (f + 1) ts = some (e2, rest) ∧ Agree e e2 := by
      intro ts e rest hds h hrest
      rw [sExpr] at h
      cases hst : sTerm f ts with
      | none =>
        rw [hst] at h
        exact Option.noConfusion h
      | some p =>
        obtain ⟨t, r⟩ := p
        simp only [hst] at h
        have hrl : r.head? ≠ some Tok.lpar := sExprChain_head_lpar h hrest
        obtain ⟨hnr, t2, hpt, hagT⟩ := ihT ts t r hds hst hrl
        obtain ⟨hnrest, e2, hpc, hagE⟩ := ihEC t t2 r e rest hnr hagT h hrest
        refine ⟨hnrest, e2, ?_, hagE⟩
        rw [pyExpr]
        simp only [hpt]
        exact hpc
    exact ⟨hE, hEC, hT, hTC, hU, hP⟩

/-! ## Rational values of the Python arithmetic -/

theorem toRat_eq (v : PyFloat) : v.toRat = (v.num : ℚ) / (v.den : ℚ) := by
  rw [PyFloat.toRat, Rat.divInt_eq_div]
  push_cast
  rfl

theorem toF_toRat (x : PyVal) : x.toF.toRat = pyValToRat x := by
  cases x with
  | int n =>
    rw [PyVal.toF, toRat_eq]
    simp [pyValToRat]
  | float v => rfl

theorem toF_den_ne_zero (x : PyVal) : ((x.toF.den : ℕ) : ℚ) ≠ 0 := by
  have h := x.toF.den_pos
  exact Nat.cast_ne_zero.mpr (by omega)

theorem pyAdd_toRat (x y : PyVal) :
    pyValToRat (pyAdd x y) = pyValToRat x + pyValToRat y := by
  have hgen : ∀ (a b : PyVal),
      pyValToRat (.float ⟨a.toF.num * b.toF.den + b.toF.num * a.toF.den,
        a.toF.den * b.toF.den, Nat.mul_pos a.toF.den_pos b.toF.den_pos⟩) =
      pyValToRat a + pyValToRat b := by
    intro a b
    rw [pyValToRat, toRat_eq, ← toF_toRat a, ← toF_toRat b, toRat_eq, toRat_eq]
    have hda := toF_den_ne_zero a
    have hdb := toF_den_ne_zero b
    push_cast
    field_simp
  cases x with
  | int a =>
    cases y with
    | int b =>
      simp only [pyAdd, pyValToRat]
      push_cast
      ring
    | float v => exact hgen (.int a) (.float v)
  | float v =>
    cases y with
    | int b => exact hgen (.float v) (.int b)
    | float w => exact hgen (.float v) (.float w)

theorem pySub_toRat (x y : PyVal) :
    pyValToRat (pySub x y) = pyValToRat x - pyValToRat y := by
  have hgen : ∀ (a b : PyVal),
      pyValToRat (.float ⟨a.toF.num * b.toF.den - b.toF.num * a.toF.den,
        a.toF.den * b.toF.den, Nat.mul_pos a.toF.den_pos b.toF.den_pos⟩) =
      pyValToRat a - pyValToRat b := by
    intro a b
    rw [pyValToRat, toRat_eq, ← toF_toRat a, ← toF_toRat b, toRat_eq, toRat_eq]
    have hda := toF_den_ne_zero a
    have hdb := toF_den_ne_zero b
    push_cast
    field_simp
    ring
  cases x with
  | int a =>
    cases y with
    | int b =>
      simp only [pySub, pyValToRat]
      push_cast
      ring
    | float v => exact hgen (.int a) (.float v)
  | float v =>
    cases y with
    | int b => exact hgen (.float v) (.int b)
    | float w => exact hgen (.float v) (.float w)

theorem pyMul_toRat (x y : PyVal) :
    pyValToRat (pyMul x y) = pyValToRat x * pyValToRat y := by
  have hgen : ∀ (a b : PyVal),
      pyValToRat (.float ⟨a.toF.num * b.toF.num,
        a.toF.den * b.toF.den, Nat.mul_pos a.toF.den_pos b.toF.den_pos⟩) =
      pyValToRat a * pyValToRat b := by
    intro a b
    rw [pyValToRat, toRat_eq, ← toF_toRat a, ← toF_toRat b, toRat_eq, toRat_eq]
    have hda := toF_den_ne_zero a
    have hdb := toF_den_ne_zero b
    push_cast
    field_simp
  cases x with
  | int a =>
    cases y with
    | int b =>
      simp only [pyMul, pyValToRat]
      push_cast
      ring
    | float v => exact hgen (.int a) (.float v)
  | float v =>
    cases y with
    | int b => exact hgen (.float v) (.int b)
    | float w => exact hgen (.float v) (.float w)

theorem pyNeg_toRat (x : PyVal) : pyValToRat (pyNeg x) = -pyValToRat x := by
  cases x with
  | int n => simp [pyNeg, pyValToRat]
  | float v =>
    simp only [pyNeg, pyValToRat]
    rw [toRat_eq, toRat_eq]
    push_cast
    ring

theorem pyDiv_toRat {x y : PyVal} (hz : y.isZero = false) :
    ∃ v, pyDiv x y = .ok v ∧ pyValToRat v = pyValToRat x / pyValToRat y := by
  have hyn : y.toF.num ≠ 0 := PyVal.toF_num_ne_zero hz
  have hda := toF_den_ne_zero x
  have hdb := toF_den_ne_zero y
  rw [pyDiv, dif_neg (by rw [hz]; exact Bool.false_ne_true)]
  by_cases hpos : 0 ≤ y.toF.num
  · simp only [if_pos hpos]
    refine ⟨_, rfl, ?_⟩
    rw [pyValToRat, toRat_eq, ← toF_toRat x, ← toF_toRat y, toRat_eq, toRat_eq]
    have hynq : ((y.toF.num : ℤ) : ℚ) ≠ 0 := Int.cast_ne_zero.mpr hyn
    push_cast
    rw [Int.cast_natAbs, abs_of_nonneg hpos]
    field_simp
  · simp only [if_neg hpos]
    refine ⟨_, rfl, ?_⟩
    rw [pyValToRat, toRat_eq, ← toF_toRat x, ← toF_toRat y, toRat_eq, toRat_eq]
    have hynq : ((y.toF.num : ℤ) : ℚ) ≠ 0 := Int.cast_ne_zero.mpr hyn
    push_cast
    rw [Int.cast_natAbs, abs_of_neg (not_le.mp hpos)]
    push_cast
    field_simp

/-- Evaluation agreement: a Python tree agreeing with a spec tree evaluates
to a value with exactly the spec's rational result, whenever the spec
evaluation succeeds. -/
theorem evalAgree : ∀ {e : SExpr} {e2 : PExpr}, Agree e e2 →
    ∀ q : ℚ, specEvalExpr e = .ok q →
    ∃ v : PyVal, evalP e2 = .ok v ∧ pyValToRat v = q := by
  intro e e2 hag
  induction hag with
  | int n =>
    intro q h
    injection h with h2
    exact ⟨.int n, rfl, by rw [← h2]; simp [pyValToRat]⟩
  | float v =>
    intro q h
    injection h with h2
    exact ⟨.float v, rfl, by rw [← h2]; rfl⟩
  | add ha hb iha ihb =>
    rename_i a a2 b b2
    intro q h
    rw [specEvalExpr] at h
    cases hqa : specEvalExpr a with
    | error e0 =>
      rw [hqa] at h
      exact Except.noConfusion h
    | ok x =>
      simp only [hqa] at h
      cases hqb : specEvalExpr b with
      | error e0 =>
        rw [hqb] at h
        exact Except.noConfusion h
      | ok y =>
        simp only [hqb] at h
        injection h with h2
        obtain ⟨va, hva, hvaq⟩ := iha x hqa
        obtain ⟨vb, hvb, hvbq⟩ := ihb y hqb
        refine ⟨pyAdd va vb, ?_, ?_⟩
        · rw [evalP]
          simp only [hva, hvb]
        · rw [pyAdd_toRat, hvaq, hvbq, h2]
  | sub ha hb iha ihb =>
    rename_i a a2 b b2
    intro q h
    rw [specEvalExpr] at h
    cases hqa : specEvalExpr a with
    | error e0 =>
      rw [hqa] at h
      exact Except.noConfusion h
    | ok x =>
      simp only [hqa] at h
      cases hqb : specEvalExpr b with
      | error e0 =>
        rw [hqb] at h
        exact Except.noConfusion h
      | ok y =>
        simp only [hqb] at h
        injection h with h2
        obtain ⟨va, hva, hvaq⟩ := iha x hqa
        obtain ⟨vb, hvb, hvbq⟩ := ihb y hqb
        refine ⟨pySub va vb, ?_, ?_⟩
        · rw [evalP]
          simp only [hva, hvb]
        · rw [pySub_toRat, hvaq, hvbq, h2]
  | mul ha hb iha ihb =>
    rename_i a a2 b b2
    intro q h
    rw [specEvalExpr] at h
    cases hqa : specEvalExpr a with
    | error e0 =>
      rw [hqa] at h
      exact Except.noConfusion h
    | ok x =>
      simp only [hqa] at h
      cases hqb : specEvalExpr b with
      | error e0 =>
        rw [hqb] at h
        exact Except.noConfusion h
      | ok y =>
        simp only [hqb] at h
        injection h with h2
        obtain ⟨va, hva, hvaq⟩ := iha x hqa
        obtain ⟨vb, hvb, hvbq⟩ := ihb y hqb
        refine ⟨pyMul va vb, ?_, ?_⟩
        · rw [evalP]
          simp only [hva, hvb]
        · rw [pyMul_toRat, hvaq, hvbq, h2]
  | div ha hb iha ihb =>
    rename_i a a2 b b2
    intro q h
    rw [specEvalExpr] at h
    cases hqa : specEvalExpr a with
    | error e0 =>
      rw [hqa] at h
      exact Except.noConfusion h
    | ok x =>
      simp only [hqa] at h
      cases hqb : specEvalExpr b with
      | error e0 =>
        rw [hqb] at h
        exact Except.noConfusion h
      | ok y =>
        simp only [hqb] at h
        by_cases hy0 : y = 0
        · rw [if_pos hy0] at h
          exact Except.noConfusion h
        · rw [if_neg hy0] at h
          injection h with h2
          obtain ⟨va, hva, hvaq⟩ := iha x hqa
          obtain ⟨vb, hvb, hvbq⟩ := ihb y hqb
          have hzb : vb.isZero = false := by
            rcases Bool.eq_false_or_eq_true vb.isZero with ht | hf
            · exact absurd (hvbq ▸ isZero_iff_toRat.mp ht) hy0
            · exact hf
          obtain ⟨v, hdv, hdq⟩ := pyDiv_toRat hzb
          refine ⟨v, ?_, ?_⟩
          · rw [evalP]
            simp only [hva, hvb]
            exact hdv
          · rw [hdq, hvaq, hvbq, h2]
  | neg ha iha =>
    rename_i a a2
    intro q h
    rw [specEvalExpr] at h
    cases hqa : specEvalExpr a with
    | error e0 =>
      rw [hqa] at h
      exact Except.noConfusion h
    | ok x =>
      simp only [hqa] at h
      injection h with h2
      obtain ⟨va, hva, hvaq⟩ := iha x hqa
      refine ⟨pyNeg va, ?_, ?_⟩
      · rw [evalP]
        simp only [hva]
      · rw [pyNeg_toRat, hvaq, h2]

/-- Refinement inside the exact-rational embedding: a spec-valid,
leading-zero-free input evaluates in the Python model to a value carrying
exactly the spec's rational result.  The model's float arithmetic is exact,
whereas CPython floats are IEEE-754 doubles that round, so on inputs with
`.` or `/` this lemma speaks about the embedding, not the program; the
integer-only corollary below is the claim that transfers. -/
theorem specEvaluate_refines (s : String) (q : ℚ)
    (hspec : specEvaluate s = .ok q) (hlz : noLZ s = true) :
    ∃ v : PyVal, pyEvalValue s = .ok v ∧ pyValToRat v = q := by
  rw [specEvaluate] at hspec
  cases htok : specTokenize s with
  | error e =>
    rw [htok] at hspec
    exact Except.noConfusion hspec
  | ok ts =>
    simp only [htok] at hspec
    cases hparse : specParseAll ts with
    | none =>
      rw [hparse] at hspec
      exact Except.noConfusion hspec
    | some e =>
      simp only [hparse] at hspec
      have hds : NoDS ts := specTok_NoDS _ _ _ (by rw [← specTokenize]; exact htok)
      rw [specParseAll] at hparse
      cases hse : sExpr (parseFuel ts) ts with
      | none =>
        rw [hse] at hparse
        exact Option.noConfusion hparse
      | some p =>
        obtain ⟨e0, rest⟩ := p
        simp only [hse] at hparse
        cases rest with
        | cons t r => exact Option.noConfusion hparse
        | nil =>
          injection hparse with h2
          subst h2
          have hadj : NoAdj ts :=
            (specParse_NoAdj (parseFuel ts)).1 ts e0 [] hse trivial
          have hpytok : pyTokenize s = .ok ts := by
            rw [pyTokenize]
            rw [specTokenize] at htok
            rw [noLZ] at hlz
            exact tokBridge _ _ _ htok hlz hadj
          obtain ⟨_, e2, hpe, hag⟩ :=
            (parseBridge (parseFuel ts)).1 ts e0 [] hds hse (by simp)
          obtain ⟨v, hev, hvq⟩ := evalAgree hag q hspec
          have hpp : pyParseAll ts = some e2 := by
            rw [pyParseAll]
            simp only [hpe]
          refine ⟨v, ?_, hvq⟩
          rw [pyEvalValue, hpytok]
          simp only [hpp]
          exact hev

/-- Counterexample to C1 as stated: "007" is syntactically valid for the spec
grammar (digits form a NUMBER) and has mathematical value 7, but Python's
lexer rejects integer literals with redundant leading zeros, so the code
fails with a SyntaxError instead of succeeding. -/
theorem c1_counterexample :
    specEvaluate "007" = .ok 7 ∧
    pyEvalValue "007" = .error .syntaxError ∧
    pyEvalDisplay "007" = .error .syntaxError :=
  ⟨by with_unfolding_all decide, by decide, by decide⟩

/-! ## Integer-only inputs stay in exact int arithmetic -/

theorem IntToks_nil : IntToks [] := fun t ht => absurd ht (List.not_mem_nil t)

theorem IntToks_tail {a : Tok} {ts : List Tok} (h : IntToks (a :: ts)) :
    IntToks ts :=
  fun t ht => h t (List.mem_cons_of_mem a ht)

theorem mem_of_mem_dropWhile {α : Type} (p : α → Bool) :
    ∀ (l : List α) (x : α), x ∈ l.dropWhile p → x ∈ l := by
  intro l
  induction l with
  | nil =>
    intro x hx
    exact absurd hx (List.not_mem_nil x)
  | cons a l ih =>
    intro x hx
    rw [List.dropWhile_cons] at hx
    split at hx
    · exact List.mem_cons_of_mem a (ih x hx)
    · exact hx

theorem lexNum_intOnly {c : Char} {cs ip fp rest : List Char} {hasDot : Bool}
    (heq : lexNum (c :: cs) = (ip, hasDot, fp, rest))
    (hall : ∀ x ∈ c :: cs, intOnlyChar x = true) :
    hasDot = false ∧ ∀ x ∈ rest, x ∈ c :: cs := by
  simp only [lexNum, List.span_eq_take_drop] at heq
  cases hdw : (c :: cs).dropWhile isDig with
  | nil =>
    rw [hdw] at heq
    injection heq with h1 h2
    injection h2 with h3 h4
    injection h4 with h5 h6
    refine ⟨h3.symm, ?_⟩
    rw [← h6]
    intro x hx
    exact absurd hx (List.not_mem_nil x)
  | cons d r2 =>
    have hd : d ∈ (c :: cs).dropWhile isDig := by
      rw [hdw]
      exact List.mem_cons_self d r2
    have hdi : intOnlyChar d = true :=
      hall d (mem_of_mem_dropWhile isDig (c :: cs) d hd)
    have hdot : d ≠ '.' := by
      intro hcon
      subst hcon
      exact absurd hdi (by decide)
    rw [hdw] at heq
    split at heq
    · rename_i q2 hq
      injection hq with hd1 hd2
      exact absurd hd1 hdot
    · injection heq with h1 h2
      injection h2 with h3 h4
      injection h4 with h5 h6
      refine ⟨h3.symm, ?_⟩
      rw [← h6]
      intro x hx
      refine mem_of_mem_dropWhile isDig (c :: cs) x ?_
      rw [hdw]
      exact hx

theorem specTok_intToks : ∀ (f : Nat) (cs : List Char) (ts : List Tok),
    specTokAux f cs = .ok ts → (∀ c ∈ cs, intOnlyChar c = true) →
    IntToks ts := by
  intro f
  induction f with
  | zero => intro cs ts h _; exact Except.noConfusion h
  | succ f ih =>
    intro cs ts h hall
    cases cs with
    | nil =>
      rw [specTokAux] at h
      injection h with h2
      subst h2
      exact IntToks_nil
    | cons c cs2 =>
      have htail : ∀ x ∈ cs2, intOnlyChar x = true :=
        fun x hx => hall x (List.mem_cons_of_mem c hx)
      rw [specTokAux] at h
      by_cases hsp : (c == ' ') = true
      · have hc := hall c (List.mem_cons_self c cs2)
        rw [eq_of_beq hsp] at hc
        exact absurd hc (by decide)
      · rw [if_neg hsp] at h
        by_cases hdig : (isDig c || c == '.') = true
        · rw [if_pos hdig] at h
          split at h
          rename_i ip hasDot fp rest heq
          obtain ⟨hdot, hsub⟩ := lexNum_intOnly heq hall
          subst hdot
          by_cases hemp : (ip.isEmpty && fp.isEmpty) = true
          · rw [if_pos hemp] at h
            exact Except.noConfusion h
          · rw [if_neg hemp] at h
            cases hrec : specTokAux f rest with
            | error e =>
              rw [hrec] at h
              exact Except.noConfusion h
            | ok ts2 =>
              simp only [hrec, Bool.false_eq_true, if_false] at h
              injection h with h2
              subst h2
              intro t ht
              rcases List.mem_cons.mp ht with rfl | ht2
              · exact ⟨(fun v hc => by cases hc), (by simp), (by simp), (by simp)⟩
              · exact ih rest ts2 hrec (fun x hx => hall x (hsub x hx)) t ht2
        · rw [if_neg hdig] at h
          have hc := hall c (List.mem_cons_self c cs2)
          have hdigf : isDig c = false := by
            cases hd : isDig c with
            | false => rfl
            | true => exact absurd (by rw [hd]; rfl) hdig
          have hcases : c = '+' ∨ c = '-' ∨ c = '*' ∨ c = '(' ∨ c = ')' := by
            rw [intOnlyChar] at hc
            simp only [Bool.or_eq_true, beq_iff_eq] at hc
            rcases hc with ((((hx | hx) | hx) | hx) | hx) | hx
            · rw [hdigf] at hx
              exact absurd hx (by decide)
            · exact Or.inl hx
            · exact Or.inr (Or.inl hx)
            · exact Or.inr (Or.inr (Or.inl hx))
            · exact Or.inr (Or.inr (Or.inr (Or.inl hx)))
            · exact Or.inr (Or.inr (Or.inr (Or.inr hx)))
          cases hct : charTok c with
          | none =>
            rw [hct] at h
            exact Except.noConfusion h
          | some tk =>
            rw [hct] at h
            cases hrec : specTokAux f cs2 with
            | error e =>
              rw [hrec] at h
              exact Except.noConfusion h
            | ok ts2 =>
              simp only [hrec] at h
              injection h with h2
              subst h2
              have htk : tk = .plus ∨ tk = .minus ∨ tk = .star ∨
                  tk = .lpar ∨ tk = .rpar := by
                rcases hcases with rfl | rfl | rfl | rfl | rfl
                all_goals
                  injection hct.symm.trans (by rfl) with h3
                · exact Or.inl h3
                · exact Or.inr (Or.inl h3)
                · exact Or.inr (Or.inr (Or.inl h3))
                · exact Or.inr (Or.inr (Or.inr (Or.inl h3)))
                · exact Or.inr (Or.inr (Or.inr (Or.inr h3)))
              intro t ht
              rcases List.mem_cons.mp ht with rfl | ht2
              · rcases htk with rfl | rfl | rfl | rfl | rfl
                all_goals
                  exact ⟨(fun v hc => by cases hc), (by simp), (by simp), (by simp)⟩
              · exact ih cs2 ts2 hrec htail t ht2

theorem pyTrail_lpar (f : Nat) (a : PExpr) (r : List Tok) :
    pyTrail (f + 1) a (.lpar :: r) =
      (match r with
       | .rpar :: r2 => pyTrail f (.call0 a) r2
       | _ =>
         match pyExpr f r with
         | none => none
         | some (a1, r1) =>
           match r1 with
           | .rpar :: r2 => pyTrail f (.call1 a a1) r2
           | _ => none) := rfl

theorem pyTrail_else_aux (f : Nat) (a : PExpr) (r : List Tok) (e : PExpr)
    (rest : List Tok)
    (ihE : ∀ ts e0 r0, IntToks ts → pyExpr f ts = some (e0, r0) →
      IntTree e0 ∧ IntToks r0)
    (ihTr : ∀ a0 ts e0 r0, IntToks ts → IntTree a0 →
      pyTrail f a0 ts = some (e0, r0) → IntTree e0 ∧ IntToks r0)
    (hit : IntToks r) (hacc : IntTree a)
    (h : (match pyExpr f r with
          | none => none
          | some (a1, r1) =>
            match r1 with
            | .rpar :: r2 => pyTrail f (.call1 a a1) r2
            | _ => none) = some (e, rest)) :
    IntTree e ∧ IntToks rest := by
  cases hpe : pyExpr f r with
  | none =>
    rw [hpe] at h
    exact Option.noConfusion h
  | some p =>
    obtain ⟨a1, r1⟩ := p
    simp only [hpe] at h
    obtain ⟨ht1, hr1⟩ := ihE r a1 r1 hit hpe
    cases r1 with
    | nil => exact Option.noConfusion h
    | cons t r2 =>
      cases t
      case rpar =>
        exact ihTr (.call1 a a1) r2 e rest (IntToks_tail hr1)
          (IntTree.call1 hacc ht1) h
      all_goals exact Option.noConfusion h

theorem pyParse_IntTree : ∀ f : Nat,
    (∀ ts e rest, IntToks ts → pyExpr f ts = some (e, rest) →
      IntTree e ∧ IntToks rest) ∧
    (∀ acc ts e rest, IntToks ts → IntTree acc →
      pyExprChain f acc ts = some (e, rest) → IntTree e ∧ IntToks rest) ∧
    (∀ ts e rest, IntToks ts → pyTerm f ts = some (e, rest) →
      IntTree e ∧ IntToks rest) ∧
    (∀ acc ts e rest, IntToks ts → IntTree acc →
      pyTermChain f acc ts = some (e, rest) → IntTree e ∧ IntToks rest) ∧
    (∀ ts e rest, IntToks ts → pyFactor f ts = some (e, rest) →
      IntTree e ∧ IntToks rest) ∧
    (∀ ts e rest, IntToks ts → pyPower f ts = some (e, rest) →
      IntTree e ∧ IntToks rest) ∧
    (∀ a ts e rest, IntToks ts → IntTree a →
      pyTrail f a ts = some (e, rest) → IntTree e ∧ IntToks rest) := by
  intro f
  induction f with
  | zero =>
    refine ⟨?_, ?_, ?_, ?_, ?_, ?_, ?_⟩
    · intro ts e rest _ h
      exact Option.noConfusion h
    · intro acc ts e rest hit hacc h
      match ts with
      | [] =>
        injection h with h2
        injection h2 with h3 h4
        subst h3
        subst h4
        exact ⟨hacc, IntToks_nil⟩
      | .plus :: r => exact Option.noConfusion h
      | .minus :: r => exact Option.noConfusion h
      | .int n :: r | .float v :: r | .star :: r | .slash :: r | .dstar :: r
      | .dslash :: r | .lpar :: r | .rpar :: r =>
        injection h with h2
        injection h2 with h3 h4
        subst h3
        subst h4
        exact ⟨hacc, hit⟩
    · intro ts e rest _ h
      exact Option.noConfusion h
    · intro acc ts e rest hit hacc h
      match ts with
      | [] =>
        injection h with h2
        injection h2 with h3 h4
        subst h3
        subst h4
        exact ⟨hacc, IntToks_nil⟩
      | .star :: r => exact Option.noConfusion h
      | .slash :: r => exact Option.noConfusion h
      | .dslash :: r => exact Option.noConfusion h
      | .int n :: r | .float v :: r | .plus :: r | .minus :: r | .dstar :: r
      | .lpar :: r | .rpar :: r =>
        injection h with h2
        injection h2 with h3 h4
        subst h3
        subst h4
        exact ⟨hacc, hit⟩
    · intro ts e rest _ h
      exact Option.noConfusion h
    · intro ts e rest _ h
      exact Option.noConfusion h
    · intro a ts e rest hit hacc h
      match ts with
      | [] =>
        injection h with h2
        injection h2 with h3 h4
        subst h3
        subst h4
        exact ⟨hacc, IntToks_nil⟩
      | .lpar :: r => exact Option.noConfusion h
      | .int n :: r | .float v :: r | .plus :: r | .minus :: r | .star :: r
      | .slash :: r | .dstar :: r | .dslash :: r | .rpar :: r =>
        injection h with h2
        injection h2 with h3 h4
        subst h3
        subst h4
        exact ⟨hacc, hit⟩
  | succ f ih =>
    obtain ⟨ihE, ihEC, ihT, ihTC, ihF, ihP, ihTr⟩ := ih
    refine ⟨?_, ?_, ?_, ?_, ?_, ?_, ?_⟩
    · intro ts e rest hit h
      rw [pyExpr] at h
      cases hpt : pyTerm f ts with
      | none =>
        rw [hpt] at h
        exact Option.noConfusion h
      | some p =>
        obtain ⟨t, r⟩ := p
        simp only [hpt] at h
        obtain ⟨ht1, hr1⟩ := ihT ts t r hit hpt
        exact ihEC t r e rest hr1 ht1 h
    · intro acc ts e rest hit hacc h
      match ts with
      | [] =>
        injection h with h2
        injection h2 with h3 h4
        subst h3
        subst h4
        exact ⟨hacc, IntToks_nil⟩
      | .plus :: r =>
        rw [show pyExprChain (f + 1) acc (Tok.plus :: r) =
            (match pyTerm f r with
             | none => none
             | some (t, r1) => pyExprChain f (.add acc t) r1) from rfl] at h
        cases hpt : pyTerm f r with
        | none =>
          rw [hpt] at h
          exact Option.noConfusion h
        | some p =>
          obtain ⟨t, r1⟩ := p
          simp only [hpt] at h
          obtain ⟨ht1, hr1⟩ := ihT r t r1 (IntToks_tail hit) hpt
          exact ihEC (.add acc t) r1 e rest hr1 (IntTree.add hacc ht1) h
      | .minus :: r =>
        rw [show pyExprChain (f + 1) acc (Tok.minus :: r) =
            (match pyTerm f r with
             | none => none
             | some (t, r1) => pyExprChain f (.sub acc t) r1) from rfl] at h
        cases hpt : pyTerm f r with
        | none =>
          rw [hpt] at h
          exact Option.noConfusion h
        | some p =>
          obtain ⟨t, r1⟩ := p
          simp only [hpt] at h
          obtain ⟨ht1, hr1⟩ := ihT r t r1 (IntToks_tail hit) hpt
          exact ihEC (.sub acc t) r1 e rest hr1 (IntTree.sub hacc ht1) h
      | .int n :: r | .float v :: r | .star :: r | .slash :: r | .dstar :: r
      | .dslash :: r | .lpar :: r | .rpar :: r =>
        injection h with h2
        injection h2 with h3 h4
        subst h3
        subst h4
        exact ⟨hacc, hit⟩
    · intro ts e rest hit h
      rw [pyTerm] at h
      cases hpf : pyFactor f ts with
      | none =>
        rw [hpf] at h
        exact Option.noConfusion h
      | some p =>
        obtain ⟨t, r⟩ := p
        simp only [hpf] at h
        obtain ⟨ht1, hr1⟩ := ihF ts t r hit hpf
        exact ihTC t r e rest hr1 ht1 h
    · intro acc ts e rest hit hacc h
      match ts with
      | [] =>
        injection h with h2
        injection h2 with h3 h4
        subst h3
        subst h4
        exact ⟨hacc, IntToks_nil⟩
      | .star :: r =>
        rw [show pyTermChain (f + 1) acc (Tok.star :: r) =
            (match pyFactor f r with
             | none => none
             | some (t, r1) => pyTermChain f (.mul acc t) r1) from rfl] at h
        cases hpf : pyFactor f r with
        | none =>
          rw [hpf] at h
          exact Option.noConfusion h
        | some p =>
          obtain ⟨t, r1⟩ := p
          simp only [hpf] at h
          obtain ⟨ht1, hr1⟩ := ihF r t r1 (IntToks_tail hit) hpf
          exact ihTC (.mul acc t) r1 e rest hr1 (IntTree.mul hacc ht1) h
      | .slash :: r =>
        exact absurd rfl (hit .slash (List.mem_cons_self _ _)).2.1
      | .dslash :: r =>
        exact absurd rfl (hit .dslash (List.mem_cons_self _ _)).2.2.1
      | .int n :: r | .float v :: r | .plus :: r | .minus :: r | .dstar :: r
      | .lpar :: r | .rpar :: r =>
        injection h with h2
        injection h2 with h3 h4
        subst h3
        subst h4
        exact ⟨hacc, hit⟩
    · intro ts e rest hit h
      match ts with
      | .minus :: r =>
        rw [show pyFactor (f + 1) (Tok.minus :: r) =
            (match pyFactor f r with
             | none => none
             | some (e0, r1) => some (.neg e0, r1)) from rfl] at h
        cases hpf : pyFactor f r with
        | none =>
          rw [hpf] at h
          exact Option.noConfusion h
        | some p =>
          obtain ⟨e0, r1⟩ := p
          simp only [hpf] at h
          injection h with h2
          injection h2 with h3 h4
          subst h3
          subst h4
          obtain ⟨ht1, hr1⟩ := ihF r e0 r1 (IntToks_tail hit) hpf
          exact ⟨IntTree.neg ht1, hr1⟩
      | .plus :: r =>
        rw [show pyFactor (f + 1) (Tok.plus :: r) =
            (match pyFactor f r with
             | none => none
             | some (e0, r1) => some (.pos e0, r1)) from rfl] at h
        cases hpf : pyFactor f r with
        | none =>
          rw [hpf] at h
          exact Option.noConfusion h
        | some p =>
          obtain ⟨e0, r1⟩ := p
          simp only [hpf] at h
          injection h with h2
          injection h2 with h3 h4
          subst h3
          subst h4
          obtain ⟨ht1, hr1⟩ := ihF r e0 r1 (IntToks_tail hit) hpf
          exact ⟨IntTree.pos ht1, hr1⟩
      | [] =>
        rw [show pyFactor (f + 1) ([] : List Tok) = pyPower f [] from rfl] at h
        exact ihP [] e rest hit h
      | .int n :: r =>
        rw [show pyFactor (f + 1) (Tok.int n :: r) =
          pyPower f (Tok.int n :: r) from rfl] at h
        exact ihP _ e rest hit h
      | .float v :: r =>
        rw [show pyFactor (f + 1) (Tok.float v :: r) =
          pyPower f (Tok.float v :: r) from rfl] at h
        exact ihP _ e rest hit h
      | .lpar :: r =>
        rw [show pyFactor (f + 1) (Tok.lpar :: r) =
          pyPower f (Tok.lpar :: r) from rfl] at h
        exact ihP _ e rest hit h
      | .star :: r =>
        rw [show pyFactor (f + 1) (Tok.star :: r) =
          pyPower f (Tok.star :: r) from rfl] at h
        exact ihP _ e rest hit h
      | .slash :: r =>
        rw [show pyFactor (f + 1) (Tok.slash :: r) =
          pyPower f (Tok.slash :: r) from rfl] at h
        exact ihP _ e rest hit h
      | .dstar :: r =>
        rw [show pyFactor (f + 1) (Tok.dstar :: r) =
          pyPower f (Tok.dstar :: r) from rfl] at h
        exact ihP _ e rest hit h
      | .dslash :: r =>
        rw [show pyFactor (f + 1) (Tok.dslash :: r) =
          pyPower f (Tok.dslash :: r) from rfl] at h
        exact ihP _ e rest hit h
      | .rpar :: r =>
        rw [show pyFactor (f + 1) (Tok.rpar :: r) =
          pyPower f (Tok.rpar :: r) from rfl] at h
        exact ihP _ e rest hit h
    · intro ts e rest hit h
      match ts with
      | .int n :: r =>
        rw [show pyPower (f + 1) (Tok.int n :: r) =
            (match pyTrail f (.intLit n) r with
             | none => none
             | some (e1, r1) =>
               match r1 with
               | .dstar :: r2 =>
                 (match pyFactor f r2 with
                  | none => none
                  | some (x, r3) => some (.pow e1 x, r3))
               | _ => some (e1, r1)) from rfl] at h
        cases htr : pyTrail f (.intLit n) r with
        | none =>
          rw [htr] at h
          exact Option.noConfusion h
        | some p =>
          obtain ⟨e1, r1⟩ := p
          simp only [htr] at h
          obtain ⟨ht1, hr1⟩ := ihTr (.intLit n) r e1 r1 (IntToks_tail hit)
            (IntTree.intLit n) htr
          cases r1 with
          | nil =>
            injection h with h2
            injection h2 with h3 h4
            subst h3
            subst h4
            exact ⟨ht1, hr1⟩
          | cons t r2 =>
            cases t
            case dstar =>
              exact absurd rfl (hr1 .dstar (List.mem_cons_self _ _)).2.2.2
            all_goals
              (injection h with h2
               injection h2 with h3 h4
               subst h3
               subst h4
               exact ⟨ht1, hr1⟩)
      | .float v :: r =>
        exact absurd rfl ((hit (.float v) (List.mem_cons_self _ _)).1 v)
      | .lpar :: r =>
        rw [show pyPower (f + 1) (Tok.lpar :: r) =
            (match
               (match pyExpr f r with
                | none => none
                | some (e0, r1) =>
                  match r1 with
                  | .rpar :: r2 => some (e0, r2)
                  | _ => none) with
             | none => none
             | some (a, r0) =>
               match pyTrail f a r0 with
               | none => none
               | some (e1, r1) =>
                 match r1 with
                 | .dstar :: r2 =>
                   (match pyFactor f r2 with
                    | none => none
                    | some (x, r3) => some (.pow e1 x, r3))
                 | _ => some (e1, r1)) from rfl] at h
        cases hpe : pyExpr f r with
        | none =>
          rw [hpe] at h
          exact Option.noConfusion h
        | some p =>
          obtain ⟨e0, r1⟩ := p
          simp only [hpe] at h
          obtain ⟨ht0, hr1⟩ := ihE r e0 r1 (IntToks_tail hit) hpe
          match r1, h, hr1 with
          | .rpar :: r2, h, hr1 =>
            replace h : (match pyTrail f e0 r2 with
              | none => none
              | some (e1, r1) =>
                match r1 with
                | .dstar :: r2 =>
                  (match pyFactor f r2 with
                   | none => none
                   | some (x, r3) => some (.pow e1 x, r3))
                | _ => some (e1, r1)) = some (e, rest) := h
            cases htr : pyTrail f e0 r2 with
            | none =>
              rw [htr] at h
              exact Option.noConfusion h
            | some p2 =>
              obtain ⟨e1, r3⟩ := p2
              simp only [htr] at h
              obtain ⟨ht1, hr3⟩ := ihTr e0 r2 e1 r3 (IntToks_tail hr1) ht0 htr
              cases r3 with
              | nil =>
                injection h with h2
                injection h2 with h3 h4
                subst h3
                subst h4
                exact ⟨ht1, hr3⟩
              | cons t r4 =>
                cases t
                case dstar =>
                  exact absurd rfl (hr3 .dstar (List.mem_cons_self _ _)).2.2.2
                all_goals
                  (injection h with h2
                   injection h2 with h3 h4
                   subst h3
                   subst h4
                   exact ⟨ht1, hr3⟩)
      | [] => exact Option.noConfusion h
      | .plus :: r => exact Option.noConfusion h
      | .minus :: r => exact Option.noConfusion h
      | .star :: r => exact Option.noConfusion h
      | .slash :: r => exact Option.noConfusion h
      | .dstar :: r => exact Option.noConfusion h
      | .dslash :: r => exact Option.noConfusion h
      | .rpar :: r => exact Option.noConfusion h
    · intro a ts e rest hit hacc h
      match ts with
      | [] =>
        injection h with h2
        injection h2 with h3 h4
        subst h3
        subst h4
        exact ⟨hacc, IntToks_nil⟩
      | .lpar :: r =>
        rw [pyTrail_lpar] at h
        cases r with
        | nil =>
          exact pyTrail_else_aux f a [] e rest ihE ihTr IntToks_nil hacc h
        | cons t r2 =>
          cases t
          case rpar =>
            exact ihTr (.call0 a) r2 e rest
              (IntToks_tail (IntToks_tail hit)) (IntTree.call0 hacc) h
          all_goals
            exact pyTrail_else_aux f a _ e rest ihE ihTr
              (IntToks_tail hit) hacc h
      | .int n :: r | .float v :: r | .plus :: r | .minus :: r | .star :: r
      | .slash :: r | .dstar :: r | .dslash :: r | .rpar :: r =>
        injection h with h2
        injection h2 with h3 h4
        subst h3
        subst h4
        exact ⟨hacc, hit⟩

theorem evalP_IntTree : ∀ {t : PExpr}, IntTree t → ∀ {v : PyVal},
    evalP t = .ok v → ∃ n : Int, v = .int n := by
  intro t ht
  induction ht with
  | intLit n =>
    intro v h
    injection h with h2
    exact ⟨(n : Int), h2.symm⟩
  | add ha hb iha ihb =>
    rename_i a b
    intro v h
    rw [evalP] at h
    cases hva : evalP a with
    | error e =>
      rw [hva] at h
      exact Except.noConfusion h
    | ok x =>
      simp only [hva] at h
      cases hvb : evalP b with
      | error e =>
        rw [hvb] at h
        exact Except.noConfusion h
      | ok y =>
        simp only [hvb] at h
        injection h with h2
        obtain ⟨na, hna⟩ := iha hva
        obtain ⟨nb, hnb⟩ := ihb hvb
        subst hna
        subst hnb
        exact ⟨na + nb, h2.symm⟩
  | sub ha hb iha ihb =>
    rename_i a b
    intro v h
    rw [evalP] at h
    cases hva : evalP a with
    | error e =>
      rw [hva] at h
      exact Except.noConfusion h
    | ok x =>
      simp only [hva] at h
      cases hvb : evalP b with
      | error e =>
        rw [hvb] at h
        exact Except.noConfusion h
      | ok y =>
        simp only [hvb] at h
        injection h with h2
        obtain ⟨na, hna⟩ := iha hva
        obtain ⟨nb, hnb⟩ := ihb hvb
        subst hna
        subst hnb
        exact ⟨na - nb, h2.symm⟩
  | mul ha hb iha ihb =>
    rename_i a b
    intro v h
    rw [evalP] at h
    cases hva : evalP a with
    | error e =>
      rw [hva] at h
      exact Except.noConfusion h
    | ok x =>
      simp only [hva] at h
      cases hvb : evalP b with
      | error e =>
        rw [hvb] at h
        exact Except.noConfusion h
      | ok y =>
        simp only [hvb] at h
        injection h with h2
        obtain ⟨na, hna⟩ := iha hva
        obtain ⟨nb, hnb⟩ := ihb hvb
        subst hna
        subst hnb
        exact ⟨na * nb, h2.symm⟩
  | neg ha iha =>
    rename_i a
    intro v h
    rw [evalP] at h
    cases hva : evalP a with
    | error e =>
      rw [hva] at h
      exact Except.noConfusion h
    | ok x =>
      simp only [hva] at h
      injection h with h2
      obtain ⟨na, hna⟩ := iha hva
      subst hna
      exact ⟨-na, h2.symm⟩
  | pos ha iha =>
    rename_i a
    intro v h
    rw [evalP] at h
    exact iha h
  | call0 ha iha =>
    rename_i a
    intro v h
    rw [evalP] at h
    cases hva : evalP a with
    | error e =>
      rw [hva] at h
      exact Except.noConfusion h
    | ok x =>
      simp only [hva] at h
      exact Except.noConfusion h
  | call1 ha hb iha ihb =>
    rename_i a b
    intro v h
    rw [evalP] at h
    cases hva : evalP a with
    | error e =>
      rw [hva] at h
      exact Except.noConfusion h
    | ok x =>
      simp only [hva] at h
      cases hvb : evalP b with
      | error e =>
        rw [hvb] at h
        exact Except.noConfusion h
      | ok y =>
        simp only [hvb] at h
        exact Except.noConfusion h

/-- C1 (amended, integer-only fragment): for every input string over digits,
`+`, `-`, `*`, `(`, `)` — no `.`, no `/` — that is syntactically valid for
the spec grammar with a defined value and whose integer literals carry no
redundant leading zeros, evaluation by the code succeeds with a Python
`int` equal to the mathematically correct result under standard precedence
and left-associativity.  Python `int` arithmetic is exact and unbounded, so
this fragment transfers to the program; inputs with `.` or `/` enter
IEEE-754 float arithmetic (where e.g. `0.1+0.2` rounds away from `3/10`)
and are excluded, and `"007"` shows the leading-zero exclusion is needed. -/
theorem c1_int_exprs_correct (s : String) (q : ℚ)
    (hspec : specEvaluate s = .ok q) (hlz : noLZ s = true)
    (hint : intOnly s = true) :
    ∃ n : Int, pyEvalValue s = .ok (.int n) ∧ (n : ℚ) = q := by
  have hall : ∀ c ∈ s.toList, intOnlyChar c = true := by
    rw [intOnly] at hint
    exact List.all_eq_true.mp hint
  rw [specEvaluate] at hspec
  cases htok : specTokenize s with
  | error e =>
    rw [htok] at hspec
    exact Except.noConfusion hspec
  | ok ts =>
    simp only [htok] at hspec
    cases hparse : specParseAll ts with
    | none =>
      rw [hparse] at hspec
      exact Except.noConfusion hspec
    | some e =>
      simp only [hparse] at hspec
      have hds : NoDS ts := specTok_NoDS _ _ _
        (by rw [← specTokenize]; exact htok)
      have hits : IntToks ts := by
        refine specTok_intToks (s.toList.length + 1) s.toList ts ?_ hall
        rw [← specTokenize]
        exact htok
      rw [specParseAll] at hparse
      cases hse : sExpr (parseFuel ts) ts with
      | none =>
        rw [hse] at hparse
        exact Option.noConfusion hparse
      | some p =>
        obtain ⟨e0, rest⟩ := p
        simp only [hse] at hparse
        cases rest with
        | cons t r => exact Option.noConfusion hparse
        | nil =>
          injection hparse with h2
          subst h2
          have hadj : NoAdj ts :=
            (specParse_NoAdj (parseFuel ts)).1 ts e0 [] hse trivial
          have hpytok : pyTokenize s = .ok ts := by
            rw [pyTokenize]
            rw [specTokenize] at htok
            rw [noLZ] at hlz
            exact tokBridge _ _ _ htok hlz hadj
          obtain ⟨_, e2, hpe, hag⟩ :=
            (parseBridge (parseFuel ts)).1 ts e0 [] hds hse (by simp)
          obtain ⟨v, hev, hvq⟩ := evalAgree hag q hspec
          have htree : IntTree e2 :=
            ((pyParse_IntTree (parseFuel ts)).1 ts e2 [] hits hpe).1
          obtain ⟨n, hn⟩ := evalP_IntTree htree hev
          subst hn
          have hpp : pyParseAll ts = some e2 := by
            rw [pyParseAll]
            simp only [hpe]
          refine ⟨n, ?_, ?_⟩
          · rw [pyEvalValue, hpytok]
            simp only [hpp]
            exact hev
          · rw [← hvq]
            rfl

/-- Witness: "2+2" is an integer-only spec-valid input with value 4; the
code evaluates it to the Python int 4, displayed "4". -/
theorem c1_int_exprs_correct_witness :
    (specEvaluate "2+2" = .ok 4 ∧ noLZ "2+2" = true ∧
      intOnly "2+2" = true) ∧
    (∃ n : Int, pyEvalValue "2+2" = .ok (.int n) ∧ (n : ℚ) = 4) ∧
    pyEvalDisplay "2+2" = .ok "4" :=
  ⟨⟨by with_unfolding_all decide, by decide, by decide⟩,
   c1_int_exprs_correct "2+2" 4 (by with_unfolding_all decide) (by decide)
     (by decide),
   by decide⟩

/-! ## Claim theorems: result formatting (C3) -/

theorem formatPos_sci_has_e {n d : ℕ} (hn : 0 < n) (hd : 0 < d)
    (h : pow10 16 * d ≤ n) : 'e' ∈ formatPos n d := by
  have hdq : (0 : ℚ) < (d : ℚ) := by exact_mod_cast hd
  have h16 : ((16 : ℕ) : ℤ) = (16 : ℤ) := rfl
  have he : 16 ≤ decExpF n d := by
    by_contra hlt
    push_neg at hlt
    have hub := (decExpF_bounds hn hd).2
    have hlow : (10 : ℚ) ^ (16 : ℤ) ≤ (n : ℚ) / (d : ℚ) := by
      rw [le_div_iff₀ hdq, ← h16, ← pow10_cast]
      exact_mod_cast h
    have hle : (10 : ℚ) ^ (decExpF n d + 1) ≤ (10 : ℚ) ^ (16 : ℤ) :=
      zpow_le_zpow_right₀ (by norm_num) (by omega)
    linarith
  rw [formatPos_ifSE, if_pos (by simp [floatDigits_snd, he])]
  rw [sciChars.eq_def]
  exact List.mem_append.mpr (Or.inr (List.mem_cons_self _ _))

/-- Counterexample to claim C3: the code renders the exactly integral result
of `"2/2"` as `"1.0"`, keeping the trailing `".0"` (Python `str` of the
float `1.0`), not as `"1"`. -/
theorem c3_counterexample :
    pyEvalDisplay "2/2" = .ok "1.0" ∧ ("1.0" : String) ≠ "1" :=
  ⟨by decide, by decide⟩

/-- Claim C3 as amended: a result of Python type `int` is rendered without
any fractional part; a result of type `float` is rendered with Python float
`repr`, which keeps a trailing `".0"` on an exactly integral float of
magnitude below `10^16` but switches to scientific notation (an `'e'` in the
output, no trailing `".0"`) at magnitude `10^16` and above; non-integral
results such as `"7/2" ↦ "3.5"` print their fractional digits. -/
theorem c3_result_formatting :
    (∀ (s : String) (n : Int), pyEvalValue s = .ok (.int n) →
        '.' ∉ (pyDisplay (.int n)).data) ∧
    (∀ (s : String) (w : PyFloat), pyEvalValue s = .ok (.float w) →
        (w.den : Int) ∣ w.num → w.num.natAbs < pow10 16 * w.den →
        ∃ pre, (pyDisplay (.float w)).data = pre ++ ['.', '0']) ∧
    (∀ (s : String) (w : PyFloat), pyEvalValue s = .ok (.float w) →
        pow10 16 * w.den ≤ w.num.natAbs →
        'e' ∈ (pyDisplay (.float w)).data) ∧
    pyEvalDisplay "7/2" = .ok "3.5" := by
  refine ⟨?_, ?_, ?_, by decide⟩
  · intro s n _
    exact intChars_no_dot n
  · intro s w _ hdvd hrange
    show ∃ pre, formatFloat w = pre ++ ['.', '0']
    rw [formatFloat]
    by_cases h0 : (w.num == 0) = true
    · rw [if_pos h0]
      exact ⟨['0'], rfl⟩
    · rw [Bool.not_eq_true] at h0
      simp only [h0, Bool.false_eq_true, if_false]
      have hnum : w.num ≠ 0 := by simpa using h0
      obtain ⟨c, hc⟩ := hdvd
      have habs : w.num.natAbs = c.natAbs * w.den := by
        rw [hc, Int.natAbs_mul, Int.natAbs_ofNat]
        ring
      have hVpos : 0 < c.natAbs := by
        rcases Nat.eq_zero_or_pos c.natAbs with h | h
        · exfalso
          rw [Int.natAbs_eq_zero] at h
          rw [h, mul_zero] at hc
          exact hnum hc
        · exact h
      have hVlt : c.natAbs < pow10 16 := by
        rw [habs] at hrange
        exact Nat.lt_of_mul_lt_mul_right hrange
      obtain ⟨pre, hp⟩ := formatPos_int hVpos w.den_pos hVlt
      by_cases hneg : w.num < 0
      · rw [if_pos hneg]
        refine ⟨'-' :: pre, ?_⟩
        rw [habs, hp]
        rfl
      · rw [if_neg hneg]
        refine ⟨pre, ?_⟩
        rw [habs, hp]
  · intro s w _ hge
    have hnpos : 0 < w.num.natAbs :=
      lt_of_lt_of_le (Nat.mul_pos (pow10_pos 16) w.den_pos) hge
    show 'e' ∈ formatFloat w
    rw [formatFloat]
    have h0 : (w.num == 0) = false :=
      beq_eq_false_iff_ne.mpr (Int.natAbs_pos.mp hnpos)
    simp only [h0, Bool.false_eq_true, if_false]
    by_cases hneg : w.num < 0
    · rw [if_pos hneg]
      exact List.mem_cons_of_mem _ (formatPos_sci_has_e hnpos w.den_pos hge)
    · rw [if_neg hneg]
      exact formatPos_sci_has_e hnpos w.den_pos hge

/-- Witness for the amended C3 at the evaluations `"5-2"` (int, no decimal
point), `"2/2"` (integral float below `10^16`, trailing `".0"`) and
`"100000000000000000/10"` (integral float of magnitude `10^16`, scientific
notation). -/
theorem c3_result_formatting_witness :
    ('.' ∉ (pyDisplay (.int 3)).data) ∧
    (∃ pre, (pyDisplay (.float ⟨2, 2, by omega⟩)).data = pre ++ ['.', '0']) ∧
    'e' ∈ (pyDisplay (.float ⟨100000000000000000, 10, by omega⟩)).data :=
  ⟨c3_result_formatting.1 "5-2" 3 (by decide),
   c3_result_formatting.2.1 "2/2" ⟨2, 2, by omega⟩ (by decide)
     (⟨1, by decide⟩) (by decide),
   c3_result_formatting.2.2.1 "100000000000000000/10"
     ⟨100000000000000000, 10, by omega⟩ (by decide) (by decide)⟩

